import Mathlib

/-!
# Olive `TrackOutput` (app/node/output/track/track.cpp)

A shallow embedding of the track node of the Olive video editor: the block
chain (blocks linked through `previous` / `next`), the ordered block cache
rebuilt by `Refresh`, the time resolver `Process` and the structural editing
operations.

Pointers are natural numbers (`Option Nat`, `none` being `nullptr`), the heap
is a map from pointers to block records, and `new` takes the next unused
pointer.  Loops that follow links take a fuel argument; `none` is returned
when a null pointer is dereferenced or the fuel runs out.
-/

namespace Olive

/-! ## Data model -/

/-- Modelled from the spec: the `Block::Type` enumeration is declared outside
track.cpp; the source names `kEnd` (the track itself) and `GapBlock`, the spec
lists End / Gap / Clip variants. -/
inductive BlockType where
  | kClip
  | kGap
  | kEnd
  deriving DecidableEq, Repr

/-- Modelled from the spec: the state of a `Block` (declared outside
track.cpp) that track.cpp reads and writes through `length()`, `set_length()`,
`previous()`, `next()`: a mutable length and the two chain links.  Times are
the `rational` type of the program, taken as `ℚ`. -/
structure Block where
  type : BlockType
  length : ℚ
  previous : Option Nat
  next : Option Nat

/-- The heap of blocks: the record stored at every pointer and the next unused
pointer (every pointer `≥ fresh` has not been handed out by `new`). -/
structure Heap where
  blocks : Nat → Block
  fresh : Nat

/-- Value held by the texture output of the track: `0` (empty), or the texture
output of a block evaluated at a time. -/
inductive TextureValue where
  | zero
  | ofBlock (block : Nat) (time : ℚ)
  deriving DecidableEq

/-- Notifications emitted by `Refresh`. -/
inductive Event where
  | BlockAdded (b : Nat)
  | BlockRemoved (b : Nat)
  deriving DecidableEq, Repr

/-- Fields of the `TrackOutput` object itself: its own pointer (`this`, the
track is a block of type `kEnd`), the block cache, the block resolved by the
last `Process`, and the values of its two outputs. -/
structure TrackOutput where
  this : Nat
  block_cache_ : List Nat
  current_block_ : Option Nat
  texture_output : TextureValue
  track_output_ : Option Nat

/-! ## Block accessors -/

/-- Modelled from the spec: `Block::previous()`, the earlier neighbour. -/
def previous (h : Heap) (b : Nat) : Option Nat := (h.blocks b).previous

/-- Modelled from the spec: `Block::next()`, the later neighbour. -/
def next (h : Heap) (b : Nat) : Option Nat := (h.blocks b).next

/-- Modelled from the spec: `Block::length()`. -/
def length (h : Heap) (b : Nat) : ℚ := (h.blocks b).length

/-- Modelled from the spec: `Block::in()` is not in track.cpp.  The spec gives
`b.in == a.out` for chain-adjacent blocks, `in == 0` for the earliest block and
`out = in + length`; so the in point of a block is `0` when it has no previous
block and the out point of its previous block otherwise.  The fuel bounds the
number of `previous` links followed. -/
def in_ (h : Heap) : Nat → Nat → Option ℚ
  | 0, _ => none
  | fuel + 1, b =>
    match previous h b with
    | none => some 0
    | some a => (in_ h fuel a).map (fun i => i + length h a)

/-- Modelled from the spec: `Block::out()`, with `out = in + length`. -/
def out (h : Heap) (fuel : Nat) (b : Nat) : Option ℚ :=
  (in_ h fuel b).map (fun i => i + length h b)

/-- Overwrite the record of one block. -/
def setBlock (h : Heap) (b : Nat) (f : Block → Block) : Heap :=
  { h with blocks := fun i => if i = b then f (h.blocks i) else h.blocks i }

/-- `set_length` (virtual): `TrackOutput::set_length` ignores the request
(track.cpp:71-74), every other block stores the length. -/
def set_length (h : Heap) (b : Nat) (len : ℚ) : Heap :=
  if (h.blocks b).type = BlockType.kEnd then h
  else setBlock h b (fun r => { r with length := len })

/-- Modelled from the spec: `Block::ConnectBlocks(previous, next)` links the
two blocks, `previous` immediately before `next`. -/
def ConnectBlocks (h : Heap) (prev nxt : Nat) : Heap :=
  setBlock (setBlock h prev (fun r => { r with next := some nxt })) nxt
    (fun r => { r with previous := some prev })

/-- Modelled from the spec: `Block::DisconnectBlocks(previous, next)` breaks
the link between the two blocks. -/
def DisconnectBlocks (h : Heap) (prev nxt : Nat) : Heap :=
  setBlock (setBlock h prev (fun r => { r with next := none })) nxt
    (fun r => { r with previous := none })

/-- `new`: a block of the given type with no links, at the next unused
pointer. -/
def newBlock (h : Heap) (ty : BlockType) : Nat × Heap :=
  (h.fresh,
   { blocks := fun i => if i = h.fresh then ⟨ty, 0, none, none⟩ else h.blocks i,
     fresh := h.fresh + 1 })

/-- `copy()` (virtual): a new block of the same type
(`TrackOutput::copy` returns `new TrackOutput()`, track.cpp:45-48); its length
is assigned by the caller. -/
def copy (h : Heap) (b : Nat) : Nat × Heap := newBlock h (h.blocks b).type

/-! ## Refresh (track.cpp:76-100) -/

/-- `attached_block()` (track.cpp:166-169): the block connected to the
`previous` input of the track. -/
def attached_block (h : Heap) (t : TrackOutput) : Option Nat := previous h t.this

/-- The `while (previous != nullptr)` loop of `Refresh` (track.cpp:81-89).
The state is the pointer `previous`, `detect_attached_blocks` and the events
emitted so far. -/
def refreshLoop (h : Heap) (cache : List Nat) :
    Nat → Option Nat → List Nat → List Event → Option (List Nat × List Event)
  | _, none, detect, ev => some (detect, ev)
  | 0, some _, _, _ => none
  | fuel + 1, some b, detect, ev =>
    refreshLoop h cache fuel (previous h b) (b :: detect)
      (if cache.contains b then ev else ev ++ [Event.BlockAdded b])

/-- The `foreach` loop of `Refresh` (track.cpp:91-95). -/
def removedEvents (cache detect : List Nat) : List Event :=
  (cache.filter (fun b => !detect.contains b)).map Event.BlockRemoved

/-- `TrackOutput::Refresh` (track.cpp:76-100): the new track object and the
events emitted, in order.  The closing call of `Block::Refresh()` changes none
of the modelled state, in and out points being derived from the links. -/
def Refresh (h : Heap) (t : TrackOutput) (fuel : Nat) :
    Option (TrackOutput × List Event) :=
  match refreshLoop h t.block_cache_ fuel (attached_block h t) [] [] with
  | none => none
  | some (detect, ev) =>
    some ({ t with block_cache_ := detect }, ev ++ removedEvents t.block_cache_ detect)

/-! ## Process (track.cpp:119-150) -/

/-- The loop `while (time < current_block_->in())` (track.cpp:139-141). -/
def walkEarlier (h : Heap) (infuel : Nat) (time : ℚ) : Nat → Option Nat → Option Nat
  | _, none => none
  | 0, some _ => none
  | fuel + 1, some b =>
    match in_ h infuel b with
    | none => none
    | some i => if time < i then walkEarlier h infuel time fuel (previous h b) else some b

/-- The loop `while (time >= current_block_->out())` (track.cpp:144-146). -/
def walkLater (h : Heap) (infuel : Nat) (time : ℚ) : Nat → Option Nat → Option Nat
  | _, none => none
  | 0, some _ => none
  | fuel + 1, some b =>
    match out h infuel b with
    | none => none
    | some o => if time ≥ o then walkLater h infuel time fuel (next h b) else some b

/-- `TrackOutput::Process` (track.cpp:119-150). -/
def Process (h : Heap) (t : TrackOutput) (fuel : Nat) (time : ℚ) : Option TrackOutput :=
  match in_ h fuel t.this with
  | none => none
  | some tin =>
    if time ≥ tin then
      some { t with track_output_ := some t.this,
                    texture_output := TextureValue.zero,
                    current_block_ := some t.this }
    else
      match walkEarlier h fuel time fuel (attached_block h t) with
      | none => none
      | some c1 =>
        match walkLater h fuel time fuel (some c1) with
        | none => none
        | some c2 =>
          some { t with track_output_ := some t.this,
                        current_block_ := some c2,
                        texture_output := TextureValue.ofBlock c2 time }

/-- `GenerateBlockWidgets` (track.cpp:102-107): `BlockAdded` for every cached
block. -/
def GenerateBlockWidgets (t : TrackOutput) : List Event :=
  t.block_cache_.map Event.BlockAdded

/-! ## Structural editor (track.cpp:152-350) -/

/-- `AddBlockToGraph` (track.cpp:227-232) registers the block with the owning
`NodeGraph`, an external collaborator; none of the modelled state changes. -/
def AddBlockToGraph (h : Heap) (_block : Nat) : Heap := h

/-- `InsertBlockBetweenBlocks` (track.cpp:152-159).  `after` may be a null
pointer (it comes from `before->next()` in `InsertBlockAfter`), in which case
`DisconnectBlocks` dereferences it. -/
def InsertBlockBetweenBlocks (h : Heap) (block before : Nat) (after : Option Nat) :
    Option Heap :=
  match after with
  | none => none
  | some a =>
    let h0 := AddBlockToGraph h block
    some (ConnectBlocks (ConnectBlocks (DisconnectBlocks h0 before a) before block) block a)

/-- `InsertBlockAfter` (track.cpp:161-164). -/
def InsertBlockAfter (h : Heap) (block before : Nat) : Option Heap :=
  InsertBlockBetweenBlocks h block before (next h before)

/-- `ConnectBlockInternal` (track.cpp:220-225). -/
def ConnectBlockInternal (h : Heap) (t : TrackOutput) (block : Nat) : Heap :=
  ConnectBlocks (AddBlockToGraph h block) block t.this

/-- `PrependBlock` (track.cpp:171-180). -/
def PrependBlock (h : Heap) (t : TrackOutput) (block : Nat) : Heap :=
  let h0 := AddBlockToGraph h block
  match t.block_cache_ with
  | [] => ConnectBlockInternal h0 t block
  | first :: _ => ConnectBlocks h0 block first

/-- `AppendBlock` (track.cpp:209-218). -/
def AppendBlock (h : Heap) (t : TrackOutput) (block : Nat) : Option Heap :=
  let h0 := AddBlockToGraph h block
  match t.block_cache_.getLast? with
  | none => some (ConnectBlockInternal h0 t block)
  | some last => InsertBlockBetweenBlocks h0 block last (some t.this)

/-- `QVector::at` with an `int` index: out of range is an error. -/
def at_ (l : List Nat) (i : Int) : Option Nat :=
  if i < 0 then none else l.get? i.toNat

/-- `InsertBlockAtIndex` (track.cpp:182-207). -/
def InsertBlockAtIndex (h : Heap) (t : TrackOutput) (block : Nat) (index : Int) :
    Option Heap :=
  let h0 := AddBlockToGraph h block
  if t.block_cache_.isEmpty then
    some (ConnectBlockInternal h0 t block)
  else if index = 0 then
    some (PrependBlock h0 t block)
  else if index ≥ (t.block_cache_.length : Int) then
    AppendBlock h0 t block
  else
    match at_ t.block_cache_ (index - 1), at_ t.block_cache_ index with
    | some before, some after => InsertBlockBetweenBlocks h0 block before (some after)
    | _, _ => none

/-- The `for` loop of `PlaceBlock` (track.cpp:268-278); the argument is the
part of the cache from index `i - 1` on. -/
def placeLoop (h : Heap) (block : Nat) (start : ℚ) (fuel : Nat) : List Nat → Option Heap
  | prev :: comparison :: rest =>
    match in_ h fuel comparison with
    | none => none
    | some i =>
      if i = start then InsertBlockBetweenBlocks h block prev (some comparison)
      else placeLoop h block start fuel (comparison :: rest)
  | _ => some h

/-- `PlaceBlock` (track.cpp:234-279). -/
def PlaceBlock (h : Heap) (t : TrackOutput) (block : Nat) (start : ℚ) (fuel : Nat) :
    Option Heap :=
  let h0 := AddBlockToGraph h block
  match in_ h0 fuel block with
  | none => none
  | some bin =>
    if bin = start then some h0
    else if start = 0 then some (PrependBlock h0 t block)
    else
      match in_ h0 fuel t.this with
      | none => none
      | some tin =>
        if start ≥ tin then
          if start > tin then
            let gap := (newBlock h0 BlockType.kGap).1
            let h1 := (newBlock h0 BlockType.kGap).2
            let h2 := set_length h1 gap (start - tin)
            match AppendBlock h2 t gap with
            | none => none
            | some h3 => AppendBlock h3 t block
          else AppendBlock h0 t block
        else placeLoop h0 block start fuel t.block_cache_

/-- `RippleRemoveBlock` (track.cpp:300-316). -/
def RippleRemoveBlock (h : Heap) (block : Nat) : Heap :=
  let prv := previous h block
  let nxt := next h block
  let h1 := match prv with
    | some p => DisconnectBlocks h p block
    | none => h
  let h2 := match nxt with
    | some n => DisconnectBlocks h1 block n
    | none => h1
  match prv, nxt with
  | some p, some n => ConnectBlocks h2 p n
  | _, _ => h2

/-- `RemoveBlock` (track.cpp:281-298): the new gap and the new heap. -/
def RemoveBlock (h : Heap) (t : TrackOutput) (block : Nat) : Option (Nat × Heap) :=
  let gap := (newBlock h BlockType.kGap).1
  let h1 := (newBlock h BlockType.kGap).2
  let h2 := set_length h1 gap (length h1 block)
  let prv := previous h2 block
  let nxt := next h2 block
  let h3 := RippleRemoveBlock h2 block
  match prv with
  | none => some (gap, PrependBlock h3 t gap)
  | some p => (InsertBlockBetweenBlocks h3 gap p nxt).map (fun h4 => (gap, h4))

/-- `SplitBlock` (track.cpp:318-331): the copy, when one is made, and the new
heap. -/
def SplitBlock (h : Heap) (block : Nat) (time : ℚ) (fuel : Nat) :
    Option (Option Nat × Heap) :=
  match in_ h fuel block, out h fuel block with
  | some bin, some bout =>
    if time < bin ∨ time ≥ bout then some (none, h)
    else
      let original_length := length h block
      let h1 := set_length h block (time - bin)
      let cp := (copy h1 block).1
      let h2 := (copy h1 block).2
      let h3 := set_length h2 cp (original_length - length h2 block)
      (InsertBlockAfter h3 cp block).map (fun h4 => (some cp, h4))
  | _, _ => none

/-- `SpliceBlock` (track.cpp:333-350): the tail copy and the new heap.  A
failed `Q_ASSERT` is an error. -/
def SpliceBlock (h : Heap) (inner outer : Nat) (inner_in : ℚ) (fuel : Nat) :
    Option (Nat × Heap) :=
  match in_ h fuel outer, out h fuel outer with
  | some oin, some oout =>
    if inner_in ≥ oin ∧ inner_in < oout then
      let original_length := length h outer
      let h1 := set_length h outer (inner_in - oin)
      match InsertBlockAfter h1 inner outer with
      | none => none
      | some h2 =>
        let cp := (copy h2 outer).1
        let h3 := (copy h2 outer).2
        let h4 := set_length h3 cp (original_length - length h3 outer - length h3 inner)
        (InsertBlockAfter h4 cp inner).map (fun h5 => (cp, h5))
    else none
  | _, _ => none

/-! ## The cache after a link change

`Block::ConnectBlocks` and `Block::DisconnectBlocks` belong to the `Block`
class, which is not part of track.cpp.  The specification describes what a
link change does to the cache in two ways: the editor operations "mutate the
Block Chain and trigger a Refresh that recomputes the Ordered Cache" (§2;
§4.1: `Refresh()` "must be called after every structural mutation"), and
"refresh is not automatically invoked inside each editor call" (§4.3 c).
Two editor functions read `block_cache_` after they have changed a link:
`RemoveBlock` (track.cpp:290-294, `PrependBlock` after `RippleRemoveBlock`) and
`PlaceBlock` (track.cpp:258-261, the second `AppendBlock`).  What they read is
decided by the absent code, so below it is a parameter; `RemoveBlock` and
`PlaceBlock` above are the instances in which the cache is left as it was. -/

/-- Modelled from the spec: the track object after a link change made by the
absent `Block::ConnectBlocks` / `Block::DisconnectBlocks`.  With `refreshing`
the change triggers `Refresh()` (spec §2 and §4.1) and the cache is rebuilt
(the events are not kept); without it the cache is left as it was (spec
§4.3 c). -/
def afterLinkChange (refreshing : Bool) (h : Heap) (t : TrackOutput) (fuel : Nat) :
    Option TrackOutput :=
  if refreshing then (Refresh h t fuel).map (fun r => r.1) else some t

/-- The heap returned by an editor function together with the track object
after its link changes (`afterLinkChange`); `none` when the function failed. -/
def relinked (refreshing : Bool) (t : TrackOutput) (fuel : Nat) (r : Option Heap) :
    Option (Heap × TrackOutput) :=
  match r with
  | none => none
  | some h2 => (afterLinkChange refreshing h2 t fuel).map (fun t2 => (h2, t2))

/-- `RemoveBlock` (track.cpp:281-298) with the effect of a link change on the
cache as a parameter: the new gap, the new heap and the track object.  The
cache is read by `PrependBlock` only, on its entry, so it is enough to apply
`afterLinkChange` after each of the called editor functions. -/
def RemoveBlockWith (refreshing : Bool) (h : Heap) (t : TrackOutput) (fuel : Nat)
    (block : Nat) : Option (Nat × Heap × TrackOutput) :=
  let gap := (newBlock h BlockType.kGap).1
  let h1 := (newBlock h BlockType.kGap).2
  let h2 := set_length h1 gap (length h1 block)
  let prv := previous h2 block
  let nxt := next h2 block
  let h3 := RippleRemoveBlock h2 block
  match afterLinkChange refreshing h3 t fuel with
  | none => none
  | some t3 =>
    match prv with
    | none =>
      (relinked refreshing t3 fuel (some (PrependBlock h3 t3 gap))).map (fun r => (gap, r))
    | some p =>
      (relinked refreshing t3 fuel (InsertBlockBetweenBlocks h3 gap p nxt)).map
        (fun r => (gap, r))

/-- `PlaceBlock` (track.cpp:234-279) with the effect of a link change on the
cache as a parameter: the new heap and the track object.  The cache is read on
the entry of `PrependBlock` and `AppendBlock` and by the `for` loop, so it is
enough to apply `afterLinkChange` after each of the called editor functions;
where the loop finds no block and no link is changed, a refresh of a cache
that lists the chain changes nothing. -/
def PlaceBlockWith (refreshing : Bool) (h : Heap) (t : TrackOutput) (block : Nat)
    (start : ℚ) (fuel : Nat) : Option (Heap × TrackOutput) :=
  let h0 := AddBlockToGraph h block
  match in_ h0 fuel block with
  | none => none
  | some bin =>
    if bin = start then some (h0, t)
    else if start = 0 then relinked refreshing t fuel (some (PrependBlock h0 t block))
    else
      match in_ h0 fuel t.this with
      | none => none
      | some tin =>
        if start ≥ tin then
          if start > tin then
            let gap := (newBlock h0 BlockType.kGap).1
            let h1 := (newBlock h0 BlockType.kGap).2
            let h2 := set_length h1 gap (start - tin)
            match relinked refreshing t fuel (AppendBlock h2 t gap) with
            | none => none
            | some r3 => relinked refreshing r3.2 fuel (AppendBlock r3.1 r3.2 block)
          else relinked refreshing t fuel (AppendBlock h0 t block)
        else relinked refreshing t fuel (placeLoop h0 block start fuel t.block_cache_)

/-! ## Chain walks, as the specification describes them -/

/-- `PrevWalk h start l`: following `previous` links from `start` visits the
blocks `l`, in this order, and then reaches the null pointer. -/
inductive PrevWalk (h : Heap) : Option Nat → List Nat → Prop where
  | nil : PrevWalk h none []
  | cons {b : Nat} {l : List Nat} :
      PrevWalk h (previous h b) l → PrevWalk h (some b) (b :: l)

/-- `NextWalk h stop start l`: following `next` links from `start` visits the
blocks `l`, in this order, none of them `stop`, and then reaches `stop`. -/
inductive NextWalk (h : Heap) (stop : Nat) : Option Nat → List Nat → Prop where
  | nil : NextWalk h stop (some stop) []
  | cons {b : Nat} {l : List Nat} :
      b ≠ stop → NextWalk h stop (next h b) l → NextWalk h stop (some b) (b :: l)

/-! ## Examples -/

/-- A heap with the given records at pointers `0, 1, ..`. -/
def heapOfList (l : List Block) : Heap :=
  { blocks := fun i => l.getD i ⟨BlockType.kClip, 0, none, none⟩, fresh := l.length }

/-- The track `[A:0-5, B:5-10]`: `A` at pointer 1, `B` at pointer 2, the track
itself at pointer 0. -/
def heapAB : Heap :=
  heapOfList [⟨BlockType.kEnd, 0, some 2, none⟩,
              ⟨BlockType.kClip, 5, none, some 2⟩,
              ⟨BlockType.kClip, 5, some 1, some 0⟩]

/-- The track object at pointer 0 with an empty cache. -/
def track0 : TrackOutput :=
  { this := 0, block_cache_ := [], current_block_ := some 0,
    texture_output := TextureValue.zero, track_output_ := none }

/-! ## The chain as a list -/

/-- `PrevLinked h p l`: the `previous` link of the first block of `l` is `p`,
and the `previous` link of every later block of `l` is the block before it. -/
def PrevLinked (h : Heap) : Option Nat → List Nat → Prop
  | _, [] => True
  | p, b :: rest => previous h b = p ∧ PrevLinked h (some b) rest

/-- `NextLinked h l q`: the `next` link of every block of `l` is the block
after it in `l`, and the `next` link of the last block of `l` is `q`. -/
def NextLinked (h : Heap) : List Nat → Nat → Prop
  | [], _ => True
  | a :: rest, q => next h a = some (rest.headD q) ∧ NextLinked h rest q

/-- `IsChain h this c`: the blocks `c`, earliest first, are the chain of the
track `this`: the first block has no previous block, consecutive blocks are
linked in both directions, the last block is linked to the track, and no block
occurs twice. -/
def IsChain (h : Heap) (this : Nat) (c : List Nat) : Prop :=
  PrevLinked h none (c ++ [this]) ∧ NextLinked h c this ∧ (c ++ [this]).Nodup

/-- The pointer reached after the blocks `A` when coming from `p`. -/
def lastPtr (p : Option Nat) (A : List Nat) : Option Nat :=
  match A.getLast? with
  | some a => some a
  | none => p

/-- The track `[A:0-5, B:5-10]` of `heapAB` with its cache in sync. -/
def trackAB : TrackOutput := { track0 with block_cache_ := [1, 2] }

/-- The track `[A:0-5, B:5-10]` together with an unlinked clip `I` of length 2
at pointer 3. -/
def heapABI : Heap :=
  heapOfList [⟨BlockType.kEnd, 0, some 2, none⟩,
              ⟨BlockType.kClip, 5, none, some 2⟩,
              ⟨BlockType.kClip, 5, some 1, some 0⟩,
              ⟨BlockType.kClip, 2, none, none⟩]

/-! ## Sequences of edits -/

/-- The cache lists the chain of the track and every pointer of the chain has
been allocated. -/
def Synced (h : Heap) (t : TrackOutput) : Prop :=
  IsChain h t.this t.block_cache_ ∧ ∀ y ∈ t.block_cache_ ++ [t.this], y < h.fresh

/-- A block that may be inserted into the chain `c` of the track `this`: it
is allocated, it is neither the track nor a block of the chain, and it has no
previous block. -/
def Insertable (h : Heap) (this : Nat) (c : List Nat) (b : Nat) : Prop :=
  b < h.fresh ∧ b ∉ c ++ [this] ∧ previous h b = none

/-- A heap holding an empty track at pointer 0 and an unlinked clip of length
5 at pointer 1. -/
def heapEmpty : Heap :=
  heapOfList [⟨BlockType.kEnd, 0, none, none⟩, ⟨BlockType.kClip, 5, none, none⟩]

/-- The heap `h2` reached by an edit of the track `t` holds a chain of
allocated blocks that is at most two blocks longer than the cache of `t`. -/
def ChainAfter (h2 : Heap) (t : TrackOutput) : Prop :=
  ∃ c2, IsChain h2 t.this c2 ∧ (∀ y ∈ c2 ++ [t.this], y < h2.fresh) ∧
    c2.length ≤ t.block_cache_.length + 2

/-- A track whose only block `X`, at pointer 1, has length `-5` (the track at
pointer 0 ends at `-5`), and an unlinked clip of length 2 at pointer 2. -/
def heapNeg : Heap :=
  heapOfList [⟨BlockType.kEnd, 0, some 1, none⟩,
              ⟨BlockType.kClip, -5, none, some 0⟩,
              ⟨BlockType.kClip, 2, none, none⟩]

/-- The track of `heapNeg` with its cache in sync. -/
def trackNeg : TrackOutput := { track0 with block_cache_ := [1] }

/-- The `next` and `previous` links of the heap are mutually consistent: `b`
is the next block of `a` exactly when `a` is the previous block of `b`. -/
def LinksConsistent (h : Heap) : Prop :=
  ∀ a b, next h a = some b ↔ previous h b = some a

/-! ## Walks along `previous` -/

theorem PrevWalk.det {h : Heap} {p : Option Nat} {l1 l2 : List Nat}
    (h1 : PrevWalk h p l1) (h2 : PrevWalk h p l2) : l1 = l2 := by
  induction h1 generalizing l2 with
  | nil => cases h2; rfl
  | cons _ ih =>
    cases h2 with
    | cons h2 => rw [ih h2]

theorem PrevWalk.walk_of_mem {h : Heap} {p : Option Nat} {l : List Nat} {b : Nat}
    (hw : PrevWalk h p l) (hb : b ∈ l) :
    ∃ l2, PrevWalk h (previous h b) l2 ∧ l2.length < l.length := by
  induction hw with
  | nil => simp at hb
  | @cons c l hw ih =>
    rcases List.mem_cons.mp hb with rfl | hb
    · exact ⟨l, hw, by simp⟩
    · obtain ⟨l2, h2, hlen⟩ := ih hb
      exact ⟨l2, h2, by simp; omega⟩

theorem PrevWalk.not_mem {h : Heap} {b : Nat} {l : List Nat}
    (hw : PrevWalk h (previous h b) l) : b ∉ l := by
  intro hb
  obtain ⟨l2, h2, hlen⟩ := hw.walk_of_mem hb
  rw [hw.det h2] at hlen
  exact lt_irrefl _ hlen

theorem PrevWalk.nodup {h : Heap} {p : Option Nat} {l : List Nat}
    (hw : PrevWalk h p l) : l.Nodup := by
  induction hw with
  | nil => exact List.nodup_nil
  | cons hw ih => exact List.nodup_cons.mpr ⟨hw.not_mem, ih⟩

/-! ## Refresh -/

theorem refreshLoop_eq {h : Heap} (cache : List Nat) {p : Option Nat} {l : List Nat}
    (hw : PrevWalk h p l) :
    ∀ (fuel : Nat) (detect : List Nat) (ev : List Event), l.length ≤ fuel →
      refreshLoop h cache fuel p detect ev =
        some (l.reverse ++ detect,
          ev ++ (l.filter (fun b => !cache.contains b)).map Event.BlockAdded) := by
  induction hw with
  | nil => intro fuel detect ev _; cases fuel <;> simp [refreshLoop]
  | @cons b l hw ih =>
    intro fuel detect ev hf
    cases fuel with
    | zero => simp at hf
    | succ fuel =>
      have hf2 : l.length ≤ fuel := by simpa using hf
      rw [refreshLoop, ih fuel _ _ hf2]
      by_cases hc : b ∈ cache
      · simp [hc, List.filter_cons]
      · simp [hc, List.filter_cons]

theorem Refresh_eq {h : Heap} {t : TrackOutput} {l : List Nat}
    (hw : PrevWalk h (attached_block h t) l) (fuel : Nat) (hf : l.length ≤ fuel) :
    Refresh h t fuel =
      some ({ t with block_cache_ := l.reverse },
        (l.filter (fun b => !t.block_cache_.contains b)).map Event.BlockAdded ++
          removedEvents t.block_cache_ l.reverse) := by
  unfold Refresh
  rw [refreshLoop_eq t.block_cache_ hw fuel [] [] hf]
  simp

theorem nextWalk_of_prevWalk {h : Heap} {stop : Nat} {p : Option Nat} {l : List Nat}
    (hw : PrevWalk h p l) :
    (∀ x ∈ l, x ≠ stop) →
    (∀ x ∈ l, ∀ a, previous h x = some a → next h a = some x) →
    ∀ (q : Option Nat) (tail : List Nat), NextWalk h stop q tail →
      (∀ a, p = some a → next h a = q) →
      NextWalk h stop ((l.reverse ++ tail).head?.elim q
        (fun c => if l = [] then q else some c)) (l.reverse ++ tail) := by
  induction hw with
  | nil => intro _ _ q tail hq _; cases tail <;> simpa using hq
  | @cons b l hw ih =>
    intro hne hcons q tail hq hp
    have hb : next h b = q := hp b rfl
    have h1 : NextWalk h stop (some b) (b :: tail) :=
      NextWalk.cons (hne b (by simp)) (hb ▸ hq)
    have h2 := ih (fun x hx => hne x (by simp [hx]))
      (fun x hx => hcons x (by simp [hx])) (some b) (b :: tail) h1
      (fun a ha => hcons b (by simp) a ha)
    have e : (b :: l).reverse ++ tail = l.reverse ++ b :: tail := by simp
    rw [e]
    cases hl : l.reverse with
    | nil =>
      rw [hl] at h2
      have : l = [] := by simpa using hl
      subst this
      simpa using h2
    | cons c r =>
      rw [hl] at h2
      have : l ≠ [] := by intro h0; subst h0; simp at hl
      simpa [this] using h2

theorem PrevWalk.some_inv {h : Heap} {a : Nat} {l : List Nat}
    (hw : PrevWalk h (some a) l) : ∃ l2, l = a :: l2 ∧ PrevWalk h (previous h a) l2 := by
  cases hw with
  | cons hw => exact ⟨_, rfl, hw⟩

theorem PrevWalk.head_eq {h : Heap} {p : Option Nat} {l : List Nat}
    (hw : PrevWalk h p l) : l.head? = p := by
  cases hw <;> rfl

theorem count_added_map_added (l : List Nat) (hl : l.Nodup) (b : Nat) :
    (l.map Event.BlockAdded).count (Event.BlockAdded b) = if b ∈ l then 1 else 0 := by
  have hinj : Function.Injective Event.BlockAdded := fun x y hxy => by injection hxy
  rw [List.count_eq_of_nodup (hl.map hinj)]
  simp

theorem count_removed_map_removed (l : List Nat) (hl : l.Nodup) (b : Nat) :
    (l.map Event.BlockRemoved).count (Event.BlockRemoved b) = if b ∈ l then 1 else 0 := by
  have hinj : Function.Injective Event.BlockRemoved := fun x y hxy => by injection hxy
  rw [List.count_eq_of_nodup (hl.map hinj)]
  simp

theorem count_added_map_removed (l : List Nat) (b : Nat) :
    (l.map Event.BlockRemoved).count (Event.BlockAdded b) = 0 := by
  apply List.count_eq_zero_of_not_mem
  simp

theorem count_removed_map_added (l : List Nat) (b : Nat) :
    (l.map Event.BlockAdded).count (Event.BlockRemoved b) = 0 := by
  apply List.count_eq_zero_of_not_mem
  simp

/-- C1: for a finite chain (the `previous`-walk from `attached_block()` visits
the blocks `l` and reaches the null pointer), `Refresh` returns and the new
cache is `l` reversed, so the attached block is last; when every `previous`
link of the track and of the chain blocks is matched by the `next` link back,
the cache is also the `next`-walk from `cache[0]` up to the track; the cache of
an empty track is empty.  Nothing but the cache changes in the track object. -/
theorem C1_refresh_cache_is_reversed_previous_walk
    (h : Heap) (t : TrackOutput) (l : List Nat) (fuel : Nat)
    (hw : PrevWalk h (attached_block h t) l) (hf : l.length ≤ fuel) :
    (∃ ev, Refresh h t fuel = some ({ t with block_cache_ := l.reverse }, ev)) ∧
      l.reverse.getLast? = attached_block h t ∧
      ((∀ x ∈ t.this :: l, ∀ a, previous h x = some a → next h a = some x) →
        ∀ c0, l.reverse.head? = some c0 → NextWalk h t.this (some c0) l.reverse) ∧
      (attached_block h t = none → l.reverse = []) := by
  refine ⟨⟨_, Refresh_eq hw fuel hf⟩, ?_, ?_, ?_⟩
  · rw [List.getLast?_reverse]; exact hw.head_eq
  · intro hcons c0 hc0
    have hne : ∀ x ∈ l, x ≠ t.this := by
      intro x hx hxt
      subst hxt
      exact PrevWalk.not_mem hw hx
    have key := @nextWalk_of_prevWalk h t.this _ _ hw hne
      (fun x hx => hcons x (by simp [hx])) (some t.this) [] NextWalk.nil
      (fun a ha => hcons t.this (by simp) a ha)
    have hl : l ≠ [] := by intro h0; subst h0; simp at hc0
    simp only [List.append_nil] at key
    rw [hc0] at key
    simpa [hl] using key
  · intro hnone
    rw [hnone] at hw
    cases hw
    rfl

/-- Witness of C1 on the track `[A:0-5, B:5-10]`. -/
theorem C1_refresh_cache_is_reversed_previous_walk_witness :
    [2, 1].length ≤ 2 ∧
    ((∃ ev, Refresh heapAB track0 2 = some ({ track0 with block_cache_ := [1, 2] }, ev)) ∧
      [1, 2].getLast? = attached_block heapAB track0 ∧
      ((∀ x ∈ track0.this :: [2, 1], ∀ a, previous heapAB x = some a → next heapAB a = some x) →
        ∀ c0, [1, 2].head? = some c0 → NextWalk heapAB track0.this (some c0) [1, 2]) ∧
      (attached_block heapAB track0 = none → [1, 2] = [])) :=
  ⟨by decide, C1_refresh_cache_is_reversed_previous_walk heapAB track0 [2, 1] 2
    (PrevWalk.cons (PrevWalk.cons PrevWalk.nil)) (by decide)⟩

/-- C2: for an old cache without duplicates and a finite chain `l`, `Refresh`
returns, and among the events it emits `BlockAdded b` occurs exactly once when
`b` is in the new walk and not in the old cache and never otherwise, and
`BlockRemoved b` occurs exactly once when `b` is in the old cache and not in
the new walk and never otherwise. -/
theorem C2_refresh_events_are_the_two_differences
    (h : Heap) (t : TrackOutput) (l : List Nat) (fuel : Nat)
    (hw : PrevWalk h (attached_block h t) l) (hf : l.length ≤ fuel)
    (hnd : t.block_cache_.Nodup) :
    ∃ t2 ev, Refresh h t fuel = some (t2, ev) ∧
      (∀ b, ev.count (Event.BlockAdded b) =
        if b ∈ l ∧ b ∉ t.block_cache_ then 1 else 0) ∧
      (∀ b, ev.count (Event.BlockRemoved b) =
        if b ∈ t.block_cache_ ∧ b ∉ l then 1 else 0) := by
  refine ⟨_, _, Refresh_eq hw fuel hf, ?_, ?_⟩
  · intro b
    rw [List.count_append, removedEvents, count_added_map_removed,
      count_added_map_added _ (hw.nodup.filter _)]
    simp
  · intro b
    rw [List.count_append, removedEvents, count_removed_map_added,
      count_removed_map_removed _ (hnd.filter _)]
    simp

/-- Witness of C2: the chain is `[A, B]` and the old cache holds `B` and a
block 7 that is no longer attached. -/
theorem C2_refresh_events_are_the_two_differences_witness :
    ([2, 7] : List Nat).Nodup ∧
    ∃ t2 ev, Refresh heapAB { track0 with block_cache_ := [2, 7] } 2 = some (t2, ev) ∧
      (∀ b, ev.count (Event.BlockAdded b) =
        if b ∈ [2, 1] ∧ b ∉ [2, 7] then 1 else 0) ∧
      (∀ b, ev.count (Event.BlockRemoved b) =
        if b ∈ [2, 7] ∧ b ∉ [2, 1] then 1 else 0) :=
  ⟨by decide, C2_refresh_events_are_the_two_differences heapAB
    { track0 with block_cache_ := [2, 7] } [2, 1] 2
    (PrevWalk.cons (PrevWalk.cons PrevWalk.nil)) (by decide) (by decide)⟩

/-! ## In and out points along a chain -/

/-- The in point of a block is the sum of the lengths of the blocks visited by
the `previous`-walk from it. -/
theorem in_eq_sum_aux {h : Heap} {p : Option Nat} {l : List Nat} (hw : PrevWalk h p l) :
    ∀ (b fuel : Nat), previous h b = p → l.length < fuel →
      in_ h fuel b = some ((l.map (length h)).sum) := by
  induction hw with
  | nil =>
    intro b fuel hb hf
    cases fuel with
    | zero => simp at hf
    | succ fuel => simp [in_, hb]
  | @cons a l hw ih =>
    intro b fuel hb hf
    cases fuel with
    | zero => simp at hf
    | succ fuel =>
      have hf2 : l.length < fuel := by simpa using hf
      simp [in_, hb, ih a fuel rfl hf2, add_comm]

theorem in_eq_sum {h : Heap} {b : Nat} {l : List Nat} {fuel : Nat}
    (hw : PrevWalk h (previous h b) l) (hf : l.length < fuel) :
    in_ h fuel b = some ((l.map (length h)).sum) :=
  in_eq_sum_aux hw b fuel rfl hf

theorem out_eq_sum {h : Heap} {b : Nat} {l : List Nat} {fuel : Nat}
    (hw : PrevWalk h (previous h b) l) (hf : l.length < fuel) :
    out h fuel b = some (((b :: l).map (length h)).sum) := by
  simp [out, in_eq_sum hw hf, add_comm]

/-! ## Process -/

theorem walkEarlier_spec {h : Heap} {time : ℚ} (ht : 0 ≤ time) {infuel : Nat}
    {p : Option Nat} {l : List Nat} (hw : PrevWalk h p l) :
    ∀ (fuel : Nat), l.length ≤ fuel → l.length < infuel → l ≠ [] →
      (∀ b, p = some b → ∃ o, out h infuel b = some o ∧ time < o) →
      ∃ b ∈ l, walkEarlier h infuel time fuel p = some b ∧
        ∃ i o, in_ h infuel b = some i ∧ out h infuel b = some o ∧ i ≤ time ∧ time < o := by
  induction hw with
  | nil => intro _ _ _ hne; exact absurd rfl hne
  | @cons b l hw ih =>
    intro fuel hf hif _ hout
    cases fuel with
    | zero => simp at hf
    | succ fuel =>
      have hf2 : l.length ≤ fuel := by simpa using hf
      have hif2 : l.length < infuel := by simp at hif; omega
      have hin : in_ h infuel b = some ((l.map (length h)).sum) := in_eq_sum hw hif2
      obtain ⟨o, ho, hto⟩ := hout b rfl
      by_cases hlt : time < (l.map (length h)).sum
      · have hl : l ≠ [] := by
          intro h0; subst h0; simp at hlt; exact absurd ht (not_le.mpr hlt)
        have hnext : ∀ a, previous h b = some a → ∃ o, out h infuel a = some o ∧ time < o := by
          intro a ha
          obtain ⟨l2, rfl, hw3⟩ := PrevWalk.some_inv (ha ▸ hw)
          have hl2 : l2.length < infuel := by simp at hif2; omega
          exact ⟨_, out_eq_sum hw3 hl2, hlt⟩
        obtain ⟨c, hc, hwalk, hprop⟩ := ih fuel hf2 hif2 hl hnext
        refine ⟨c, List.mem_cons_of_mem _ hc, ?_, hprop⟩
        simp [walkEarlier, hin, hlt, hwalk]
      · refine ⟨b, List.mem_cons_self _ _, ?_, _, o, hin, ho, not_lt.mp hlt, hto⟩
        simp [walkEarlier, hin, hlt]

theorem PrevWalk.suffix {h : Heap} {x : Nat} {B : List Nat} :
    ∀ (A : List Nat) (p : Option Nat), PrevWalk h p (A ++ x :: B) →
      PrevWalk h (previous h x) B := by
  intro A
  induction A with
  | nil =>
    intro p hw
    cases hw with
    | cons hw => exact hw
  | cons a A ih =>
    intro p hw
    cases hw with
    | cons hw => exact ih _ hw

theorem sum_lengths_nonneg {h : Heap} {l : List Nat} (hl : ∀ x ∈ l, 0 ≤ length h x) :
    0 ≤ (l.map (length h)).sum := by
  apply List.sum_nonneg
  intro y hy
  obtain ⟨x, hx, rfl⟩ := List.mem_map.mp hy
  exact hl x hx

/-- Along a chain with non-negative lengths a block that lies earlier ends
before a later block begins. -/
theorem out_le_in_of_earlier {h : Heap} {p : Option Nat} {A B : List Nat} {b c : Nat}
    {fuel : Nat} (hw : PrevWalk h p (A ++ b :: B)) (hc : c ∈ B)
    (hf : (A ++ b :: B).length < fuel) (hl : ∀ x ∈ A ++ b :: B, 0 ≤ length h x) :
    ∃ ib oc, in_ h fuel b = some ib ∧ out h fuel c = some oc ∧ oc ≤ ib := by
  have hB := PrevWalk.suffix A p hw
  obtain ⟨B1, C, rfl⟩ := List.append_of_mem hc
  have hC := PrevWalk.suffix B1 _ hB
  have hfB : (B1 ++ c :: C).length < fuel := by simp at hf ⊢; omega
  have hfC : C.length < fuel := by simp at hf ⊢; omega
  refine ⟨_, _, in_eq_sum hB hfB, out_eq_sum hC hfC, ?_⟩
  have h1 : 0 ≤ (B1.map (length h)).sum :=
    sum_lengths_nonneg (fun x hx => hl x (by simp [hx]))
  simp only [List.map_append, List.sum_append]
  linarith

theorem interval_unique {h : Heap} {p : Option Nat} {l : List Nat} {fuel : Nat}
    (hw : PrevWalk h p l) (hf : l.length < fuel) (hl : ∀ x ∈ l, 0 ≤ length h x)
    {time : ℚ} {b c : Nat} (hb : b ∈ l) (hc : c ∈ l) {ib ob ic oc : ℚ}
    (hib : in_ h fuel b = some ib) (hob : out h fuel b = some ob)
    (hic : in_ h fuel c = some ic) (hoc : out h fuel c = some oc)
    (h1 : ib ≤ time) (h2 : time < ob) (h3 : ic ≤ time) (h4 : time < oc) : c = b := by
  by_contra hne
  obtain ⟨A, B, rfl⟩ := List.append_of_mem hb
  rcases List.mem_append.mp hc with hcA | hcB
  · obtain ⟨A1, A2, rfl⟩ := List.append_of_mem hcA
    have hw2 : PrevWalk h p (A1 ++ c :: (A2 ++ b :: B)) := by simpa using hw
    obtain ⟨i, o, hi, ho, hle⟩ := @out_le_in_of_earlier h p A1 (A2 ++ b :: B) c b fuel hw2
      (by simp) (by simpa using hf) (fun x hx => hl x (by simpa using hx))
    rw [hic] at hi
    rw [hob] at ho
    cases hi; cases ho
    linarith
  · rcases List.mem_cons.mp hcB with rfl | hcB
    · exact hne rfl
    · obtain ⟨i, o, hi, ho, hle⟩ := out_le_in_of_earlier hw hcB hf hl
      rw [hib] at hi
      rw [hoc] at ho
      cases hi; cases ho
      linarith

theorem walkLater_stay {h : Heap} {infuel fuel : Nat} {time o : ℚ} {b : Nat}
    (ho : out h infuel b = some o) (hlt : time < o) :
    walkLater h infuel time (fuel + 1) (some b) = some b := by
  simp [walkLater, ho, not_le.mpr hlt]

/-- C3: on a finite chain `l`, for a time `0 ≤ time < track.in`, `Process`
returns (it never follows a null link) with `current_block_` a block `b` of the
chain such that `b.in ≤ time < b.out`, and the texture output is taken from
`b` at `time`; when no block of the chain has a negative length, `b` is the
only block of the chain whose span holds `time`.  Contiguity of the chain
needs no hypothesis: in and out points are derived from the links. -/
theorem C3_process_resolves_the_block_holding_time
    (h : Heap) (t : TrackOutput) (l : List Nat) (fuel : Nat) (time tin : ℚ)
    (hw : PrevWalk h (attached_block h t) l) (hf : l.length < fuel)
    (htin : in_ h fuel t.this = some tin) (h0 : 0 ≤ time) (hlt : time < tin) :
    ∃ b ∈ l,
      Process h t fuel time =
        some { t with track_output_ := some t.this,
                      current_block_ := some b,
                      texture_output := TextureValue.ofBlock b time } ∧
      (∃ i o, in_ h fuel b = some i ∧ out h fuel b = some o ∧ i ≤ time ∧ time < o) ∧
      ((∀ x ∈ l, 0 ≤ length h x) →
        ∀ c ∈ l, ∀ i o, in_ h fuel c = some i → out h fuel c = some o →
          i ≤ time → time < o → c = b) := by
  have hsum : tin = (l.map (length h)).sum := by
    have := @in_eq_sum h t.this l fuel hw hf
    rw [htin] at this
    exact Option.some.inj this
  have hne : l ≠ [] := by
    intro h0'; subst h0'; simp at hsum; subst hsum; exact absurd h0 (not_le.mpr hlt)
  have hhead : ∀ b, attached_block h t = some b → ∃ o, out h fuel b = some o ∧ time < o := by
    intro b hb
    obtain ⟨l2, rfl, hw3⟩ := PrevWalk.some_inv (hb ▸ hw)
    have hl2 : l2.length < fuel := by simp at hf; omega
    exact ⟨_, out_eq_sum hw3 hl2, hsum ▸ hlt⟩
  obtain ⟨b, hb, hwalk, i, o, hi, ho, hle, hto⟩ :=
    walkEarlier_spec h0 hw fuel (le_of_lt hf) hf hne hhead
  refine ⟨b, hb, ?_, ⟨i, o, hi, ho, hle, hto⟩, ?_⟩
  · obtain ⟨f, rfl⟩ : ∃ f, fuel = f + 1 := ⟨fuel - 1, by omega⟩
    have hwl := @walkLater_stay h (f + 1) f time o b ho hto
    simp only [Process, htin, ge_iff_le, not_le.mpr hlt, if_false, hwalk, hwl]
  · intro hl c hc ic oc hic hoc h3 h4
    exact interval_unique hw hf hl hb hc hi ho hic hoc hle hto h3 h4

/-- Witness of C3: on `[A:0-5, B:5-10]`, at time 3 and at time 7; `Process(3)`
resolves to `A` and `Process(7)` to `B`. -/
theorem C3_process_resolves_the_block_holding_time_witness :
    (in_ heapAB 3 track0.this = some 10 ∧ (0 : ℚ) ≤ 3 ∧ (3 : ℚ) < 10 ∧
      ∃ b ∈ [2, 1],
        Process heapAB track0 3 3 =
          some { track0 with track_output_ := some track0.this,
                             current_block_ := some b,
                             texture_output := TextureValue.ofBlock b 3 } ∧
        (∃ i o, in_ heapAB 3 b = some i ∧ out heapAB 3 b = some o ∧ i ≤ 3 ∧ 3 < o) ∧
        ((∀ x ∈ [2, 1], 0 ≤ length heapAB x) →
          ∀ c ∈ [2, 1], ∀ i o, in_ heapAB 3 c = some i → out heapAB 3 c = some o →
            i ≤ 3 → 3 < o → c = b)) ∧
    (Process heapAB track0 3 3).map (fun r => r.current_block_) = some (some 1) ∧
    (Process heapAB track0 3 7).map (fun r => r.current_block_) = some (some 2) :=
  ⟨⟨by decide!, by norm_num, by norm_num,
    C3_process_resolves_the_block_holding_time heapAB track0 [2, 1] 3 3 10
      (PrevWalk.cons (PrevWalk.cons PrevWalk.nil)) (by decide) (by decide!)
      (by norm_num) (by norm_num)⟩,
   by decide!, by decide!⟩

/-- C4: whenever `time ≥ track.in`, `Process` takes the terminal case: it
returns with `current_block_` the track itself and the texture output `0`,
without running either block walk; the in point of an empty track is `0`. -/
theorem C4_process_at_or_past_the_end_is_empty
    (h : Heap) (t : TrackOutput) (fuel : Nat) (time tin : ℚ)
    (htin : in_ h fuel t.this = some tin) (hge : tin ≤ time) :
    Process h t fuel time =
        some { t with track_output_ := some t.this,
                      texture_output := TextureValue.zero,
                      current_block_ := some t.this } ∧
      (attached_block h t = none → tin = 0) := by
  constructor
  · simp [Process, htin, hge]
  · intro hnone
    cases fuel with
    | zero => simp [in_] at htin
    | succ fuel =>
      have : previous h t.this = none := hnone
      simp [in_, this] at htin
      exact htin.symm

/-- Witness of C4: on `[A:0-5, B:5-10]` the track's in point is 10, and
`Process(10)`, `Process(11)` resolve to the track itself with texture `0`. -/
theorem C4_process_at_or_past_the_end_is_empty_witness :
    in_ heapAB 3 track0.this = some 10 ∧
    (Process heapAB track0 3 10 =
        some { track0 with track_output_ := some track0.this,
                           texture_output := TextureValue.zero,
                           current_block_ := some track0.this } ∧
      (attached_block heapAB track0 = none → (10 : ℚ) = 0)) ∧
    (Process heapAB track0 3 11 =
        some { track0 with track_output_ := some track0.this,
                           texture_output := TextureValue.zero,
                           current_block_ := some track0.this } ∧
      (attached_block heapAB track0 = none → (10 : ℚ) = 0)) :=
  ⟨by decide!,
   C4_process_at_or_past_the_end_is_empty heapAB track0 3 10 10 (by decide!) (by norm_num),
   C4_process_at_or_past_the_end_is_empty heapAB track0 3 11 10 (by decide!) (by norm_num)⟩

/-! ## Frame lemmas for the heap primitives -/

@[simp] theorem previous_ConnectBlocks (h : Heap) (p n y : Nat) :
    previous (ConnectBlocks h p n) y = if y = n then some p else previous h y := by
  unfold previous ConnectBlocks setBlock
  dsimp only
  split_ifs <;> simp_all

@[simp] theorem next_ConnectBlocks (h : Heap) (p n y : Nat) :
    next (ConnectBlocks h p n) y = if y = p then some n else next h y := by
  unfold next ConnectBlocks setBlock
  dsimp only
  split_ifs <;> simp_all

@[simp] theorem length_ConnectBlocks (h : Heap) (p n y : Nat) :
    length (ConnectBlocks h p n) y = length h y := by
  unfold length ConnectBlocks setBlock
  dsimp only
  split_ifs <;> simp_all

@[simp] theorem type_ConnectBlocks (h : Heap) (p n y : Nat) :
    ((ConnectBlocks h p n).blocks y).type = (h.blocks y).type := by
  unfold ConnectBlocks setBlock
  dsimp only
  split_ifs <;> simp_all

@[simp] theorem fresh_ConnectBlocks (h : Heap) (p n : Nat) :
    (ConnectBlocks h p n).fresh = h.fresh := rfl

@[simp] theorem previous_DisconnectBlocks (h : Heap) (p n y : Nat) :
    previous (DisconnectBlocks h p n) y = if y = n then none else previous h y := by
  unfold previous DisconnectBlocks setBlock
  dsimp only
  split_ifs <;> simp_all

@[simp] theorem next_DisconnectBlocks (h : Heap) (p n y : Nat) :
    next (DisconnectBlocks h p n) y = if y = p then none else next h y := by
  unfold next DisconnectBlocks setBlock
  dsimp only
  split_ifs <;> simp_all

@[simp] theorem length_DisconnectBlocks (h : Heap) (p n y : Nat) :
    length (DisconnectBlocks h p n) y = length h y := by
  unfold length DisconnectBlocks setBlock
  dsimp only
  split_ifs <;> simp_all

@[simp] theorem type_DisconnectBlocks (h : Heap) (p n y : Nat) :
    ((DisconnectBlocks h p n).blocks y).type = (h.blocks y).type := by
  unfold DisconnectBlocks setBlock
  dsimp only
  split_ifs <;> simp_all

@[simp] theorem fresh_DisconnectBlocks (h : Heap) (p n : Nat) :
    (DisconnectBlocks h p n).fresh = h.fresh := rfl

@[simp] theorem previous_set_length (h : Heap) (b y : Nat) (len : ℚ) :
    previous (set_length h b len) y = previous h y := by
  unfold previous set_length setBlock
  by_cases h1 : (h.blocks b).type = BlockType.kEnd <;> by_cases h2 : y = b <;> simp [h1, h2]

@[simp] theorem next_set_length (h : Heap) (b y : Nat) (len : ℚ) :
    next (set_length h b len) y = next h y := by
  unfold next set_length setBlock
  by_cases h1 : (h.blocks b).type = BlockType.kEnd <;> by_cases h2 : y = b <;> simp [h1, h2]

@[simp] theorem type_set_length (h : Heap) (b y : Nat) (len : ℚ) :
    ((set_length h b len).blocks y).type = (h.blocks y).type := by
  unfold set_length setBlock
  by_cases h1 : (h.blocks b).type = BlockType.kEnd <;> by_cases h2 : y = b <;> simp [h1, h2]

theorem length_set_length (h : Heap) (b y : Nat) (len : ℚ) :
    length (set_length h b len) y =
      if y = b ∧ (h.blocks b).type ≠ BlockType.kEnd then len else length h y := by
  unfold length set_length setBlock
  by_cases h1 : (h.blocks b).type = BlockType.kEnd <;> by_cases h2 : y = b <;> simp [h1, h2]

@[simp] theorem fresh_set_length (h : Heap) (b : Nat) (len : ℚ) :
    (set_length h b len).fresh = h.fresh := by
  unfold set_length setBlock
  by_cases h1 : (h.blocks b).type = BlockType.kEnd <;> simp [h1]

@[simp] theorem newBlock_fst (h : Heap) (ty : BlockType) : (newBlock h ty).1 = h.fresh := rfl

@[simp] theorem previous_newBlock (h : Heap) (ty : BlockType) (y : Nat) :
    previous (newBlock h ty).2 y = if y = h.fresh then none else previous h y := by
  unfold previous newBlock
  by_cases h1 : y = h.fresh <;> simp [h1]

@[simp] theorem next_newBlock (h : Heap) (ty : BlockType) (y : Nat) :
    next (newBlock h ty).2 y = if y = h.fresh then none else next h y := by
  unfold next newBlock
  by_cases h1 : y = h.fresh <;> simp [h1]

@[simp] theorem length_newBlock (h : Heap) (ty : BlockType) (y : Nat) :
    length (newBlock h ty).2 y = if y = h.fresh then 0 else length h y := by
  unfold length newBlock
  by_cases h1 : y = h.fresh <;> simp [h1]

@[simp] theorem type_newBlock (h : Heap) (ty : BlockType) (y : Nat) :
    ((newBlock h ty).2.blocks y).type = if y = h.fresh then ty else (h.blocks y).type := by
  unfold newBlock
  by_cases h1 : y = h.fresh <;> simp [h1]

@[simp] theorem fresh_newBlock (h : Heap) (ty : BlockType) :
    (newBlock h ty).2.fresh = h.fresh + 1 := rfl

/-! ## Chains as lists -/

theorem lastPtr_none (A : List Nat) : lastPtr none A = A.getLast? := by
  unfold lastPtr
  cases A.getLast? <;> rfl

theorem lastPtr_append_singleton (p : Option Nat) (A : List Nat) (a : Nat) :
    lastPtr p (A ++ [a]) = some a := by
  simp [lastPtr]

theorem lastPtr_nil (p : Option Nat) : lastPtr p [] = p := rfl

theorem lastPtr_cons (p : Option Nat) (a : Nat) (A : List Nat) :
    lastPtr p (a :: A) = lastPtr (some a) A := by
  unfold lastPtr
  cases A with
  | nil => simp
  | cons b A =>
    have : (b :: A).getLast? = some ((b :: A).getLast (by simp)) :=
      List.getLast?_eq_getLast _ _
    simp [this, List.getLast?_cons_cons]

theorem PrevLinked_append {h : Heap} :
    ∀ (A B : List Nat) (p : Option Nat),
      PrevLinked h p (A ++ B) ↔ PrevLinked h p A ∧ PrevLinked h (lastPtr p A) B := by
  intro A
  induction A with
  | nil => intro B p; simp [PrevLinked, lastPtr_nil]
  | cons a A ih =>
    intro B p
    show (previous h a = p ∧ PrevLinked h (some a) (A ++ B)) ↔
      (previous h a = p ∧ PrevLinked h (some a) A) ∧ PrevLinked h (lastPtr p (a :: A)) B
    rw [ih, lastPtr_cons, and_assoc]

theorem NextLinked_append {h : Heap} :
    ∀ (A B : List Nat) (q : Nat),
      NextLinked h (A ++ B) q ↔ NextLinked h A (B.headD q) ∧ NextLinked h B q := by
  intro A
  induction A with
  | nil => intro B q; simp [NextLinked]
  | cons a A ih =>
    intro B q
    show (next h a = some ((A ++ B).headD q) ∧ NextLinked h (A ++ B) q) ↔
      (next h a = some (A.headD (B.headD q)) ∧ NextLinked h A (B.headD q)) ∧
        NextLinked h B q
    have e : (A ++ B).headD q = A.headD (B.headD q) := by cases A <;> simp
    rw [ih, and_assoc, e]

theorem PrevLinked_frame {h h2 : Heap} :
    ∀ (L : List Nat) (p : Option Nat), (∀ y ∈ L, previous h2 y = previous h y) →
      PrevLinked h p L → PrevLinked h2 p L := by
  intro L
  induction L with
  | nil => intro p _ _; trivial
  | cons a L ih =>
    intro p hy hl
    exact ⟨(hy a (by simp)).trans hl.1, ih _ (fun y hy2 => hy y (by simp [hy2])) hl.2⟩

theorem NextLinked_frame {h h2 : Heap} :
    ∀ (L : List Nat) (q : Nat), (∀ y ∈ L, next h2 y = next h y) →
      NextLinked h L q → NextLinked h2 L q := by
  intro L
  induction L with
  | nil => intro q _ _; trivial
  | cons a L ih =>
    intro q hy hl
    exact ⟨(hy a (by simp)).trans hl.1, ih _ (fun y hy2 => hy y (by simp [hy2])) hl.2⟩

theorem PrevLinked_rehead {h h2 : Heap} {p p2 : Option Nat} {n : Nat} {rest : List Nat}
    (hl : PrevLinked h p (n :: rest)) (hn : previous h2 n = p2)
    (hy : ∀ y ∈ rest, previous h2 y = previous h y) : PrevLinked h2 p2 (n :: rest) :=
  ⟨hn, PrevLinked_frame rest _ hy hl.2⟩

theorem append_this_eq_cons (B : List Nat) (this : Nat) :
    B ++ [this] = B.headD this :: (B ++ [this]).tail := by
  cases B <;> simp

theorem prevWalk_of_prevLinked {h : Heap} (L : List Nat) :
    PrevLinked h none L → PrevWalk h L.getLast? L.reverse := by
  induction L using List.reverseRecOn with
  | nil => intro _; exact PrevWalk.nil
  | append_singleton l a ih =>
    intro hl
    rw [PrevLinked_append] at hl
    have ha : previous h a = l.getLast? := by
      have := hl.2.1
      rwa [lastPtr_none] at this
    have := ih hl.1
    rw [← ha] at this
    simpa using PrevWalk.cons this

theorem IsChain.prevWalk {h : Heap} {this : Nat} {c : List Nat} (hc : IsChain h this c) :
    PrevWalk h (previous h this) c.reverse := by
  have := prevWalk_of_prevLinked (c ++ [this]) hc.1
  simp at this
  obtain ⟨l2, hl2, hw⟩ := this.some_inv
  simp at hl2
  rw [hl2]
  exact hw

theorem IsChain.prevWalk_at {h : Heap} {this : Nat} {A B : List Nat} {b : Nat}
    (hc : IsChain h this (A ++ b :: B)) : PrevWalk h (previous h b) A.reverse := by
  have h1 : PrevLinked h none ((A ++ [b]) ++ (B ++ [this])) := by simpa using hc.1
  rw [PrevLinked_append] at h1
  have := prevWalk_of_prevLinked (A ++ [b]) h1.1
  simp at this
  obtain ⟨l2, hl2, hw⟩ := this.some_inv
  simp at hl2
  rw [hl2]
  exact hw

theorem IsChain.in_at {h : Heap} {this : Nat} {A B : List Nat} {b : Nat} {fuel : Nat}
    (hc : IsChain h this (A ++ b :: B)) (hf : A.length < fuel) :
    in_ h fuel b = some ((A.map (length h)).sum) := by
  have := @in_eq_sum h b A.reverse fuel hc.prevWalk_at (by simpa using hf)
  simpa [List.sum_reverse] using this

theorem IsChain.in_this {h : Heap} {this : Nat} {c : List Nat} {fuel : Nat}
    (hc : IsChain h this c) (hf : c.length < fuel) :
    in_ h fuel this = some ((c.map (length h)).sum) := by
  have := @in_eq_sum h this c.reverse fuel hc.prevWalk (by simpa using hf)
  simpa [List.sum_reverse] using this

theorem IsChain.frame {h h2 : Heap} {this : Nat} {c : List Nat} (hc : IsChain h this c)
    (hp : ∀ y ∈ c ++ [this], previous h2 y = previous h y)
    (hn : ∀ y ∈ c, next h2 y = next h y) : IsChain h2 this c :=
  ⟨PrevLinked_frame _ _ hp hc.1, NextLinked_frame _ _ hn hc.2.1, hc.2.2⟩

theorem headD_mem (B : List Nat) (this : Nat) : B.headD this ∈ B ++ [this] := by
  cases B <;> simp

theorem tail_nodup_not_mem {B : List Nat} {this : Nat} (hnd : (B ++ [this]).Nodup) :
    B.headD this ∉ (B ++ [this]).tail := by
  cases B with
  | nil => simp
  | cons b B =>
    simp only [List.cons_append, List.nodup_cons] at hnd
    simpa using hnd.1

/-- Linking a block `x` that is not in the chain after the blocks `A` and
before the blocks `B` of the chain; the blocks `G` that were between them are
cut off. -/
theorem IsChain.insertReplacing {h h2 : Heap} {this : Nat} {A G B : List Nat} {x : Nat}
    (hc : IsChain h this (A ++ G ++ B)) (hx : x ∉ A ++ B ++ [this])
    (hpx : previous h2 x = A.getLast?)
    (hnx : next h2 x = some (B.headD this))
    (hpb : previous h2 (B.headD this) = some x)
    (hna : ∀ a, A.getLast? = some a → next h2 a = some x)
    (hp : ∀ y ∈ A ++ B ++ [this], y ≠ B.headD this → previous h2 y = previous h y)
    (hn : ∀ y ∈ A ++ B, some y ≠ A.getLast? → next h2 y = next h y) :
    IsChain h2 this (A ++ x :: B) := by
  obtain ⟨hpl, hnl, hnd⟩ := hc
  have hnd1 : (A ++ (G ++ (B ++ [this]))).Nodup := by simpa using hnd
  have hnd2 : (A ++ (B ++ [this])).Nodup :=
    hnd1.sublist ((List.Sublist.refl A).append (List.sublist_append_right G _))
  have hdisj := List.disjoint_of_nodup_append hnd2
  have hndB : (B ++ [this]).Nodup := hnd2.of_append_right
  have hpl1 : PrevLinked h none (A ++ (G ++ (B ++ [this]))) := by simpa using hpl
  rw [PrevLinked_append, lastPtr_none, PrevLinked_append] at hpl1
  obtain ⟨hplA, -, hplB⟩ := hpl1
  have hnl1 : NextLinked h (A ++ (G ++ B)) this := by simpa using hnl
  rw [NextLinked_append, NextLinked_append] at hnl1
  obtain ⟨hnlA, -, hnlB⟩ := hnl1
  refine ⟨?_, ?_, ?_⟩
  · have e : A ++ x :: B ++ [this] = A ++ (x :: (B ++ [this])) := by simp
    rw [e, PrevLinked_append, lastPtr_none]
    refine ⟨PrevLinked_frame _ _ (fun y hy => hp y (by simp [hy]) ?_) hplA, hpx, ?_⟩
    · intro hyn
      exact hdisj hy (hyn ▸ headD_mem B this)
    · rw [append_this_eq_cons B this] at hplB ⊢
      refine PrevLinked_rehead hplB hpb (fun y hy => hp y ?_ ?_)
      · have : y ∈ B ++ [this] := List.mem_of_mem_tail hy
        simp at this ⊢
        tauto
      · intro hyn
        exact tail_nodup_not_mem hndB (hyn ▸ hy)
  · rw [NextLinked_append]
    refine ⟨?_, hnx, NextLinked_frame _ _ (fun y hy => hn y (by simp [hy]) ?_) hnlB⟩
    · rcases List.eq_nil_or_concat A with rfl | ⟨A1, a, rfl⟩
      · trivial
      · simp only [List.concat_eq_append] at *
        rw [NextLinked_append] at hnlA ⊢
        have hndA : (A1 ++ [a]).Nodup := hnd2.of_append_left
        refine ⟨NextLinked_frame _ _ (fun y hy => hn y (by simp [hy]) ?_) hnlA.1, ?_, trivial⟩
        · intro hya
          simp at hya
          subst hya
          exact (List.disjoint_of_nodup_append hndA) hy (by simp)
        · simpa using hna a (by simp)
    · intro hya
      have : y ∈ A := List.mem_of_mem_getLast? hya.symm
      exact hdisj this (by simp [hy])
  · have e : A ++ x :: B ++ [this] = A ++ x :: (B ++ [this]) := by simp
    rw [e, List.nodup_middle, List.nodup_cons]
    exact ⟨by simpa using hx, hnd2⟩

/-- Linking a block `x` that is not in the chain between the blocks `A` and
the blocks `B` of the chain. -/
theorem IsChain.insert {h h2 : Heap} {this : Nat} {A B : List Nat} {x : Nat}
    (hc : IsChain h this (A ++ B)) (hx : x ∉ A ++ B ++ [this])
    (hpx : previous h2 x = A.getLast?)
    (hnx : next h2 x = some (B.headD this))
    (hpb : previous h2 (B.headD this) = some x)
    (hna : ∀ a, A.getLast? = some a → next h2 a = some x)
    (hp : ∀ y ∈ A ++ B ++ [this], y ≠ B.headD this → previous h2 y = previous h y)
    (hn : ∀ y ∈ A ++ B, some y ≠ A.getLast? → next h2 y = next h y) :
    IsChain h2 this (A ++ x :: B) :=
  @IsChain.insertReplacing h h2 this A [] B x (by simpa using hc) hx hpx hnx hpb hna hp hn

/-- Unlinking the block `x` of the chain and linking its two neighbours. -/
theorem IsChain.remove {h h2 : Heap} {this : Nat} {A B : List Nat} {x : Nat}
    (hc : IsChain h this (A ++ x :: B))
    (hpb : previous h2 (B.headD this) = A.getLast?)
    (hna : ∀ a, A.getLast? = some a → next h2 a = some (B.headD this))
    (hp : ∀ y ∈ A ++ B ++ [this], y ≠ B.headD this → previous h2 y = previous h y)
    (hn : ∀ y ∈ A ++ B, some y ≠ A.getLast? → next h2 y = next h y) :
    IsChain h2 this (A ++ B) := by
  obtain ⟨hpl, hnl, hnd⟩ := hc
  have e : A ++ x :: B ++ [this] = A ++ x :: (B ++ [this]) := by simp
  rw [e] at hpl hnd
  rw [List.nodup_middle, List.nodup_cons] at hnd
  obtain ⟨-, hnd2⟩ := hnd
  have hdisj := List.disjoint_of_nodup_append hnd2
  have hndB : (B ++ [this]).Nodup := hnd2.of_append_right
  rw [PrevLinked_append, lastPtr_none] at hpl
  rw [NextLinked_append] at hnl
  refine ⟨?_, ?_, by simpa using hnd2⟩
  · rw [List.append_assoc, PrevLinked_append, lastPtr_none]
    refine ⟨PrevLinked_frame _ _ (fun y hy => hp y (by simp [hy]) ?_) hpl.1, ?_⟩
    · intro hyn
      exact hdisj hy (hyn ▸ headD_mem B this)
    · have h3 := hpl.2.2
      rw [append_this_eq_cons B this] at h3 ⊢
      refine PrevLinked_rehead h3 hpb (fun y hy => hp y ?_ ?_)
      · have : y ∈ B ++ [this] := List.mem_of_mem_tail hy
        simp at this ⊢
        tauto
      · intro hyn
        exact tail_nodup_not_mem hndB (hyn ▸ hy)
  · rw [NextLinked_append]
    refine ⟨?_, NextLinked_frame _ _ (fun y hy => hn y (by simp [hy]) ?_) hnl.2.2⟩
    · rcases List.eq_nil_or_concat A with rfl | ⟨A1, a, rfl⟩
      · trivial
      · simp only [List.concat_eq_append] at *
        rw [NextLinked_append] at hnl ⊢
        have hndA : (A1 ++ [a]).Nodup := hnd2.of_append_left
        refine ⟨NextLinked_frame _ _ (fun y hy => hn y (by simp [hy]) ?_) hnl.1.1, ?_, trivial⟩
        · intro hya
          simp at hya
          subst hya
          exact (List.disjoint_of_nodup_append hndA) hy (by simp)
        · simpa using hna a (by simp)
    · intro hya
      have : y ∈ A := List.mem_of_mem_getLast? hya.symm
      exact hdisj this (by simp [hy])

theorem IsChain.previous_at {h : Heap} {this : Nat} {A B : List Nat} {b : Nat}
    (hc : IsChain h this (A ++ b :: B)) : previous h b = A.getLast? := by
  have h1 : PrevLinked h none (A ++ (b :: (B ++ [this]))) := by simpa using hc.1
  rw [PrevLinked_append, lastPtr_none] at h1
  exact h1.2.1

theorem IsChain.next_at {h : Heap} {this : Nat} {A B : List Nat} {b : Nat}
    (hc : IsChain h this (A ++ b :: B)) : next h b = some (B.headD this) := by
  have h1 := hc.2.1
  rw [NextLinked_append] at h1
  exact h1.2.1

theorem IsChain.previous_this {h : Heap} {this : Nat} {c : List Nat}
    (hc : IsChain h this c) : previous h this = c.getLast? := by
  have h1 := hc.1
  rw [PrevLinked_append, lastPtr_none] at h1
  exact h1.2.1

theorem IsChain.not_mem_this {h : Heap} {this : Nat} {c : List Nat}
    (hc : IsChain h this c) : this ∉ c := by
  have := hc.2.2
  rw [List.nodup_append] at this
  intro hm
  exact this.2.2 hm (by simp)

theorem IsChain.chain_nodup {h : Heap} {this : Nat} {c : List Nat}
    (hc : IsChain h this c) : c.Nodup := hc.2.2.of_append_left

/-! ## The editing operations on a chain -/

theorem getLast?_append_cons_singleton (A1 : List Nat) (a : Nat) :
    (A1 ++ [a]).getLast? = some a := by simp

/-- `InsertBlockBetweenBlocks` on the block `a` of the chain and a later block
of the chain (or the track): the new block is linked between them and the
blocks `G` that were between them are cut off. -/
theorem IsChain.insertBetweenReplacing {h : Heap} {this : Nat} {A1 G B : List Nat}
    {a x : Nat}
    (hc : IsChain h this (A1 ++ a :: (G ++ B))) (hx : x ∉ A1 ++ a :: B ++ [this]) :
    ∃ h2, InsertBlockBetweenBlocks h x a (some (B.headD this)) = some h2 ∧
      IsChain h2 this (A1 ++ a :: x :: B) ∧
      (∀ y, length h2 y = length h y) ∧
      (∀ y, (h2.blocks y).type = (h.blocks y).type) ∧ h2.fresh = h.fresh := by
  refine ⟨_, rfl, ?_, ?_, ?_, ?_⟩
  · have hc2 : IsChain h this ((A1 ++ [a]) ++ G ++ B) := by simpa using hc
    have hnd : (A1 ++ a :: (G ++ (B ++ [this]))).Nodup := by simpa using hc.2.2
    have han : a ≠ B.headD this := by
      intro e
      have h1 := (List.nodup_middle.mp hnd)
      rw [List.nodup_cons] at h1
      apply h1.1
      have := headD_mem B this
      rw [← e] at this
      simp at this ⊢
      tauto
    have hxa : x ≠ a := by intro e; apply hx; simp [e]
    have hxn : x ≠ B.headD this := by
      intro e; apply hx
      have := headD_mem B this
      rw [← e] at this
      simp at this ⊢
      tauto
    have key : IsChain _ this ((A1 ++ [a]) ++ x :: B) :=
      @IsChain.insertReplacing h (ConnectBlocks (ConnectBlocks (DisconnectBlocks
        (AddBlockToGraph h x) a (B.headD this)) a x) x (B.headD this)) this (A1 ++ [a]) G B x
        hc2
        (by simpa using hx)
        (by simp [-List.headD_eq_head?_getD, AddBlockToGraph, hxn])
        (by simp [-List.headD_eq_head?_getD, AddBlockToGraph])
        (by simp [-List.headD_eq_head?_getD, AddBlockToGraph])
        (by intro a2 ha2; simp at ha2; subst ha2
            simp [-List.headD_eq_head?_getD, AddBlockToGraph, hxa.symm])
        (by
          intro y hy hyn
          have hyx : y ≠ x := by intro e; subst e; exact hx (by simpa using hy)
          simp [-List.headD_eq_head?_getD, AddBlockToGraph, hyn, hyx])
        (by
          intro y hy hya
          have hyx : y ≠ x := by intro e; subst e; apply hx; simp at hy ⊢; tauto
          have hya2 : y ≠ a := by intro e; subst e; simp at hya
          simp [-List.headD_eq_head?_getD, AddBlockToGraph, hyx, hya2])
    simpa using key
  · intro y; simp [-List.headD_eq_head?_getD, AddBlockToGraph]
  · intro y; simp [-List.headD_eq_head?_getD, AddBlockToGraph]
  · simp [-List.headD_eq_head?_getD, AddBlockToGraph]

/-- `InsertBlockBetweenBlocks` on two adjacent blocks of the chain (the second
one may be the track) links the new block between them. -/
theorem IsChain.insertBetween {h : Heap} {this : Nat} {A1 B : List Nat} {a x : Nat}
    (hc : IsChain h this (A1 ++ a :: B)) (hx : x ∉ A1 ++ a :: B ++ [this]) :
    ∃ h2, InsertBlockBetweenBlocks h x a (some (B.headD this)) = some h2 ∧
      IsChain h2 this (A1 ++ a :: x :: B) ∧
      (∀ y, length h2 y = length h y) ∧
      (∀ y, (h2.blocks y).type = (h.blocks y).type) ∧ h2.fresh = h.fresh :=
  @IsChain.insertBetweenReplacing h this A1 [] B a x (by simpa using hc) hx

/-- `InsertBlockAfter` on a block of the chain. -/
theorem IsChain.insertAfter {h : Heap} {this : Nat} {A1 B : List Nat} {a x : Nat}
    (hc : IsChain h this (A1 ++ a :: B)) (hx : x ∉ A1 ++ a :: B ++ [this]) :
    ∃ h2, InsertBlockAfter h x a = some h2 ∧
      IsChain h2 this (A1 ++ a :: x :: B) ∧
      (∀ y, length h2 y = length h y) ∧
      (∀ y, (h2.blocks y).type = (h.blocks y).type) ∧ h2.fresh = h.fresh := by
  unfold InsertBlockAfter
  rw [hc.next_at]
  exact hc.insertBetween hx

/-- Linking a block without a previous block before the block `c.headD this`
of the chain (or before the track): `ConnectBlocks(block, first)`; the blocks
`G` that were before it are cut off. -/
theorem IsChain.connectFrontReplacing {h : Heap} {this : Nat} {G c : List Nat} {x : Nat}
    (hc : IsChain h this (G ++ c)) (hx : x ∉ c ++ [this]) (hpx : previous h x = none) :
    IsChain (ConnectBlocks h x (c.headD this)) this (x :: c) := by
  have hxn : x ≠ c.headD this := by
    intro e; apply hx; rw [e]; exact headD_mem c this
  have hc2 : IsChain h this ([] ++ G ++ c) := by simpa using hc
  have key := @IsChain.insertReplacing h (ConnectBlocks h x (c.headD this)) this [] G c x hc2
    (by simpa using hx)
    (by simp [-List.headD_eq_head?_getD, hxn, hpx])
    (by simp [-List.headD_eq_head?_getD])
    (by simp [-List.headD_eq_head?_getD])
    (by intro a ha; simp at ha)
    (by intro y _ hyn; simp [-List.headD_eq_head?_getD, hyn])
    (by
      intro y hy _
      have hyx : y ≠ x := by intro e; subst e; apply hx; simp at hy ⊢; tauto
      simp [-List.headD_eq_head?_getD, hyx])
  simpa using key

theorem IsChain.connectFront {h : Heap} {this : Nat} {c : List Nat} {x : Nat}
    (hc : IsChain h this c) (hx : x ∉ c ++ [this]) (hpx : previous h x = none) :
    IsChain (ConnectBlocks h x (c.headD this)) this (x :: c) :=
  @IsChain.connectFrontReplacing h this [] c x (by simpa using hc) hx hpx

/-- `PrependBlock` of an unlinked block when the cache lists the chain. -/
theorem IsChain.prepend {h : Heap} {t : TrackOutput} {c : List Nat} {x : Nat}
    (hc : IsChain h t.this c) (hcache : t.block_cache_ = c)
    (hx : x ∉ c ++ [t.this]) (hpx : previous h x = none) :
    IsChain (PrependBlock h t x) t.this (x :: c) ∧
      (∀ y, length (PrependBlock h t x) y = length h y) ∧
      (∀ y, ((PrependBlock h t x).blocks y).type = (h.blocks y).type) ∧
      (PrependBlock h t x).fresh = h.fresh := by
  have key := hc.connectFront hx hpx
  unfold PrependBlock ConnectBlockInternal AddBlockToGraph
  rw [hcache]
  cases c with
  | nil => exact ⟨by simpa using key, by simp, by simp, by simp⟩
  | cons first rest => exact ⟨by simpa using key, by simp, by simp, by simp⟩

/-- `AppendBlock` of an unlinked block when the cache `c` lists the first
blocks of the chain: the block is linked after the last cached block and the
blocks `G` of the chain that the cache does not list are cut off. -/
theorem IsChain.appendReplacing {h : Heap} {t : TrackOutput} {c G : List Nat} {x : Nat}
    (hc : IsChain h t.this (c ++ G)) (hcache : t.block_cache_ = c)
    (hx : x ∉ c ++ [t.this]) (hpx : previous h x = none) :
    ∃ h2, AppendBlock h t x = some h2 ∧ IsChain h2 t.this (c ++ [x]) ∧
      (∀ y, length h2 y = length h y) ∧
      (∀ y, (h2.blocks y).type = (h.blocks y).type) ∧ h2.fresh = h.fresh := by
  unfold AppendBlock
  rw [hcache]
  rcases List.eq_nil_or_concat c with rfl | ⟨c1, a, rfl⟩
  · refine ⟨_, rfl, ?_, ?_, ?_, ?_⟩
    · have hc2 : IsChain h t.this (G ++ []) := by simpa using hc
      have key := hc2.connectFrontReplacing hx hpx
      simpa [ConnectBlockInternal, AddBlockToGraph] using key
    · simp [ConnectBlockInternal, AddBlockToGraph]
    · simp [ConnectBlockInternal, AddBlockToGraph]
    · simp [ConnectBlockInternal, AddBlockToGraph]
  · simp only [List.concat_eq_append] at *
    have hc2 : IsChain h t.this (c1 ++ a :: (G ++ [])) := by simpa using hc
    obtain ⟨h2, e, hch, hrest⟩ :=
      @IsChain.insertBetweenReplacing h t.this c1 G [] a x hc2 (by simpa using hx)
    refine ⟨h2, ?_, by simpa using hch, hrest⟩
    simpa [AddBlockToGraph] using e

/-- `AppendBlock` of an unlinked block when the cache lists the chain. -/
theorem IsChain.append {h : Heap} {t : TrackOutput} {c : List Nat} {x : Nat}
    (hc : IsChain h t.this c) (hcache : t.block_cache_ = c)
    (hx : x ∉ c ++ [t.this]) (hpx : previous h x = none) :
    ∃ h2, AppendBlock h t x = some h2 ∧ IsChain h2 t.this (c ++ [x]) ∧
      (∀ y, length h2 y = length h y) ∧
      (∀ y, (h2.blocks y).type = (h.blocks y).type) ∧ h2.fresh = h.fresh :=
  @IsChain.appendReplacing h t c [] x (by simpa using hc) hcache hx hpx

/-- `RippleRemoveBlock` on a block of the chain unlinks it and links its two
neighbours. -/
theorem IsChain.rippleRemove {h : Heap} {this : Nat} {A B : List Nat} {x : Nat}
    (hc : IsChain h this (A ++ x :: B)) :
    IsChain (RippleRemoveBlock h x) this (A ++ B) ∧
      (∀ y, length (RippleRemoveBlock h x) y = length h y) ∧
      (∀ y, ((RippleRemoveBlock h x).blocks y).type = (h.blocks y).type) ∧
      (RippleRemoveBlock h x).fresh = h.fresh ∧
      previous (RippleRemoveBlock h x) x = none ∧ next (RippleRemoveBlock h x) x = none := by
  have hp := hc.previous_at
  have hn := hc.next_at
  have hnd : (A ++ x :: (B ++ [this])).Nodup := by simpa using hc.2.2
  have hnd1 := List.nodup_middle.mp hnd
  rw [List.nodup_cons] at hnd1
  have hxn : x ≠ B.headD this := by
    intro e
    exact hnd1.1 (List.mem_append_right _ (e ▸ headD_mem B this))
  have hxy : ∀ y ∈ A ++ B ++ [this], y ≠ x := by
    intro y hy e
    subst e
    exact hnd1.1 (by simpa using hy)
  unfold RippleRemoveBlock
  rw [hp, hn]
  rcases List.eq_nil_or_concat A with rfl | ⟨A1, a, rfl⟩
  · simp only [List.getLast?_nil]
    refine ⟨?_, by simp, by simp, by simp, ?_, by simp⟩
    · refine hc.remove (by simp) (by simp) ?_ ?_
      · intro y _ hyn
        simp [-List.headD_eq_head?_getD, hyn]
      · intro y hy _
        have := hxy y (by simp at hy ⊢; tauto)
        simp [-List.headD_eq_head?_getD, this]
    · simp [-List.headD_eq_head?_getD, hxn]
      simpa using hp
  · simp only [List.concat_eq_append] at *
    have hax : a ≠ x := hxy a (by simp)
    have han : a ≠ B.headD this := by
      intro e
      have h1 : (A1 ++ a :: (B ++ [this])).Nodup := by simpa using hnd1.2
      have h2 := List.nodup_middle.mp h1
      rw [List.nodup_cons] at h2
      exact h2.1 (List.mem_append_right _ (e ▸ headD_mem B this))
    simp only [getLast?_append_cons_singleton]
    refine ⟨?_, by simp, by simp, by simp, ?_, ?_⟩
    · refine hc.remove (by simp) (by simp [-List.headD_eq_head?_getD]) ?_ ?_
      · intro y hy hyn
        have := hxy y hy
        simp [-List.headD_eq_head?_getD, hyn, this]
      · intro y hy hya
        have := hxy y (by simp at hy ⊢; tauto)
        have hya2 : y ≠ a := by intro e; subst e; simp at hya
        simp [-List.headD_eq_head?_getD, this, hya2]
    · simp [-List.headD_eq_head?_getD, hxn]
    · simp [-List.headD_eq_head?_getD, hax.symm]

theorem IsChain.refresh {h : Heap} {t : TrackOutput} {c : List Nat} {fuel : Nat}
    (hc : IsChain h t.this c) (hf : c.length ≤ fuel) :
    ∃ ev, Refresh h t fuel = some ({ t with block_cache_ := c }, ev) := by
  have := @Refresh_eq h t c.reverse hc.prevWalk fuel (by simpa using hf)
  rw [List.reverse_reverse] at this
  exact ⟨_, this⟩

theorem isChain_heapAB : IsChain heapAB 0 [1, 2] :=
  ⟨⟨rfl, rfl, rfl, trivial⟩, ⟨rfl, rfl, trivial⟩, by decide⟩

theorem erase_middle {A B : List Nat} {x : Nat} (hx : x ∉ A) :
    (A ++ x :: B).erase x = A ++ B := by
  rw [List.erase_append_right _ hx, List.erase_cons_head]

theorem IsChain.not_mem_left {h : Heap} {this : Nat} {A B : List Nat} {x : Nat}
    (hc : IsChain h this (A ++ x :: B)) : x ∉ A := by
  have := hc.chain_nodup
  rw [List.nodup_middle, List.nodup_cons] at this
  intro hx
  exact this.1 (by simp [hx])

/-- C10: for a block `x` anywhere in the chain `A ++ x :: B` (first, middle,
last or only block) of a track whose cache lists the chain,
`RippleRemoveBlock(x)` followed by `Refresh()` returns with the cache equal to
the old cache with `x` erased, the other blocks in their old order; the former
neighbours of `x` are linked to each other (`previous` of the block after `x`,
or of the track, is the block before `x`, and `next` of the block before `x`
is the block after it); the in point of the track decreases by exactly the
length of `x`. -/
theorem C10_ripple_remove_erases_block_and_shortens_track
    (h : Heap) (t : TrackOutput) (A B : List Nat) (x : Nat) (fuel : Nat)
    (hc : IsChain h t.this (A ++ x :: B)) (hcache : t.block_cache_ = A ++ x :: B)
    (hf : (A ++ x :: B).length < fuel) :
    (∃ ev, Refresh (RippleRemoveBlock h x) t fuel =
        some ({ t with block_cache_ := t.block_cache_.erase x }, ev)) ∧
      t.block_cache_.erase x = A ++ B ∧
      previous (RippleRemoveBlock h x) (B.headD t.this) = A.getLast? ∧
      (∀ a, A.getLast? = some a → next (RippleRemoveBlock h x) a = some (B.headD t.this)) ∧
      (∃ tin, in_ h fuel t.this = some tin ∧
        in_ (RippleRemoveBlock h x) fuel t.this = some (tin - length h x)) := by
  obtain ⟨hc2, hlen, -, -, -, -⟩ := hc.rippleRemove
  have herase : t.block_cache_.erase x = A ++ B := by
    rw [hcache]; exact erase_middle hc.not_mem_left
  have hf2 : (A ++ B).length < fuel := by simp at hf ⊢; omega
  refine ⟨?_, herase, ?_, ?_, _, hc.in_this hf, ?_⟩
  · rw [herase]
    exact hc2.refresh (le_of_lt hf2)
  · have := hc2.previous_this
    cases B with
    | nil => simpa using this
    | cons b B =>
      have hc3 : IsChain (RippleRemoveBlock h x) t.this (A ++ b :: B) := hc2
      simpa using hc3.previous_at
  · intro a ha
    obtain ⟨A1, rfl⟩ : ∃ A1, A = A1 ++ [a] := by
      rcases List.eq_nil_or_concat A with rfl | ⟨A1, a2, rfl⟩
      · simp at ha
      · simp at ha; subst ha; exact ⟨A1, by simp⟩
    have hc3 : IsChain (RippleRemoveBlock h x) t.this (A1 ++ a :: B) := by simpa using hc2
    exact hc3.next_at
  · rw [hc2.in_this hf2]
    have e : length (RippleRemoveBlock h x) = length h := funext hlen
    simp [e]
    ring

/-- Witness of C10: ripple-removing the first block `A` of `[A:0-5, B:5-10]`. -/
theorem C10_ripple_remove_erases_block_and_shortens_track_witness :
    IsChain heapAB trackAB.this ([] ++ 1 :: [2]) ∧
    (∃ ev, Refresh (RippleRemoveBlock heapAB 1) trackAB 4 =
        some ({ trackAB with block_cache_ := trackAB.block_cache_.erase 1 }, ev)) ∧
      trackAB.block_cache_.erase 1 = [] ++ [2] ∧
      previous (RippleRemoveBlock heapAB 1) ([2].headD trackAB.this) = ([] : List Nat).getLast? ∧
      (∀ a, ([] : List Nat).getLast? = some a →
        next (RippleRemoveBlock heapAB 1) a = some ([2].headD trackAB.this)) ∧
      (∃ tin, in_ heapAB 4 trackAB.this = some tin ∧
        in_ (RippleRemoveBlock heapAB 1) 4 trackAB.this = some (tin - length heapAB 1)) :=
  ⟨isChain_heapAB,
   C10_ripple_remove_erases_block_and_shortens_track heapAB trackAB [] [2] 1 4
    isChain_heapAB rfl (by decide)⟩

theorem out_eq_of_in {h : Heap} {fuel b : Nat} {p q : ℚ}
    (hp : in_ h fuel b = some p) (hq : out h fuel b = some q) : q = p + length h b := by
  simp [out, hp] at hq
  exact hq.symm

/-- `SplitBlock` on a block `x` of the chain, which is not itself a track, at
a time inside `[x.in, x.out)`: the copy is the new pointer `h.fresh`, linked
right after `x`. -/
theorem IsChain.split {h : Heap} {this : Nat} {A B : List Nat} {x fuel : Nat} {time p q : ℚ}
    (hc : IsChain h this (A ++ x :: B))
    (hal : ∀ y ∈ A ++ x :: B ++ [this], y < h.fresh)
    (hty : (h.blocks x).type ≠ BlockType.kEnd)
    (hp : in_ h fuel x = some p) (hq : out h fuel x = some q)
    (h1 : p ≤ time) (h2 : time < q) :
    ∃ h4, SplitBlock h x time fuel = some (some h.fresh, h4) ∧
      IsChain h4 this (A ++ x :: h.fresh :: B) ∧
      length h4 x = time - p ∧ length h4 h.fresh = q - time ∧
      (∀ y, y ≠ x → y ≠ h.fresh → length h4 y = length h y) ∧
      (∀ y, y ≠ h.fresh → (h4.blocks y).type = (h.blocks y).type) ∧
      (h4.blocks h.fresh).type = (h.blocks x).type ∧ h4.fresh = h.fresh + 1 := by
  have hq2 := out_eq_of_in hp hq
  have hxf : x ≠ h.fresh := ne_of_lt (hal x (by simp))
  have hfresh : h.fresh ∉ A ++ x :: B ++ [this] := fun hm => lt_irrefl _ (hal _ hm)
  have hc3 : IsChain
      (set_length (copy (set_length h x (time - p)) x).2 (copy (set_length h x (time - p)) x).1
        (length h x - length (copy (set_length h x (time - p)) x).2 x))
      this (A ++ x :: B) := by
    refine hc.frame ?_ ?_
    · intro y hy
      have : y ≠ h.fresh := ne_of_lt (hal y hy)
      simp [copy, this]
    · intro y hy
      have : y ≠ h.fresh := ne_of_lt (hal y (by simp at hy ⊢; tauto))
      simp [copy, this]
  obtain ⟨h4, e, hch, hlen, htyp, hfr⟩ :=
    @IsChain.insertAfter _ this A B x h.fresh hc3 (by simpa [copy] using hfresh)
  have hcond : ¬ (time < p ∨ time ≥ q) := by
    simp only [not_or, not_lt, ge_iff_le, not_le]
    exact ⟨h1, h2⟩
  refine ⟨h4, ?_, ?_, ?_, ?_, ?_, ?_, ?_, ?_⟩
  · unfold SplitBlock
    simp only [hp, hq, hcond, if_false]
    have e2 : (copy (set_length h x (time - p)) x).1 = h.fresh := by simp [copy]
    rw [e2] at e ⊢
    rw [e]
    rfl
  · simpa [copy] using hch
  · rw [hlen]
    simp [copy, length_set_length, hxf, hty]
  · rw [hlen]
    simp [copy, length_set_length, hxf, hty]
    rw [hq2]; ring
  · intro y hyx hyf
    rw [hlen]
    simp [copy, length_set_length, hyx, hyf]
  · intro y hyf
    rw [htyp]
    simp [copy, hyf]
  · rw [htyp]
    simp [copy]
  · rw [hfr]
    simp [copy]

theorem map_length_congr {h h2 : Heap} {L : List Nat}
    (hl : ∀ y ∈ L, length h2 y = length h y) : L.map (length h2) = L.map (length h) :=
  List.map_congr_left hl

/-- C6: for a block `x` of the chain `A ++ x :: B` (not itself a track, all
chain pointers allocated) occupying `[p, q)` and a time `p < time < q`,
`SplitBlock(x, time)` returns; it leaves `x` with length `time - p` and links a
new block `cp` of the type of `x` (its `copy()`), of length `q - time`, right
after `x`: `x.next == cp`, `cp.previous == x`, `cp.next` is the former
`x.next`.  The halves occupy `[p, time)` and `[time, q)` and their lengths sum
to `q - p`.  Every other block keeps its length, its in and out points and its
place in the chain, and the in point of the track is unchanged. -/
theorem C6_split_block_yields_two_adjacent_halves
    (h : Heap) (this : Nat) (A B : List Nat) (x fuel : Nat) (time p q : ℚ)
    (hc : IsChain h this (A ++ x :: B))
    (hal : ∀ y ∈ A ++ x :: B ++ [this], y < h.fresh)
    (hty : (h.blocks x).type ≠ BlockType.kEnd)
    (hf : (A ++ x :: B).length + 1 < fuel)
    (hp : in_ h fuel x = some p) (hq : out h fuel x = some q)
    (h1 : p < time) (h2 : time < q) :
    ∃ cp h4, SplitBlock h x time fuel = some (some cp, h4) ∧
      cp ∉ A ++ x :: B ++ [this] ∧
      IsChain h4 this (A ++ x :: cp :: B) ∧
      (h4.blocks cp).type = (h.blocks x).type ∧
      length h4 x = time - p ∧ length h4 cp = q - time ∧
      length h4 x + length h4 cp = q - p ∧ length h x = q - p ∧
      next h4 x = some cp ∧ previous h4 cp = some x ∧ next h4 cp = next h x ∧
      in_ h4 fuel x = some p ∧ out h4 fuel x = some time ∧
      in_ h4 fuel cp = some time ∧ out h4 fuel cp = some q ∧
      (∀ y, y ≠ x → y ≠ cp → length h4 y = length h y) ∧
      (∀ y ∈ A ++ B, in_ h4 fuel y = in_ h fuel y ∧ out h4 fuel y = out h fuel y) ∧
      in_ h4 fuel this = in_ h fuel this := by
  obtain ⟨h4, e, hch, hlx, hlc, hlo, -, hty4, -⟩ := hc.split hal hty hp hq (le_of_lt h1) h2
  have hq2 := out_eq_of_in hp hq
  have hfresh : h.fresh ∉ A ++ x :: B ++ [this] := fun hm => lt_irrefl _ (hal _ hm)
  have hnd := hc.chain_nodup
  have hxA : x ∉ A := hc.not_mem_left
  have hxB : x ∉ B := by
    intro hm
    have := (List.nodup_append.mp hnd).2.1
    exact (List.nodup_cons.mp this).1 hm
  have hlA : ∀ y ∈ A, length h4 y = length h y := fun y hy =>
    hlo y (by intro e; subst e; exact hxA hy) (by intro e; subst e; apply hfresh; simp [hy])
  have hlB : ∀ y ∈ B, length h4 y = length h y := fun y hy =>
    hlo y (by intro e; subst e; exact hxB hy) (by intro e; subst e; apply hfresh; simp [hy])
  have hfA : A.length < fuel := by simp at hf; omega
  have hpA : p = (A.map (length h)).sum := by
    have := hc.in_at hfA
    rw [hp] at this
    exact Option.some.inj this
  have hinx : in_ h4 fuel x = some p := by
    rw [hch.in_at hfA, map_length_congr hlA, hpA]
  have hch2 : IsChain h4 this ((A ++ [x]) ++ h.fresh :: B) := by simpa using hch
  have hinc : in_ h4 fuel h.fresh = some time := by
    rw [hch2.in_at (by simp at hf ⊢; omega)]
    simp [map_length_congr hlA, hlx, ← hpA]
  refine ⟨h.fresh, h4, e, hfresh, hch, hty4, hlx, hlc, by rw [hlx, hlc]; ring,
    by rw [hq2]; ring, hch.next_at, ?_, ?_, hinx, ?_, hinc, ?_, hlo, ?_, ?_⟩
  · simpa using hch2.previous_at
  · rw [hch2.next_at, hc.next_at]
  · simp [out, hinx, hlx]
  · simp [out, hinc, hlc]
  · intro y hy
    have hyl : length h4 y = length h y := by
      rcases List.mem_append.mp hy with hyA | hyB
      · exact hlA y hyA
      · exact hlB y hyB
    have hin : in_ h4 fuel y = in_ h fuel y := by
      rcases List.mem_append.mp hy with hyA | hyB
      · obtain ⟨A1, A2, rfl⟩ := List.append_of_mem hyA
        have c1 : IsChain h this (A1 ++ y :: (A2 ++ x :: B)) := by simpa using hc
        have c2 : IsChain h4 this (A1 ++ y :: (A2 ++ x :: h.fresh :: B)) := by simpa using hch
        have hfl : A1.length < fuel := by simp at hf; omega
        rw [c1.in_at hfl, c2.in_at hfl,
          map_length_congr (fun z hz => hlA z (by simp [hz]))]
      · obtain ⟨B1, B2, rfl⟩ := List.append_of_mem hyB
        have c1 : IsChain h this ((A ++ x :: B1) ++ y :: B2) := by simpa using hc
        have c2 : IsChain h4 this ((A ++ x :: h.fresh :: B1) ++ y :: B2) := by
          simpa using hch
        have hlB1 : ∀ z ∈ B1, length h4 z = length h z := fun z hz => hlB z (by simp [hz])
        rw [c1.in_at (by simp at hf ⊢; omega), c2.in_at (by simp at hf ⊢; omega)]
        simp [map_length_congr hlA, map_length_congr hlB1, hlx, hlc, hq2]
        ring
    exact ⟨hin, by simp [out, hin, hyl]⟩
  · rw [hc.in_this (by omega), hch.in_this (by simp at hf ⊢; omega)]
    simp [map_length_congr hlA, map_length_congr hlB, hlx, hlc, hq2]
    ring

/-- Witness of C6: splitting `A` of `[A:0-5, B:5-10]` at time 2. -/
theorem C6_split_block_yields_two_adjacent_halves_witness :
    (in_ heapAB 5 1 = some 0 ∧ out heapAB 5 1 = some 5 ∧ (0 : ℚ) < 2 ∧ (2 : ℚ) < 5) ∧
    ∃ cp h4, SplitBlock heapAB 1 2 5 = some (some cp, h4) ∧
      IsChain h4 0 [1, cp, 2] ∧ length h4 1 = 2 ∧ length h4 cp = 3 ∧
      in_ h4 5 cp = some 2 ∧ out h4 5 cp = some 5 := by
  refine ⟨⟨by decide!, by decide!, by norm_num, by norm_num⟩, ?_⟩
  obtain ⟨cp, h4, e, -, hch, -, hlx, hlc, -, -, -, -, -, -, -, hic, hoc, -⟩ :=
    C6_split_block_yields_two_adjacent_halves heapAB 0 [] [2] 1 5 2 0 5 isChain_heapAB
      (by decide) (by decide) (by decide) (by decide!) (by decide!) (by norm_num) (by norm_num)
  exact ⟨cp, h4, e, hch, by rw [hlx]; norm_num, by rw [hlc]; norm_num, hic, hoc⟩

/-- Counterexample to C7 as stated: on `[A:0-5, B:5-10]`, the time `0` equals
`A.in`, so it does not satisfy `A.in < t < A.out`, yet `SplitBlock(A, 0)`
creates a copy, links it after `A` and sets the length of `A` to `0`. -/
theorem C7_split_at_in_point_is_not_a_noop :
    in_ heapAB 5 1 = some 0 ∧ out heapAB 5 1 = some 5 ∧ ¬ ((0 : ℚ) < 0 ∧ (0 : ℚ) < 5) ∧
    ∃ cp h4, SplitBlock heapAB 1 0 5 = some (some cp, h4) ∧
      length heapAB 1 = 5 ∧ length h4 1 = 0 ∧
      next heapAB 1 = some 2 ∧ next h4 1 = some cp ∧ cp ≠ 2 := by
  have hp : in_ heapAB 5 1 = some 0 := by decide!
  have hq : out heapAB 5 1 = some 5 := by decide!
  obtain ⟨h4, e, hch, hlx, -⟩ :=
    @IsChain.split heapAB 0 [] [2] 1 5 0 0 5 isChain_heapAB (by decide) (by decide) hp hq
      (by norm_num) (by norm_num)
  refine ⟨hp, hq, by norm_num, heapAB.fresh, h4, e, by decide!, by rw [hlx]; norm_num,
    rfl, ?_, by decide⟩
  have hch2 : IsChain h4 0 ([] ++ 1 :: heapAB.fresh :: [2]) := hch
  simpa using hch2.next_at

/-- C7 (amended): for every block occupying `[p, q)` and every time with
`time < p` or `time ≥ q`, `SplitBlock` is a no-op: it returns, creates no
block, and the heap (every length and every link) is unchanged. -/
theorem C7_split_block_outside_span_is_a_noop
    (h : Heap) (x fuel : Nat) (time p q : ℚ)
    (hp : in_ h fuel x = some p) (hq : out h fuel x = some q)
    (hout : time < p ∨ q ≤ time) :
    SplitBlock h x time fuel = some (none, h) := by
  unfold SplitBlock
  simp only [hp, hq, ge_iff_le, hout, if_true]

/-- Witness of C7 (amended): `SplitBlock(A, 7)` on `[A:0-5, B:5-10]`. -/
theorem C7_split_block_outside_span_is_a_noop_witness :
    (in_ heapAB 5 1 = some 0 ∧ out heapAB 5 1 = some 5 ∧ ((7 : ℚ) < 0 ∨ (5 : ℚ) ≤ 7)) ∧
    SplitBlock heapAB 1 7 5 = some (none, heapAB) :=
  ⟨⟨by decide!, by decide!, by norm_num⟩,
   C7_split_block_outside_span_is_a_noop heapAB 1 5 7 0 5 (by decide!) (by decide!)
    (by norm_num)⟩

/-- `SpliceBlock` of a block `i` that is not in the chain into the block `x`
of the chain: the tail copy is the new pointer `h.fresh`. -/
theorem IsChain.splice {h : Heap} {this : Nat} {A B : List Nat} {x i fuel : Nat}
    {time p q : ℚ}
    (hc : IsChain h this (A ++ x :: B))
    (hal : ∀ y ∈ A ++ x :: B ++ [this], y < h.fresh)
    (hty : (h.blocks x).type ≠ BlockType.kEnd)
    (hi : i ∉ A ++ x :: B ++ [this]) (hif : i < h.fresh)
    (hp : in_ h fuel x = some p) (hq : out h fuel x = some q)
    (h1 : p ≤ time) (h2 : time < q) :
    ∃ h5, SpliceBlock h i x time fuel = some (h.fresh, h5) ∧
      IsChain h5 this (A ++ x :: i :: h.fresh :: B) ∧
      length h5 x = time - p ∧ length h5 i = length h i ∧
      length h5 h.fresh = q - time - length h i ∧
      (∀ y, y ≠ x → y ≠ h.fresh → length h5 y = length h y) ∧
      (∀ y, y ≠ h.fresh → (h5.blocks y).type = (h.blocks y).type) ∧
      (h5.blocks h.fresh).type = (h.blocks x).type ∧ h5.fresh = h.fresh + 1 := by
  have hq2 := out_eq_of_in hp hq
  have hxf : x ≠ h.fresh := ne_of_lt (hal x (by simp))
  have hif2 : i ≠ h.fresh := ne_of_lt hif
  have hix : i ≠ x := by intro e; apply hi; simp [e]
  have hc1 : IsChain (set_length h x (time - p)) this (A ++ x :: B) :=
    hc.frame (by simp) (by simp)
  obtain ⟨h2', e2, hch2, hlen2, htyp2, hfr2⟩ := @IsChain.insertAfter _ this A B x i hc1 hi
  have hfr2' : h2'.fresh = h.fresh := by rw [hfr2]; simp
  have hal2 : ∀ y ∈ A ++ [x] ++ i :: B ++ [this], y < h.fresh := by
    intro y hy
    have : y = i ∨ y ∈ A ++ x :: B ++ [this] := by simp at hy ⊢; tauto
    rcases this with rfl | hm
    · exact hif
    · exact hal y hm
  have hc4 : IsChain
      (set_length (copy h2' x).2 (copy h2' x).1
        (length h x - length (copy h2' x).2 x - length (copy h2' x).2 i))
      this ((A ++ [x]) ++ i :: B) := by
    have hch2' : IsChain h2' this ((A ++ [x]) ++ i :: B) := by simpa using hch2
    refine hch2'.frame ?_ ?_
    · intro y hy
      have : y ≠ h.fresh := ne_of_lt (hal2 y hy)
      simp [copy, hfr2', this]
    · intro y hy
      have : y ≠ h.fresh := ne_of_lt (hal2 y (by simp at hy ⊢; tauto))
      simp [copy, hfr2', this]
  have hfresh : h.fresh ∉ A ++ [x] ++ i :: B ++ [this] :=
    fun hm => lt_irrefl _ (hal2 _ hm)
  obtain ⟨h5, e5, hch5, hlen5, htyp5, hfr5⟩ :=
    @IsChain.insertAfter _ this (A ++ [x]) B i h.fresh hc4 hfresh
  have hcond : time ≥ p ∧ time < q := ⟨h1, h2⟩
  have ecp : (copy h2' x).1 = h.fresh := by simp [copy, hfr2']
  refine ⟨h5, ?_, by simpa using hch5, ?_, ?_, ?_, ?_, ?_, ?_, ?_⟩
  · unfold SpliceBlock
    simp only [hp, hq, hcond, and_self, if_true, e2]
    rw [ecp] at e5 ⊢
    rw [e5]
    rfl
  · rw [hlen5]
    simp [copy, length_set_length, hfr2', hxf, hlen2, hty]
  · rw [hlen5]
    simp [copy, length_set_length, hfr2', hif2, hlen2, hix]
  · rw [hlen5]
    simp [copy, length_set_length, hfr2', hif2, hxf, hlen2, hix, htyp2, hty]
    rw [hq2]; ring
  · intro y hyx hyf
    rw [hlen5]
    simp [copy, length_set_length, hfr2', hyf, hlen2, hyx]
  · intro y hyf
    rw [htyp5]
    simp [copy, hfr2', hyf, htyp2]
  · rw [htyp5]
    simp [copy, hfr2', htyp2]
  · rw [hfr5]
    simp [copy, hfr2']

theorem isChain_heapABI : IsChain heapABI 0 [1, 2] :=
  ⟨⟨rfl, rfl, rfl, trivial⟩, ⟨rfl, rfl, trivial⟩, by decide⟩

/-- C8: for a block `x` (outer, not itself a track) of the chain `A ++ x :: B`
occupying `[p, q)`, a block `i` (inner) that is allocated and not in the chain,
and a time `p ≤ time < q`, `SpliceBlock(i, x, time)` returns and the chain
becomes `A ++ x :: i :: cp :: B` with `cp` a new block of the type of `x`:
the three blocks are linked in the order outer, inner, tail, they occupy
`[p, time)`, `[time, time + len(i))` and `[time + len(i), q)`, and `cp.next`
is the former `x.next`. -/
theorem C8_splice_block_yields_three_adjacent_blocks
    (h : Heap) (this : Nat) (A B : List Nat) (x i fuel : Nat) (time p q : ℚ)
    (hc : IsChain h this (A ++ x :: B))
    (hal : ∀ y ∈ A ++ x :: B ++ [this], y < h.fresh)
    (hty : (h.blocks x).type ≠ BlockType.kEnd)
    (hi : i ∉ A ++ x :: B ++ [this]) (hif : i < h.fresh)
    (hf : (A ++ x :: B).length + 2 < fuel)
    (hp : in_ h fuel x = some p) (hq : out h fuel x = some q)
    (h1 : p ≤ time) (h2 : time < q) :
    ∃ cp h5, SpliceBlock h i x time fuel = some (cp, h5) ∧
      cp ∉ i :: (A ++ x :: B ++ [this]) ∧
      IsChain h5 this (A ++ x :: i :: cp :: B) ∧
      (h5.blocks cp).type = (h.blocks x).type ∧
      next h5 x = some i ∧ previous h5 i = some x ∧
      next h5 i = some cp ∧ previous h5 cp = some i ∧ next h5 cp = next h x ∧
      length h5 i = length h i ∧
      in_ h5 fuel x = some p ∧ out h5 fuel x = some time ∧
      in_ h5 fuel i = some time ∧ out h5 fuel i = some (time + length h i) ∧
      in_ h5 fuel cp = some (time + length h i) ∧ out h5 fuel cp = some q := by
  obtain ⟨h5, e, hch, hlx, hli, hlc, hlo, -, hty5, -⟩ :=
    hc.splice hal hty hi hif hp hq h1 h2
  have hfresh : h.fresh ∉ A ++ x :: B ++ [this] := fun hm => lt_irrefl _ (hal _ hm)
  have hxA : x ∉ A := hc.not_mem_left
  have hlA : ∀ y ∈ A, length h5 y = length h y := fun y hy =>
    hlo y (by intro e; subst e; exact hxA hy) (by intro e; subst e; apply hfresh; simp [hy])
  have hfA : A.length < fuel := by simp at hf; omega
  have hpA : p = (A.map (length h)).sum := by
    have := hc.in_at hfA
    rw [hp] at this
    exact Option.some.inj this
  have hinx : in_ h5 fuel x = some p := by
    rw [hch.in_at hfA, map_length_congr hlA, hpA]
  have hch2 : IsChain h5 this ((A ++ [x]) ++ i :: h.fresh :: B) := by simpa using hch
  have hch3 : IsChain h5 this ((A ++ [x, i]) ++ h.fresh :: B) := by simpa using hch
  have hini : in_ h5 fuel i = some time := by
    rw [hch2.in_at (by simp at hf ⊢; omega)]
    simp [map_length_congr hlA, hlx, ← hpA]
  have hinc : in_ h5 fuel h.fresh = some (time + length h i) := by
    rw [hch3.in_at (by simp at hf ⊢; omega)]
    simp [map_length_congr hlA, hlx, hli, ← hpA]
    ring
  refine ⟨h.fresh, h5, e, ?_, hch, hty5, hch.next_at, ?_, hch2.next_at, ?_, ?_, hli,
    hinx, ?_, hini, ?_, hinc, ?_⟩
  · intro hm
    rcases List.mem_cons.mp hm with e1 | hm
    · exact absurd hif (by rw [← e1]; exact lt_irrefl _)
    · exact hfresh hm
  · simpa using hch2.previous_at
  · simpa using hch3.previous_at
  · rw [hch3.next_at, hc.next_at]
  · simp [out, hinx, hlx]
  · simp [out, hini, hli]
  · simp [out, hinc, hlc]

/-- Witness of C8: splicing the clip `I` (length 2) into `A` of
`[A:0-5, B:5-10]` at time 1 gives `[A:0-1, I:1-3, tail:3-5, B:5-10]`. -/
theorem C8_splice_block_yields_three_adjacent_blocks_witness :
    (IsChain heapABI 0 ([] ++ 1 :: [2]) ∧ in_ heapABI 6 1 = some 0 ∧
      out heapABI 6 1 = some 5 ∧ (0 : ℚ) ≤ 1 ∧ (1 : ℚ) < 5) ∧
    ∃ cp h5, SpliceBlock heapABI 3 1 1 6 = some (cp, h5) ∧
      IsChain h5 0 [1, 3, cp, 2] ∧
      in_ h5 6 1 = some 0 ∧ out h5 6 1 = some 1 ∧
      in_ h5 6 3 = some 1 ∧ out h5 6 3 = some 3 ∧
      in_ h5 6 cp = some 3 ∧ out h5 6 cp = some 5 := by
  have hp : in_ heapABI 6 1 = some 0 := by decide!
  have hq : out heapABI 6 1 = some 5 := by decide!
  refine ⟨⟨isChain_heapABI, hp, hq, by norm_num, by norm_num⟩, ?_⟩
  obtain ⟨cp, h5, e, -, hch, -, -, -, -, -, -, -, hix, hox, hii, hoi, hic, hoc⟩ :=
    C8_splice_block_yields_three_adjacent_blocks heapABI 0 [] [2] 1 3 6 1 0 5
      isChain_heapABI (by decide) (by decide) (by decide) (by decide) (by decide) hp hq
      (by norm_num) (by norm_num)
  have hl : length heapABI 3 = 2 := by decide!
  rw [hl] at hoi hic
  norm_num at hoi hic
  exact ⟨cp, h5, e, hch, hix, hox, hii, hoi, hic, hoc⟩

theorem IsChain.alloc {h : Heap} {this : Nat} {c : List Nat} (hc : IsChain h this c)
    (hal : ∀ y ∈ c ++ [this], y < h.fresh) (ty : BlockType) :
    IsChain (newBlock h ty).2 this c := by
  refine hc.frame ?_ ?_
  · intro y hy
    simp [ne_of_lt (hal y hy)]
  · intro y hy
    simp [ne_of_lt (hal y (by simp [hy]))]

/-- `RemoveBlock` on a block `x` of the chain that has a previous block: the
new gap `h.fresh` takes the place of `x`. -/
theorem IsChain.removeBlock_inner {h : Heap} {t : TrackOutput} {A1 B : List Nat} {a x : Nat}
    (hc : IsChain h t.this (A1 ++ a :: x :: B))
    (hal : ∀ y ∈ A1 ++ a :: x :: B ++ [t.this], y < h.fresh) :
    ∃ h4, RemoveBlock h t x = some (h.fresh, h4) ∧
      IsChain h4 t.this (A1 ++ a :: h.fresh :: B) ∧
      length h4 h.fresh = length h x ∧
      (∀ y, y ≠ h.fresh → length h4 y = length h y) ∧
      (h4.blocks h.fresh).type = BlockType.kGap ∧
      (∀ y, y ≠ h.fresh → (h4.blocks y).type = (h.blocks y).type) ∧
      h4.fresh = h.fresh + 1 := by
  have hxf : x ≠ h.fresh := ne_of_lt (hal x (by simp))
  have hc1 : IsChain (set_length (newBlock h BlockType.kGap).2 h.fresh
      (length (newBlock h BlockType.kGap).2 x)) t.this ((A1 ++ [a]) ++ x :: B) := by
    have := hc.alloc hal BlockType.kGap
    simpa using @IsChain.frame _ (set_length (newBlock h BlockType.kGap).2 h.fresh
      (length (newBlock h BlockType.kGap).2 x)) _ _ this (by simp) (by simp)
  obtain ⟨hc3, hlen3, htyp3, hfr3, -, -⟩ := hc1.rippleRemove
  have hfresh : h.fresh ∉ A1 ++ a :: B ++ [t.this] := by
    intro hm
    exact lt_irrefl _ (hal _ (by simp at hm ⊢; tauto))
  have hc3' : IsChain (RippleRemoveBlock (set_length (newBlock h BlockType.kGap).2 h.fresh
      (length (newBlock h BlockType.kGap).2 x)) x) t.this (A1 ++ a :: B) := by
    simpa using hc3
  obtain ⟨h4, e4, hch4, hlen4, htyp4, hfr4⟩ :=
    @IsChain.insertBetween _ t.this A1 B a h.fresh hc3' hfresh
  have hprev := hc1.previous_at
  have hnext := hc1.next_at
  simp only [getLast?_append_cons_singleton] at hprev
  refine ⟨h4, ?_, hch4, ?_, ?_, ?_, ?_, ?_⟩
  · unfold RemoveBlock
    simp only [newBlock_fst, hprev, hnext, e4, Option.map_some']
  · rw [hlen4, hlen3]
    simp [length_set_length, hxf]
  · intro y hy
    rw [hlen4, hlen3]
    simp [length_set_length, hy]
  · rw [htyp4, htyp3]
    simp
  · intro y hy
    rw [htyp4, htyp3]
    simp [hy]
  · rw [hfr4, hfr3]
    simp

/-- `RemoveBlock` on the first block `x` of the chain when the cache lists the
chain: `PrependBlock` links the new gap before `block_cache_.first()`, which
is still `x`, so the chain of the track is left without `x` and without the
gap. -/
theorem IsChain.removeBlock_first {h : Heap} {t : TrackOutput} {B : List Nat} {x : Nat}
    (hc : IsChain h t.this (x :: B)) (hcache : t.block_cache_ = x :: B)
    (hal : ∀ y ∈ x :: B ++ [t.this], y < h.fresh) :
    ∃ h4, RemoveBlock h t x = some (h.fresh, h4) ∧
      IsChain h4 t.this B ∧
      next h4 h.fresh = some x ∧ previous h4 x = some h.fresh ∧
      (∀ y, y ≠ h.fresh → length h4 y = length h y) ∧
      (∀ y, y ≠ h.fresh → (h4.blocks y).type = (h.blocks y).type) ∧
      h4.fresh = h.fresh + 1 := by
  have hxf : x ≠ h.fresh := ne_of_lt (hal x (by simp))
  have hc1 : IsChain (set_length (newBlock h BlockType.kGap).2 h.fresh
      (length (newBlock h BlockType.kGap).2 x)) t.this ([] ++ x :: B) := by
    have := hc.alloc hal BlockType.kGap
    simpa using @IsChain.frame _ (set_length (newBlock h BlockType.kGap).2 h.fresh
      (length (newBlock h BlockType.kGap).2 x)) _ _ this (by simp) (by simp)
  obtain ⟨hc3, hlen3, htyp3, hfr3, -, -⟩ := hc1.rippleRemove
  have hprev := hc1.previous_at
  have hnd : (x :: (B ++ [t.this])).Nodup := by simpa using hc.2.2
  have hxB : x ∉ B ++ [t.this] := (List.nodup_cons.mp hnd).1
  refine ⟨PrependBlock (RippleRemoveBlock (set_length (newBlock h BlockType.kGap).2 h.fresh
      (length (newBlock h BlockType.kGap).2 x)) x) t h.fresh, ?_, ?_, ?_, ?_, ?_, ?_, ?_⟩
  · unfold RemoveBlock
    simp only [newBlock_fst, hprev, List.getLast?_nil]
  · unfold PrependBlock AddBlockToGraph
    rw [hcache]
    refine hc3.frame ?_ ?_
    · intro y hy
      have : y ≠ x := by intro e; subst e; exact hxB (by simpa using hy)
      simp [this]
    · intro y hy
      have : y ≠ h.fresh := ne_of_lt (hal y (by simp at hy ⊢; tauto))
      simp [this]
  · unfold PrependBlock AddBlockToGraph
    rw [hcache]
    simp
  · unfold PrependBlock AddBlockToGraph
    rw [hcache]
    simp
  · intro y hy
    unfold PrependBlock AddBlockToGraph
    rw [hcache]
    dsimp only
    rw [length_ConnectBlocks, hlen3]
    simp [length_set_length, hy]
  · intro y hy
    unfold PrependBlock AddBlockToGraph
    rw [hcache]
    dsimp only
    rw [type_ConnectBlocks, htyp3]
    simp [hy]
  · unfold PrependBlock AddBlockToGraph
    rw [hcache]
    dsimp only
    rw [fresh_ConnectBlocks, hfr3]
    simp

/-- When the link changes of `RippleRemoveBlock` leave the cache as it was:
on `[A:0-5, B:5-10]`, `RemoveBlock(A)` followed by `Refresh()` leaves the cache
`[B]`; the new gap is linked before `A` (still `block_cache_.first()`), not
before `B`, so it is not in the chain and the in point of the track drops from
10 to 5. -/
theorem RemoveBlock_first_with_cache_left_as_it_was :
    ∃ gap h4 ev, RemoveBlock heapAB trackAB 1 = some (gap, h4) ∧
      Refresh h4 trackAB 5 = some ({ trackAB with block_cache_ := [2] }, ev) ∧
      gap ∉ [2] ∧ next h4 gap = some 1 ∧ previous h4 1 = some gap ∧
      in_ heapAB 5 trackAB.this = some 10 ∧ in_ h4 5 trackAB.this = some 5 := by
  obtain ⟨h4, e, hch, hn, hp, hlen, -, -⟩ :=
    @IsChain.removeBlock_first heapAB trackAB [2] 1 isChain_heapAB rfl (by decide)
  obtain ⟨ev, hr⟩ := @IsChain.refresh h4 trackAB [2] 5 hch (by decide)
  refine ⟨heapAB.fresh, h4, ev, e, hr, by decide, hn, hp, by decide!, ?_⟩
  have h2 : length h4 2 = 5 := by
    rw [hlen 2 (by decide)]
    decide!
  have := @IsChain.in_this h4 trackAB.this [2] 5 hch (by decide)
  rw [this]
  simp [h2]

/-! ## RemoveBlock, with the cache after a link change as a parameter -/

theorem afterLinkChange_false (h : Heap) (t : TrackOutput) (fuel : Nat) :
    afterLinkChange false h t fuel = some t := rfl

/-- A link change that refreshes the cache leaves the cache listing the chain. -/
theorem IsChain.linkChange_refreshes {h : Heap} {t : TrackOutput} {c : List Nat} {fuel : Nat}
    (hc : IsChain h t.this c) (hf : c.length ≤ fuel) :
    afterLinkChange true h t fuel = some { t with block_cache_ := c } := by
  obtain ⟨ev, e⟩ := hc.refresh hf
  simp [afterLinkChange, e]

/-- Without a refresh at the link changes `RemoveBlockWith` is `RemoveBlock`. -/
theorem RemoveBlockWith_false (h : Heap) (t : TrackOutput) (fuel block : Nat) :
    RemoveBlockWith false h t fuel block =
      (RemoveBlock h t block).map (fun r => (r.1, r.2, t)) := by
  unfold RemoveBlockWith RemoveBlock relinked
  simp only [afterLinkChange_false]
  cases previous (set_length (newBlock h BlockType.kGap).2 (newBlock h BlockType.kGap).1
      (length (newBlock h BlockType.kGap).2 block)) block with
  | none => simp
  | some p =>
    dsimp only
    cases InsertBlockBetweenBlocks _ _ p _ <;> simp

/-- `RemoveBlockWith` on the first block `x` of the chain when the link changes
refresh the cache: after `RippleRemoveBlock` the cache is `B`, and
`PrependBlock` links the new gap before the first block of `B` (or to the
track when `B` is empty). -/
theorem IsChain.removeBlockWith_first {h : Heap} {t : TrackOutput} {B : List Nat} {x fuel : Nat}
    (hc : IsChain h t.this (x :: B)) (hal : ∀ y ∈ x :: B ++ [t.this], y < h.fresh)
    (hf : (x :: B).length ≤ fuel) :
    ∃ h4, RemoveBlockWith true h t fuel x =
        some (h.fresh, h4, { t with block_cache_ := h.fresh :: B }) ∧
      IsChain h4 t.this (h.fresh :: B) ∧
      length h4 h.fresh = length h x ∧
      (∀ y, y ≠ h.fresh → length h4 y = length h y) ∧
      (h4.blocks h.fresh).type = BlockType.kGap ∧
      (∀ y, y ≠ h.fresh → (h4.blocks y).type = (h.blocks y).type) ∧
      h4.fresh = h.fresh + 1 := by
  have hxf : x ≠ h.fresh := ne_of_lt (hal x (by simp))
  have hc1 : IsChain (set_length (newBlock h BlockType.kGap).2 h.fresh
      (length (newBlock h BlockType.kGap).2 x)) t.this ([] ++ x :: B) := by
    have := hc.alloc hal BlockType.kGap
    simpa using @IsChain.frame _ (set_length (newBlock h BlockType.kGap).2 h.fresh
      (length (newBlock h BlockType.kGap).2 x)) _ _ this (by simp) (by simp)
  obtain ⟨hc3, hlen3, htyp3, hfr3, -, -⟩ := hc1.rippleRemove
  have hc3' : IsChain (RippleRemoveBlock (set_length (newBlock h BlockType.kGap).2 h.fresh
      (length (newBlock h BlockType.kGap).2 x)) x) t.this B := by simpa using hc3
  have hprev := hc1.previous_at
  have hfB : h.fresh ∉ B ++ [t.this] := by
    intro hm
    exact lt_irrefl _ (hal _ (by simp at hm ⊢; tauto))
  have ht3 := @IsChain.linkChange_refreshes _ t B fuel hc3' (by simp at hf; omega)
  have hpg : previous (RippleRemoveBlock (set_length (newBlock h BlockType.kGap).2 h.fresh
      (length (newBlock h BlockType.kGap).2 x)) x) h.fresh = none := by
    unfold RippleRemoveBlock
    rw [hprev, hc1.next_at]
    have : h.fresh ≠ B.headD t.this := by
      intro e; apply hfB; rw [e]; exact headD_mem B t.this
    simp [-List.headD_eq_head?_getD, this]
  obtain ⟨hch4, hlen4, htyp4, hfr4⟩ :=
    @IsChain.prepend _ { t with block_cache_ := B } B h.fresh hc3' rfl hfB hpg
  have ht4 := @IsChain.linkChange_refreshes _ { t with block_cache_ := B } (h.fresh :: B) fuel
    hch4 (by simpa using hf)
  refine ⟨_, ?_, hch4, ?_, ?_, ?_, ?_, ?_⟩
  · unfold RemoveBlockWith relinked
    simp only [newBlock_fst, hprev, List.getLast?_nil, ht3, ht4, Option.map_some']
  · rw [hlen4, hlen3]
    simp [length_set_length, hxf]
  · intro y hy
    rw [hlen4, hlen3]
    simp [length_set_length, hy]
  · rw [htyp4, htyp3]
    simp
  · intro y hy
    rw [htyp4, htyp3]
    simp [hy]
  · rw [hfr4, hfr3]
    simp

/-- `RemoveBlockWith` on a block `x` of the chain that has a previous block:
the result is that of `RemoveBlock`, whether or not the link changes refresh
the cache. -/
theorem IsChain.removeBlockWith_inner {h : Heap} {t : TrackOutput} {A1 B : List Nat}
    {a x fuel : Nat} (refreshing : Bool)
    (hc : IsChain h t.this (A1 ++ a :: x :: B))
    (hal : ∀ y ∈ A1 ++ a :: x :: B ++ [t.this], y < h.fresh)
    (hf : (A1 ++ a :: x :: B).length ≤ fuel) :
    ∃ h4, RemoveBlock h t x = some (h.fresh, h4) ∧
      RemoveBlockWith refreshing h t fuel x =
        some (h.fresh, h4,
          if refreshing then { t with block_cache_ := A1 ++ a :: h.fresh :: B } else t) ∧
      IsChain h4 t.this (A1 ++ a :: h.fresh :: B) ∧
      length h4 h.fresh = length h x ∧
      (∀ y, y ≠ h.fresh → length h4 y = length h y) ∧
      (h4.blocks h.fresh).type = BlockType.kGap ∧
      (∀ y, y ≠ h.fresh → (h4.blocks y).type = (h.blocks y).type) ∧
      h4.fresh = h.fresh + 1 := by
  obtain ⟨h4, e, hch4, hrest⟩ := @IsChain.removeBlock_inner h t A1 B a x hc hal
  refine ⟨h4, e, ?_, hch4, hrest⟩
  cases refreshing with
  | false => rw [RemoveBlockWith_false, e]; rfl
  | true =>
    have hc1 : IsChain (set_length (newBlock h BlockType.kGap).2 h.fresh
        (length (newBlock h BlockType.kGap).2 x)) t.this ((A1 ++ [a]) ++ x :: B) := by
      have := hc.alloc hal BlockType.kGap
      simpa using @IsChain.frame _ (set_length (newBlock h BlockType.kGap).2 h.fresh
        (length (newBlock h BlockType.kGap).2 x)) _ _ this (by simp) (by simp)
    obtain ⟨hc3, -⟩ := hc1.rippleRemove
    have hprev := hc1.previous_at
    simp only [getLast?_append_cons_singleton] at hprev
    have ht3 := @IsChain.linkChange_refreshes _ t _ fuel hc3
      (by simp at hf ⊢; omega)
    have ht4 := @IsChain.linkChange_refreshes h4
      { t with block_cache_ := A1 ++ [a] ++ B } _ fuel hch4 (by simp at hf ⊢; omega)
    unfold RemoveBlock at e
    simp only [newBlock_fst, hprev, Option.map_eq_some'] at e
    obtain ⟨h4', e4, e5⟩ := e
    simp only [Prod.mk.injEq, true_and] at e5
    subst e5
    unfold RemoveBlockWith relinked
    simp only [newBlock_fst, hprev, ht3, e4, ht4, Option.map_some', if_true]

/-- In points when a block `x` of the chain is replaced by a block `g` of the
same length: the in points of `g`, of the later blocks and of the track are
those of `x`, of the later blocks and of the track before. -/
theorem IsChain.in_after_replace {h h4 : Heap} {this : Nat} {A B : List Nat} {x g fuel : Nat}
    (hc : IsChain h this (A ++ x :: B)) (hc4 : IsChain h4 this (A ++ g :: B))
    (hg : g ∉ A ++ x :: B ++ [this])
    (hlg : length h4 g = length h x) (hlen : ∀ y, y ≠ g → length h4 y = length h y)
    (hf : (A ++ x :: B).length < fuel) :
    (∃ tin, in_ h fuel this = some tin ∧ in_ h4 fuel this = some tin) ∧
    (∃ p, in_ h fuel x = some p ∧ in_ h4 fuel g = some p) ∧
    (∀ B1 y B2, B = B1 ++ y :: B2 →
      ∃ p, in_ h fuel y = some p ∧ in_ h4 fuel y = some p) := by
  have hA : A.map (length h4) = A.map (length h) := by
    apply map_length_congr
    intro y hy
    apply hlen
    intro e; subst e; apply hg; simp [hy]
  have hB : ∀ L : List Nat, (∀ y ∈ L, y ∈ B) → L.map (length h4) = L.map (length h) := by
    intro L hL
    apply map_length_congr
    intro y hy
    apply hlen
    intro e; subst e; apply hg; simp [hL _ hy]
  have hfA : A.length < fuel := by simp at hf; omega
  refine ⟨⟨_, hc.in_this hf, ?_⟩, ⟨_, hc.in_at hfA, ?_⟩, ?_⟩
  · rw [hc4.in_this (by simpa using hf)]
    simp [hA, hB B (fun _ hy => hy), hlg]
  · rw [hc4.in_at hfA, hA]
  · intro B1 y B2 e
    subst e
    have h1 : IsChain h this ((A ++ x :: B1) ++ y :: B2) := by simpa using hc
    have h2 : IsChain h4 this ((A ++ g :: B1) ++ y :: B2) := by simpa using hc4
    refine ⟨_, h1.in_at (by simp at hf ⊢; omega), ?_⟩
    rw [h2.in_at (by simp at hf ⊢; omega)]
    simp [hA, hB B1 (fun _ hy => by simp [hy]), hlg]

/-- C9: for a block `x` anywhere in the chain `A ++ x :: B` of a track whose
cache lists the chain (`A` and `B` may be empty: first block, last block, only
block), `RemoveBlock(x)` returns, and the following `Refresh()` returns the old
cache with `x` replaced, at its index, by the block `h.fresh` created by the
call: a gap whose length is the length of `x`, all other lengths being
unchanged.  The in point of the track, the in point at that index and the in
points of all later blocks are what they were.  This is `RemoveBlock` with link
changes that refresh the cache, as `PrependBlock` after `RippleRemoveBlock`
(track.cpp:290-294) presupposes; for a block that has a previous block the
result is the same when they do not. -/
theorem C9_remove_block_leaves_a_gap_of_equal_length
    (h : Heap) (t : TrackOutput) (A B : List Nat) (x fuel : Nat)
    (hc : IsChain h t.this (A ++ x :: B)) (hcache : t.block_cache_ = A ++ x :: B)
    (hal : ∀ y ∈ A ++ x :: B ++ [t.this], y < h.fresh)
    (hf : (A ++ x :: B).length < fuel) :
    ∃ h4 t4, RemoveBlockWith true h t fuel x = some (h.fresh, h4, t4) ∧
      (∃ ev, Refresh h4 t4 fuel = some ({ t with block_cache_ := A ++ h.fresh :: B }, ev)) ∧
      h.fresh ∉ t.block_cache_ ++ [t.this] ∧
      (h4.blocks h.fresh).type = BlockType.kGap ∧
      length h4 h.fresh = length h x ∧
      (∀ y, y ≠ h.fresh → length h4 y = length h y) ∧
      (∃ tin, in_ h fuel t.this = some tin ∧ in_ h4 fuel t.this = some tin) ∧
      (∃ p, in_ h fuel x = some p ∧ in_ h4 fuel h.fresh = some p) ∧
      (∀ B1 y B2, B = B1 ++ y :: B2 →
        ∃ p, in_ h fuel y = some p ∧ in_ h4 fuel y = some p) ∧
      (A ≠ [] → RemoveBlock h t x = some (h.fresh, h4) ∧
        RemoveBlockWith false h t fuel x = some (h.fresh, h4, t)) := by
  have hg : h.fresh ∉ A ++ x :: B ++ [t.this] := fun hm => lt_irrefl _ (hal _ hm)
  have hg2 : h.fresh ∉ t.block_cache_ ++ [t.this] := by rw [hcache]; exact hg
  rcases List.eq_nil_or_concat A with rfl | ⟨A1, a, rfl⟩
  · obtain ⟨h4, e, hch, hlg, hlen, hty, -, -⟩ :=
      @IsChain.removeBlockWith_first h t B x fuel (by simpa using hc) (by simpa using hal)
        (by simp at hf ⊢; omega)
    have hch' : IsChain h4 t.this ([] ++ h.fresh :: B) := by simpa using hch
    obtain ⟨i1, i2, i3⟩ := hc.in_after_replace hch' hg hlg hlen hf
    obtain ⟨ev, hr⟩ := @IsChain.refresh h4 { t with block_cache_ := h.fresh :: B }
      (h.fresh :: B) fuel hch (by simp at hf ⊢; omega)
    exact ⟨h4, _, e, ⟨ev, by simpa using hr⟩, hg2, hty, hlg, hlen, i1, i2, i3,
      fun hne => absurd rfl hne⟩
  · simp only [List.concat_eq_append] at *
    have hc' : IsChain h t.this (A1 ++ a :: x :: B) := by simpa using hc
    have hal' : ∀ y ∈ A1 ++ a :: x :: B ++ [t.this], y < h.fresh := by simpa using hal
    obtain ⟨h4, e0, e, hch, hlg, hlen, hty, -, -⟩ :=
      @IsChain.removeBlockWith_inner h t A1 B a x fuel true hc' hal'
        (by simp at hf ⊢; omega)
    obtain ⟨h4b, e0b, eb, -⟩ :=
      @IsChain.removeBlockWith_inner h t A1 B a x fuel false hc' hal'
        (by simp at hf ⊢; omega)
    have hsame : h4b = h4 := by
      rw [e0] at e0b
      simp only [Option.some.injEq, Prod.mk.injEq, true_and] at e0b
      exact e0b.symm
    rw [hsame] at eb
    have hch' : IsChain h4 t.this ((A1 ++ [a]) ++ h.fresh :: B) := by simpa using hch
    obtain ⟨i1, i2, i3⟩ := hc.in_after_replace hch' hg hlg hlen hf
    obtain ⟨ev, hr⟩ := @IsChain.refresh h4 { t with block_cache_ := A1 ++ a :: h.fresh :: B }
      (A1 ++ a :: h.fresh :: B) fuel hch (by simp at hf ⊢; omega)
    refine ⟨h4, _, e, ⟨ev, ?_⟩, hg2, hty, hlg, hlen, i1, i2, i3, fun _ => ⟨e0, eb⟩⟩
    simpa using hr

/-- Witness of C9: removing the first block `A` of `[A:0-5, B:5-10]`. -/
theorem C9_remove_block_leaves_a_gap_of_equal_length_witness :
    (IsChain heapAB trackAB.this ([] ++ 1 :: [2]) ∧ trackAB.block_cache_ = [] ++ 1 :: [2]) ∧
    ∃ h4 t4, RemoveBlockWith true heapAB trackAB 5 1 = some (heapAB.fresh, h4, t4) ∧
      (∃ ev, Refresh h4 t4 5 =
        some ({ trackAB with block_cache_ := [] ++ heapAB.fresh :: [2] }, ev)) ∧
      heapAB.fresh ∉ trackAB.block_cache_ ++ [trackAB.this] ∧
      (h4.blocks heapAB.fresh).type = BlockType.kGap ∧
      length h4 heapAB.fresh = length heapAB 1 ∧
      (∀ y, y ≠ heapAB.fresh → length h4 y = length heapAB y) ∧
      (∃ tin, in_ heapAB 5 trackAB.this = some tin ∧ in_ h4 5 trackAB.this = some tin) ∧
      (∃ p, in_ heapAB 5 1 = some p ∧ in_ h4 5 heapAB.fresh = some p) ∧
      (∀ B1 y B2, [2] = B1 ++ y :: B2 →
        ∃ p, in_ heapAB 5 y = some p ∧ in_ h4 5 y = some p) ∧
      (([] : List Nat) ≠ [] → RemoveBlock heapAB trackAB 1 = some (heapAB.fresh, h4) ∧
        RemoveBlockWith false heapAB trackAB 5 1 = some (heapAB.fresh, h4, trackAB)) :=
  ⟨⟨isChain_heapAB, rfl⟩,
   C9_remove_block_leaves_a_gap_of_equal_length heapAB trackAB [] [2] 1 5
    isChain_heapAB rfl (by decide) (by decide)⟩

/-! ## Sequences of edits keep the chain well formed -/

theorem split_at_index : ∀ (c : List Nat) (n : Nat), n < c.length →
    ∃ A x B, c = A ++ x :: B ∧ A.length = n ∧ c.get? n = some x := by
  intro c
  induction c with
  | nil => intro n hn; simp at hn
  | cons a c ih =>
    intro n hn
    cases n with
    | zero => exact ⟨[], a, c, rfl, rfl, rfl⟩
    | succ n =>
      obtain ⟨A, x, B, e, hl, hg⟩ := ih n (by simpa using hn)
      exact ⟨a :: A, x, B, by simp [e], by simp [hl], by simpa using hg⟩

theorem split_adjacent_at_index (c : List Nat) (n : Nat) (h1 : 1 ≤ n) (h2 : n < c.length) :
    ∃ A a b B, c = A ++ a :: b :: B ∧ A.length = n - 1 ∧
      c.get? (n - 1) = some a ∧ c.get? n = some b := by
  obtain ⟨A, a, B1, e, hl, hg⟩ := split_at_index c (n - 1) (by omega)
  cases B1 with
  | nil =>
    exfalso
    rw [e] at h2
    simp at h2
    omega
  | cons b B =>
    refine ⟨A, a, b, B, e, hl, hg, ?_⟩
    rw [e]
    have : n = A.length + 1 := by omega
    rw [this]
    clear e hg hl h2 this
    induction A with
    | nil => rfl
    | cons a2 A ih => simpa using ih

theorem previous_InsertBlockBetweenBlocks {h h2 : Heap} {x a n y : Nat}
    (e : InsertBlockBetweenBlocks h x a (some n) = some h2) (hx : y ≠ x) (hn : y ≠ n) :
    previous h2 y = previous h y := by
  unfold InsertBlockBetweenBlocks AddBlockToGraph at e
  simp only [Option.some.injEq] at e
  subst e
  simp [hx, hn]

theorem previous_AppendBlock {h h2 : Heap} {t : TrackOutput} {x y : Nat}
    (e : AppendBlock h t x = some h2) (hx : y ≠ x) (ht : y ≠ t.this) :
    previous h2 y = previous h y := by
  unfold AppendBlock at e
  cases hl : t.block_cache_.getLast? with
  | none =>
    rw [hl] at e
    simp only [Option.some.injEq] at e
    subst e
    simp [ConnectBlockInternal, AddBlockToGraph, ht]
  | some a =>
    rw [hl] at e
    exact previous_InsertBlockBetweenBlocks e hx ht

theorem Synced.after_append {h : Heap} {t : TrackOutput} {b : Nat}
    (hs : Synced h t) (hb : Insertable h t.this t.block_cache_ b) :
    ∃ h2, AppendBlock h t b = some h2 ∧ ChainAfter h2 t := by
  obtain ⟨hc, hal⟩ := hs
  obtain ⟨hbf, hbn, hbp⟩ := hb
  obtain ⟨h2, e, hch, -, -, hfr⟩ := hc.append rfl hbn hbp
  refine ⟨h2, e, _, hch, ?_, by simp⟩
  intro y hy
  rw [hfr]
  have : y = b ∨ y ∈ t.block_cache_ ++ [t.this] := by simp at hy ⊢; tauto
  rcases this with rfl | hy
  · exact hbf
  · exact hal y hy

theorem Synced.after_removeBlock {h : Heap} {t : TrackOutput} {x : Nat}
    (hs : Synced h t) (hx : x ∈ t.block_cache_) :
    ∃ r, RemoveBlock h t x = some r ∧ ChainAfter r.2 t := by
  obtain ⟨hc, hal⟩ := hs
  obtain ⟨A, B, hsplit⟩ := List.append_of_mem hx
  rcases List.eq_nil_or_concat A with rfl | ⟨A1, a, rfl⟩
  · have hsplit2 : t.block_cache_ = x :: B := by simpa using hsplit
    rw [hsplit2] at hc hal
    obtain ⟨h4, e, hch, -, -, -, -, hfr⟩ := hc.removeBlock_first hsplit2 hal
    refine ⟨_, e, _, hch, ?_, by rw [hsplit2]; simp only [List.length_append, List.length_cons]; omega⟩
    intro y hy
    rw [hfr]
    exact Nat.lt_succ_of_lt (hal y (by simp at hy ⊢; tauto))
  · simp only [List.concat_eq_append] at hsplit
    have hsplit2 : t.block_cache_ = A1 ++ a :: x :: B := by simpa using hsplit
    rw [hsplit2] at hc hal
    obtain ⟨h4, e, hch, -, -, -, -, hfr⟩ := hc.removeBlock_inner hal
    refine ⟨_, e, _, hch, ?_, by rw [hsplit2]; simp only [List.length_append, List.length_cons]; omega⟩
    intro y hy
    rw [hfr]
    have : y = h.fresh ∨ y ∈ A1 ++ a :: x :: B ++ [t.this] := by simp at hy ⊢; tauto
    rcases this with rfl | hy
    · exact Nat.lt_succ_self _
    · exact Nat.lt_succ_of_lt (hal y hy)

theorem placeLoop_chain {h : Heap} {this b fuel : Nat} {start : ℚ} :
    ∀ (rest P : List Nat), IsChain h this (P ++ rest) → b ∉ P ++ rest ++ [this] →
      (P ++ rest).length < fuel →
      ∃ h2, placeLoop h b start fuel rest = some h2 ∧
        ∃ c2, IsChain h2 this c2 ∧ h2.fresh = h.fresh ∧
          (∀ y ∈ c2, y = b ∨ y ∈ P ++ rest) ∧ c2.length ≤ (P ++ rest).length + 1 := by
  intro rest
  induction rest with
  | nil =>
    intro P hc _ _
    exact ⟨h, rfl, _, hc, rfl, fun y hy => Or.inr hy, by omega⟩
  | cons prev tl ih =>
    intro P hc hb hf
    cases tl with
    | nil => exact ⟨h, rfl, _, hc, rfl, fun y hy => Or.inr hy, by omega⟩
    | cons comp rest2 =>
      have hc2 : IsChain h this ((P ++ [prev]) ++ comp :: rest2) := by simpa using hc
      have hin := @IsChain.in_at h this (P ++ [prev]) rest2 comp fuel hc2
        (by simp at hf ⊢; omega)
      unfold placeLoop
      rw [hin]
      dsimp only
      by_cases hst : (List.map (length h) (P ++ [prev])).sum = start
      · simp only [hst, if_true]
        obtain ⟨h2, e, hch, -, -, hfr⟩ :=
          @IsChain.insertBetween h this P (comp :: rest2) prev b hc (by simpa using hb)
        refine ⟨h2, by simpa using e, _, hch, hfr, ?_, ?_⟩
        · intro y hy
          simp at hy ⊢
          tauto
        · simp only [List.length_append, List.length_cons]; omega
      · simp only [hst, if_false]
        have := ih (P ++ [prev]) hc2 (by simpa using hb) (by simpa using hf)
        simpa using this

theorem Synced.after_place {h : Heap} {t : TrackOutput} {b fuel : Nat} {start : ℚ}
    (hs : Synced h t) (hb : Insertable h t.this t.block_cache_ b)
    (hf : t.block_cache_.length < fuel) :
    ∃ h2, PlaceBlock h t b start fuel = some h2 ∧ ChainAfter h2 t := by
  have hs0 := hs
  have hb0 := hb
  obtain ⟨hc, hal⟩ := hs
  obtain ⟨hbf, hbn, hbp⟩ := hb
  obtain ⟨f, rfl⟩ : ∃ f, fuel = f + 1 := ⟨fuel - 1, by omega⟩
  have hin : in_ h (f + 1) b = some 0 := by simp [in_, hbp]
  unfold PlaceBlock AddBlockToGraph
  dsimp only
  rw [hin]
  dsimp only
  by_cases h0 : (0 : ℚ) = start
  · simp only [h0, if_true]
    exact ⟨h, rfl, _, hc, hal, by omega⟩
  · have h0' : ¬ start = 0 := fun e => h0 e.symm
    simp only [h0, h0', if_false]
    rw [hc.in_this hf]
    dsimp only
    by_cases hge : start ≥ (List.map (length h) t.block_cache_).sum
    · simp only [hge, if_true]
      by_cases hgt : start > (List.map (length h) t.block_cache_).sum
      · simp only [hgt, if_true, newBlock_fst]
        have hfresh : h.fresh ∉ t.block_cache_ ++ [t.this] := fun hm => lt_irrefl _ (hal _ hm)
        have hc2 : IsChain (set_length (newBlock h BlockType.kGap).2 h.fresh
            (start - (List.map (length h) t.block_cache_).sum)) t.this t.block_cache_ :=
          (hc.alloc hal BlockType.kGap).frame (by simp) (by simp)
        obtain ⟨h3, e3, hch3, -, -, hfr3⟩ :=
          @IsChain.append _ t t.block_cache_ h.fresh hc2 rfl hfresh (by simp)
        rw [e3]
        dsimp only
        have hbfr : b ≠ h.fresh := ne_of_lt hbf
        have hbt : b ≠ t.this := by intro e; apply hbn; simp [e]
        have hp3 : previous h3 b = none := by
          rw [previous_AppendBlock e3 hbfr hbt]
          simp [hbfr, hbp]
        obtain ⟨h4, e4, hch4, -, -, hfr4⟩ :=
          @IsChain.appendReplacing h3 t t.block_cache_ [h.fresh] b hch3 rfl hbn hp3
        refine ⟨h4, e4, _, hch4, ?_, by simp⟩
        intro y hy
        rw [hfr4, hfr3]
        simp only [fresh_set_length, fresh_newBlock]
        have : y = b ∨ y ∈ t.block_cache_ ++ [t.this] := by simp at hy ⊢; tauto
        rcases this with rfl | hy
        · exact Nat.lt_succ_of_lt hbf
        · exact Nat.lt_succ_of_lt (hal y hy)
      · simp only [hgt, if_false]
        exact hs0.after_append hb0
    · simp only [hge, if_false]
      obtain ⟨h2, e, c2, hch, hfr, hsub, hlen⟩ :=
        @placeLoop_chain h t.this b (f + 1) start t.block_cache_ [] (by simpa using hc)
          (by simpa using hbn) (by simpa using hf)
      refine ⟨h2, e, c2, hch, ?_, by simp at hlen; omega⟩
      intro y hy
      rw [hfr]
      rcases List.mem_append.mp hy with hy | hy
      · rcases hsub y hy with rfl | hy2
        · exact hbf
        · exact hal y (by simp at hy2 ⊢; tauto)
      · exact hal y (by simp at hy ⊢; tauto)

theorem refreshLoop_self_linked {h : Heap} {a : Nat} (ha : previous h a = some a)
    (cache : List Nat) :
    ∀ (fuel : Nat) (detect : List Nat) (ev : List Event),
      refreshLoop h cache fuel (some a) detect ev = none := by
  intro fuel
  induction fuel with
  | zero => intro detect ev; rfl
  | succ fuel ih =>
    intro detect ev
    rw [refreshLoop, ha]
    exact ih _ _

/-! ## InsertBlockAtIndex -/

/-- `InsertBlockAtIndex` of a block without a previous block that is not in the
chain, with an index that is not negative, when the cache lists the chain: the
block is linked at position `min index size`. -/
theorem IsChain.insertAtIndex {h : Heap} {t : TrackOutput} {c : List Nat} {x : Nat}
    {index : Int}
    (hc : IsChain h t.this c) (hcache : t.block_cache_ = c)
    (hx : x ∉ c ++ [t.this]) (hpx : previous h x = none) (hi : 0 ≤ index) :
    ∃ h2, InsertBlockAtIndex h t x index = some h2 ∧
      IsChain h2 t.this (c.take (min index.toNat c.length) ++
        x :: c.drop (min index.toNat c.length)) ∧
      (∀ y, length h2 y = length h y) ∧
      ((c ≠ [] ∧ index ≠ 0 ∧ index < (c.length : Int)) →
        ∃ a b, at_ c (index - 1) = some a ∧ at_ c index = some b ∧
          previous h2 x = some a ∧ next h2 x = some b) := by
  unfold InsertBlockAtIndex AddBlockToGraph
  by_cases hempty : t.block_cache_.isEmpty = true
  · simp only [hempty, if_true]
    have hnil : c = [] := by rw [← hcache]; simpa using hempty
    subst hnil
    obtain ⟨hch, hlen, -, -⟩ := hc.prepend hcache hx hpx
    unfold PrependBlock AddBlockToGraph at hch hlen
    rw [hcache] at hch hlen
    exact ⟨_, rfl, by simpa using hch, hlen, fun hh => absurd rfl hh.1⟩
  · simp only [hempty, Bool.false_eq_true, if_false]
    have hne : c ≠ [] := by
      intro e; apply hempty; rw [hcache, e]; rfl
    by_cases h0 : index = 0
    · simp only [h0, if_true]
      obtain ⟨hch, hlen, -, -⟩ := hc.prepend hcache hx hpx
      exact ⟨_, rfl, by simpa using hch, hlen, fun hh => absurd rfl hh.2.1⟩
    · simp only [h0, if_false]
      by_cases hge : index ≥ (t.block_cache_.length : Int)
      · simp only [hge, if_true]
        obtain ⟨h2, e, hch, hlen, -, -⟩ := hc.append hcache hx hpx
        rw [hcache] at hge
        have hmin : min index.toNat c.length = c.length := by
          apply min_eq_right; omega
        refine ⟨h2, e, by simpa [hmin] using hch, hlen, fun hh => ?_⟩
        exact absurd hh.2.2 (not_lt.mpr hge)
      · simp only [hge, if_false]
        rw [hcache] at hge ⊢
        have hn1 : 1 ≤ index.toNat := by omega
        have hn2 : index.toNat < c.length := by omega
        obtain ⟨A, a, b, B, e, hlA, hga, hgb⟩ :=
          split_adjacent_at_index c index.toNat hn1 hn2
        have e1 : at_ c (index - 1) = some a := by
          unfold at_
          have : ¬ (index - 1 < 0) := by omega
          simp only [this, if_false]
          have : (index - 1).toNat = index.toNat - 1 := by omega
          rw [this, hga]
        have e2 : at_ c index = some b := by
          unfold at_
          have : ¬ (index < 0) := by omega
          simp only [this, if_false, hgb]
        rw [e1, e2]
        dsimp only
        have hc2 : IsChain h t.this (A ++ a :: b :: B) := e ▸ hc
        obtain ⟨h2, e3, hch, hlen, -, -⟩ :=
          @IsChain.insertBetween h t.this A (b :: B) a x hc2 (by rw [← e]; exact hx)
        have hmin : min index.toNat c.length = A.length + 1 := by
          rw [min_eq_left (le_of_lt hn2)]; omega
        have htake : c.take (A.length + 1) = A ++ [a] := by
          rw [e]
          have : A.length + 1 = (A ++ [a]).length := by simp
          rw [this]
          have e4 : A ++ a :: b :: B = (A ++ [a]) ++ b :: B := by simp
          rw [e4, List.take_left]
        have hdrop : c.drop (A.length + 1) = b :: B := by
          rw [e]
          have : A.length + 1 = (A ++ [a]).length := by simp
          rw [this]
          have e4 : A ++ a :: b :: B = (A ++ [a]) ++ b :: B := by simp
          rw [e4, List.drop_left]
        refine ⟨h2, by simpa using e3, ?_, hlen, fun _ => ⟨a, b, rfl, rfl, ?_, ?_⟩⟩
        · rw [hmin, htake, hdrop]
          simpa using hch
        · have hch2 : IsChain h2 t.this ((A ++ [a]) ++ x :: b :: B) := by simpa using hch
          simpa using hch2.previous_at
        · have hch2 : IsChain h2 t.this ((A ++ [a]) ++ x :: b :: B) := by simpa using hch
          simpa using hch2.next_at

/-- C11: on a track whose cache lists its chain, for a block that is not in
the chain and has no previous block and for every index `≥ 0`,
`InsertBlockAtIndex` returns (no cache access is out of range) and after
`Refresh()` the cache is the old cache with the block inserted at position
`min index size`: for index 0 the block is first, for every index `≥ size` it
is appended (its `next` is the track), and otherwise it is linked between the
old `cache[index - 1]` and `cache[index]`, which both exist. -/
theorem C11_insert_block_at_index_inserts_at_clamped_position
    (h : Heap) (t : TrackOutput) (block : Nat) (index : Int) (fuel : Nat)
    (hc : IsChain h t.this t.block_cache_)
    (hx : block ∉ t.block_cache_ ++ [t.this]) (hpx : previous h block = none)
    (hi : 0 ≤ index) (hf : t.block_cache_.length < fuel) :
    ∃ h2 ev, InsertBlockAtIndex h t block index = some h2 ∧
      Refresh h2 t fuel = some
        ({ t with
            block_cache_ := t.block_cache_.take (min index.toNat t.block_cache_.length) ++
                              block :: t.block_cache_.drop (min index.toNat t.block_cache_.length) },
          ev) ∧
      (index = 0 →
        t.block_cache_.take (min index.toNat t.block_cache_.length) ++
          block :: t.block_cache_.drop (min index.toNat t.block_cache_.length) =
        block :: t.block_cache_) ∧
      (index ≥ (t.block_cache_.length : Int) →
        t.block_cache_.take (min index.toNat t.block_cache_.length) ++
          block :: t.block_cache_.drop (min index.toNat t.block_cache_.length) =
        t.block_cache_ ++ [block] ∧ next h2 block = some t.this) ∧
      ((t.block_cache_ ≠ [] ∧ index ≠ 0 ∧ index < (t.block_cache_.length : Int)) →
        ∃ a b, at_ t.block_cache_ (index - 1) = some a ∧ at_ t.block_cache_ index = some b ∧
          previous h2 block = some a ∧ next h2 block = some b) := by
  obtain ⟨h2, e, hch, -, hmid⟩ := hc.insertAtIndex rfl hx hpx hi
  obtain ⟨ev, hr⟩ := @IsChain.refresh h2 t _ fuel hch (by
    simp only [List.length_append, List.length_cons, List.length_take, List.length_drop]
    omega)
  refine ⟨h2, ev, e, hr, ?_, ?_, hmid⟩
  · intro h0
    simp [h0]
  · intro hge
    have hmin : min index.toNat t.block_cache_.length = t.block_cache_.length := by
      apply min_eq_right; omega
    rw [hmin] at hch ⊢
    have hch2 : IsChain h2 t.this (t.block_cache_ ++ block :: []) := by simpa using hch
    exact ⟨by simp, by simpa using hch2.next_at⟩

/-- Witness of C11: inserting the clip `I` at index 7 into `[A, B]`. -/
theorem C11_insert_block_at_index_inserts_at_clamped_position_witness :
    (IsChain heapABI trackAB.this trackAB.block_cache_ ∧ previous heapABI 3 = none ∧
      (0 : Int) ≤ 7) ∧
    ∃ h2 ev, InsertBlockAtIndex heapABI trackAB 3 7 = some h2 ∧
      Refresh h2 trackAB 5 = some ({ trackAB with block_cache_ := [1, 2, 3] }, ev) := by
  refine ⟨⟨isChain_heapABI, rfl, by decide⟩, ?_⟩
  obtain ⟨h2, ev, e, hr, -⟩ :=
    C11_insert_block_at_index_inserts_at_clamped_position heapABI trackAB 3 7 5
      isChain_heapABI (by decide) rfl (by decide) (by decide)
  exact ⟨h2, ev, e, hr⟩

/-! ## PlaceBlock -/

/-- When the link changes of the first `AppendBlock` leave the cache as it
was: on `[A:0-5, B:5-10]`, `PlaceBlock(I, 12)` for the unlinked clip `I` of
length 2 creates a gap of length 2 at pointer 4 and calls `AppendBlock(gap)`,
then `AppendBlock(I)`; both calls link after `block_cache_.last()`, which is
still `B`, so the second call cuts the gap off again: after `Refresh()` the
cache is `[A, B, I]`, the gap is not in it, `I.in` is 10 and the track ends at
12. -/
theorem PlaceBlock_past_the_end_with_cache_left_as_it_was :
    in_ heapABI 6 3 = some 0 ∧ in_ heapABI 6 trackAB.this = some 10 ∧
    (PlaceBlock heapABI trackAB 3 12 6).bind (fun h4 =>
      (Refresh h4 trackAB 6).map (fun r => r.1.block_cache_)) = some [1, 2, 3] ∧
    (PlaceBlock heapABI trackAB 3 12 6).bind (fun h4 => in_ h4 6 3) = some 10 ∧
    (PlaceBlock heapABI trackAB 3 12 6).bind (fun h4 => in_ h4 6 trackAB.this) = some 12 ∧
    (PlaceBlock heapABI trackAB 3 12 6).map (fun h4 => (h4.blocks 4).type) =
      some BlockType.kGap ∧
    (PlaceBlock heapABI trackAB 3 12 6).map (fun h4 => length h4 4) = some 2 ∧
    (PlaceBlock heapABI trackAB 3 12 6).map (fun h4 => previous h4 4) = some (some 2) ∧
    (PlaceBlock heapABI trackAB 3 12 6).map (fun h4 => next h4 2) = some (some 3) := by
  refine ⟨by decide!, by decide!, by decide!, by decide!, by decide!, by decide!, by decide!,
    by decide!, by decide!⟩

theorem in_of_no_previous {h : Heap} {b fuel : Nat} (hp : previous h b = none)
    (hf : 0 < fuel) : in_ h fuel b = some 0 := by
  obtain ⟨f, rfl⟩ : ∃ f, fuel = f + 1 := ⟨fuel - 1, by omega⟩
  simp [in_, hp]

/-- Without a refresh at the link changes `PlaceBlockWith` is `PlaceBlock`. -/
theorem PlaceBlockWith_false (h : Heap) (t : TrackOutput) (block : Nat) (start : ℚ)
    (fuel : Nat) :
    PlaceBlockWith false h t block start fuel =
      (PlaceBlock h t block start fuel).map (fun h2 => (h2, t)) := by
  have hr : ∀ (t : TrackOutput) (r : Option Heap),
      relinked false t fuel r = r.map (fun h2 => (h2, t)) := by
    intro t r
    cases r <;> rfl
  unfold PlaceBlockWith PlaceBlock
  simp only [hr]
  cases in_ (AddBlockToGraph h block) fuel block with
  | none => rfl
  | some bin =>
    dsimp only
    split_ifs with h1 h2
    · rfl
    · rfl
    · cases in_ (AddBlockToGraph h block) fuel t.this with
      | none => rfl
      | some tin =>
        dsimp only
        split_ifs with h3 h4
        · cases AppendBlock _ t _ <;> rfl
        · rfl
        · rfl

/-- C12: for a track whose cache `c` lists its chain, an unlinked block (not in
the chain, no previous block) whose in point differs from `start`, and a
`start` strictly past the in point `tin` of the track, `PlaceBlock(block,
start)` returns, and the following `Refresh()` returns the old cache followed
by the block `h.fresh` created by the call, a gap of length `start - tin`, and
then `block`; all other lengths are unchanged, the in point of `block` is
`start` and the in point of the track is `start + block.length`.  This is
`PlaceBlock` with link changes that refresh the cache, as the second
`AppendBlock` (track.cpp:258-261) presupposes. -/
theorem C12_place_past_the_end_appends_a_gap_and_the_block
    (h : Heap) (t : TrackOutput) (block fuel : Nat) (start bin tin : ℚ)
    (hc : IsChain h t.this t.block_cache_)
    (hal : ∀ y ∈ t.block_cache_ ++ [t.this], y < h.fresh)
    (hbf : block < h.fresh) (hbn : block ∉ t.block_cache_ ++ [t.this])
    (hbp : previous h block = none)
    (hbin : in_ h fuel block = some bin) (hne : bin ≠ start)
    (htin : in_ h fuel t.this = some tin) (hgt : tin < start)
    (hf : t.block_cache_.length + 2 < fuel) :
    ∃ h4 t4, PlaceBlockWith true h t block start fuel = some (h4, t4) ∧
      (∃ ev, Refresh h4 t4 fuel =
        some ({ t with block_cache_ := t.block_cache_ ++ [h.fresh, block] }, ev)) ∧
      h.fresh ∉ t.block_cache_ ++ [t.this] ∧
      (h4.blocks h.fresh).type = BlockType.kGap ∧
      length h4 h.fresh = start - tin ∧
      (∀ y, y ≠ h.fresh → length h4 y = length h y) ∧
      in_ h4 fuel block = some start ∧
      in_ h4 fuel t.this = some (start + length h block) := by
  have hfresh : h.fresh ∉ t.block_cache_ ++ [t.this] := fun hm => lt_irrefl _ (hal _ hm)
  have hb0 : bin = 0 := by
    have := in_of_no_previous hbp (show 0 < fuel by omega)
    rw [hbin] at this
    exact Option.some.inj this
  have hs0 : ¬ start = 0 := by
    intro e; apply hne; rw [hb0, e]
  have htin2 := hc.in_this (show t.block_cache_.length < fuel by omega)
  rw [htin] at htin2
  have htin3 : tin = (List.map (length h) t.block_cache_).sum := Option.some.inj htin2
  -- the gap
  have hc2 : IsChain (set_length (newBlock h BlockType.kGap).2 h.fresh (start - tin))
      t.this t.block_cache_ :=
    (hc.alloc hal BlockType.kGap).frame (by simp) (by simp)
  obtain ⟨h3, e3, hch3, hlen3, hty3, hfr3⟩ :=
    @IsChain.append _ t t.block_cache_ h.fresh hc2 rfl hfresh (by simp)
  have ht3 := @IsChain.linkChange_refreshes h3 t _ fuel hch3 (by simp; omega)
  -- the block
  have hbfr : block ≠ h.fresh := ne_of_lt hbf
  have hbt : block ≠ t.this := by intro e; apply hbn; simp [e]
  have hp3 : previous h3 block = none := by
    rw [previous_AppendBlock e3 hbfr hbt]
    simp [hbfr, hbp]
  have hbn3 : block ∉ (t.block_cache_ ++ [h.fresh]) ++ [t.this] := by
    intro hm
    apply hbn
    simp at hm ⊢
    rcases hm with hm | hm | hm
    · exact Or.inl hm
    · exact absurd hm hbfr
    · exact Or.inr hm
  obtain ⟨h4, e4, hch4, hlen4, hty4, hfr4⟩ :=
    @IsChain.append h3 { t with block_cache_ := t.block_cache_ ++ [h.fresh] }
      (t.block_cache_ ++ [h.fresh]) block hch3 rfl hbn3 hp3
  have ht4 := @IsChain.linkChange_refreshes h4
    { t with block_cache_ := t.block_cache_ ++ [h.fresh] } _ fuel hch4 (by simp; omega)
  obtain ⟨ev, hr⟩ := @IsChain.refresh h4
    { t with block_cache_ := t.block_cache_ ++ [h.fresh] ++ [block] } _ fuel hch4
    (by simp; omega)
  have hlg : length h4 h.fresh = start - tin := by
    rw [hlen4, hlen3]
    simp [length_set_length]
  have hlo : ∀ y, y ≠ h.fresh → length h4 y = length h y := by
    intro y hy
    rw [hlen4, hlen3]
    simp [length_set_length, hy]
  have hcm : List.map (length h4) t.block_cache_ = List.map (length h) t.block_cache_ := by
    apply map_length_congr
    intro y hy
    apply hlo
    intro e; subst e; apply hfresh; simp [hy]
  refine ⟨h4, _, ?_, ⟨ev, by simpa using hr⟩, hfresh, ?_, hlg, hlo, ?_, ?_⟩
  · unfold PlaceBlockWith relinked AddBlockToGraph
    simp only [hbin, hne, if_false, hs0, htin, ge_iff_le, le_of_lt hgt, if_true, gt_iff_lt,
      hgt, newBlock_fst, e3, ht3, Option.map_some', e4, ht4]
    simp
  · rw [hty4, hty3]
    simp
  · have hch4' : IsChain h4 t.this ((t.block_cache_ ++ [h.fresh]) ++ block :: []) := by
      simpa using hch4
    rw [hch4'.in_at (by simp; omega)]
    simp [hcm, hlg, htin3]
  · rw [hch4.in_this (by simp; omega)]
    simp [hcm, hlg, htin3, hlo block hbfr]
    ring

/-- Witness of C12: placing the unlinked clip `I` of length 2 at time 12 on
`[A:0-5, B:5-10]` gives `[A, B, gap, I]` with `I` at 12 and the track ending at
14. -/
theorem C12_place_past_the_end_appends_a_gap_and_the_block_witness :
    (IsChain heapABI trackAB.this trackAB.block_cache_ ∧
      in_ heapABI 6 3 = some 0 ∧ (0 : ℚ) ≠ 12 ∧
      in_ heapABI 6 trackAB.this = some 10 ∧ (10 : ℚ) < 12) ∧
    ∃ h4 t4, PlaceBlockWith true heapABI trackAB 3 12 6 = some (h4, t4) ∧
      (∃ ev, Refresh h4 t4 6 =
        some ({ trackAB with block_cache_ := trackAB.block_cache_ ++ [heapABI.fresh, 3] }, ev)) ∧
      heapABI.fresh ∉ trackAB.block_cache_ ++ [trackAB.this] ∧
      (h4.blocks heapABI.fresh).type = BlockType.kGap ∧
      length h4 heapABI.fresh = 12 - 10 ∧
      (∀ y, y ≠ heapABI.fresh → length h4 y = length heapABI y) ∧
      in_ h4 6 3 = some 12 ∧
      in_ h4 6 trackAB.this = some (12 + length heapABI 3) :=
  ⟨⟨isChain_heapABI, by decide!, by norm_num, by decide!, by norm_num⟩,
   C12_place_past_the_end_appends_a_gap_and_the_block heapABI trackAB 3 6 12 0 10
    isChain_heapABI (by decide) (by decide) (by decide) rfl (by decide!) (by norm_num)
    (by decide!) (by norm_num) (by decide)⟩

/-- C13, the code at a failing input.  On `[A:0-5, B:5-10]` the first block
`A` has in point 0; `RippleRemoveBlock(A)` and `Refresh()` leave the cache
`[B]` and `A` unlinked (no previous block, no next block, not in the cache),
its in point still 0.  `PlaceBlock(A, 0)` then returns at the guard
`block->in() == start` (track.cpp:238-240), before the branch "Place block at
the beginning" (track.cpp:242-247): no link is changed, and after `Refresh()`
the cache is `[B]`, not `[A, B]`; the same with link changes that refresh the
cache.  The clip `I` of `heapABI`, which was never linked, is not placed
either: the cache stays `[A, B]`. -/
theorem C13_place_unlinked_block_at_zero_returns_at_the_guard :
    in_ heapAB 5 1 = some 0 ∧
    (Refresh (RippleRemoveBlock heapAB 1) trackAB 5).map (fun r => r.1.block_cache_) =
      some [2] ∧
    previous (RippleRemoveBlock heapAB 1) 1 = none ∧
    next (RippleRemoveBlock heapAB 1) 1 = none ∧
    in_ (RippleRemoveBlock heapAB 1) 5 1 = some 0 ∧
    (PlaceBlock (RippleRemoveBlock heapAB 1) { trackAB with block_cache_ := [2] } 1 0 5).bind
      (fun h2 => (Refresh h2 { trackAB with block_cache_ := [2] } 5).map
        (fun r => r.1.block_cache_)) = some [2] ∧
    (PlaceBlock (RippleRemoveBlock heapAB 1) { trackAB with block_cache_ := [2] } 1 0 5).map
      (fun h2 => (previous h2 2, next h2 1)) = some (none, none) ∧
    (PlaceBlockWith true (RippleRemoveBlock heapAB 1)
        { trackAB with block_cache_ := [2] } 1 0 5).bind
      (fun r => (Refresh r.1 r.2 5).map (fun r2 => r2.1.block_cache_)) = some [2] ∧
    (previous heapABI 3 = none ∧ next heapABI 3 = none ∧ 3 ∉ trackAB.block_cache_ ∧
      in_ heapABI 5 3 = some 0) ∧
    (PlaceBlock heapABI trackAB 3 0 5).bind (fun h2 =>
      (Refresh h2 trackAB 5).map (fun r => r.1.block_cache_)) = some [1, 2] ∧
    (PlaceBlock heapABI trackAB 3 0 5).map (fun h2 => previous h2 1) = some none := by
  refine ⟨by decide!, by decide!, by decide!, by decide!, by decide!, by decide!, by decide!,
    by decide!, ⟨rfl, rfl, by decide, by decide!⟩, by decide!, by decide!⟩

/-- `PlaceBlock(block, 0)` in general: on a block whose in point is 0, as it
is for every block without a previous block, the call returns at the guard
`block->in() == start` and changes nothing; it reaches `PrependBlock(block)`
exactly when `block.in` is not 0. -/
theorem PlaceBlock_at_zero
    (h : Heap) (t : TrackOutput) (block fuel : Nat) (hf : 0 < fuel) :
    (previous h block = none → PlaceBlock h t block 0 fuel = some h) ∧
      (∀ bin, in_ h fuel block = some bin →
        PlaceBlock h t block 0 fuel = some (if bin = 0 then h else PrependBlock h t block)) ∧
      (IsChain h t.this t.block_cache_ → t.block_cache_.length ≤ fuel →
        ∃ ev, Refresh h t fuel = some (t, ev)) := by
  have key : ∀ bin, in_ h fuel block = some bin →
      PlaceBlock h t block 0 fuel = some (if bin = 0 then h else PrependBlock h t block) := by
    intro bin hbin
    unfold PlaceBlock AddBlockToGraph
    dsimp only
    rw [hbin]
    dsimp only
    by_cases hb : bin = 0
    · simp [hb]
    · simp [hb]
  refine ⟨fun hp => ?_, key, fun hc hlen => hc.refresh hlen⟩
  simpa using key 0 (in_of_no_previous hp hf)

/-- The loop of `PlaceBlock` stops at the first block after the first cached
one whose in point is `start` and links the block before it. -/
theorem placeLoop_first_match {h : Heap} {this b fuel : Nat} {start : ℚ} {a x : Nat}
    {B : List Nat} :
    ∀ (P Pre : List Nat), IsChain h this (Pre ++ (P ++ a :: x :: B)) →
      (Pre ++ (P ++ a :: x :: B)).length < fuel →
      (∀ y ∈ (P ++ [a]).tail, in_ h fuel y ≠ some start) →
      in_ h fuel x = some start →
      placeLoop h b start fuel (P ++ a :: x :: B) =
        InsertBlockBetweenBlocks h b a (some x) := by
  intro P
  induction P with
  | nil =>
    intro Pre _ _ _ hx
    show placeLoop h b start fuel (a :: x :: B) = _
    unfold placeLoop
    rw [hx]
    simp
  | cons p P ih =>
    intro Pre hc hf hne hx
    have hc2 : IsChain h this ((Pre ++ [p]) ++ (P ++ a :: x :: B)) := by simpa using hc
    have hf2 : ((Pre ++ [p]) ++ (P ++ a :: x :: B)).length < fuel := by simpa using hf
    have hrec := ih (Pre ++ [p]) hc2 hf2
    cases P with
    | nil =>
      have hin : in_ h fuel a ≠ some start := hne a (by simp)
      have hc3 : IsChain h this ((Pre ++ [p]) ++ a :: (x :: B)) := by simpa using hc
      have hina := @IsChain.in_at h this (Pre ++ [p]) (x :: B) a fuel hc3
        (by simp at hf ⊢; omega)
      show placeLoop h b start fuel (p :: a :: x :: B) = _
      unfold placeLoop
      rw [hina] at hin ⊢
      dsimp only
      have hne2 : ¬ (List.map (length h) (Pre ++ [p])).sum = start := fun e => hin (by rw [e])
      simp only [hne2, if_false]
      exact hrec (by simp) hx
    | cons q P2 =>
      have hin : in_ h fuel q ≠ some start := hne q (by simp)
      have hc3 : IsChain h this ((Pre ++ [p]) ++ q :: (P2 ++ a :: x :: B)) := by
        simpa using hc
      have hinq := @IsChain.in_at h this (Pre ++ [p]) (P2 ++ a :: x :: B) q fuel hc3
        (by simp at hf ⊢; omega)
      show placeLoop h b start fuel (p :: q :: (P2 ++ a :: x :: B)) = _
      unfold placeLoop
      rw [hinq] at hin ⊢
      dsimp only
      have hne2 : ¬ (List.map (length h) (Pre ++ [p])).sum = start := fun e => hin (by rw [e])
      simp only [hne2, if_false]
      exact hrec (fun y hy => hne y (by simp at hy ⊢; tauto)) hx

/-- `PlaceBlock` at the in point of `x`, the first block after the first cached
one with this in point (the cache, in sync, is `P ++ a :: x :: B`): the block
is linked between `a` and `x`. -/
theorem PlaceBlock_links_before_first_match
    (h : Heap) (t : TrackOutput) (block fuel : Nat) (start bin tin : ℚ)
    (P B : List Nat) (a x : Nat)
    (hc : IsChain h t.this t.block_cache_)
    (hcache : t.block_cache_ = P ++ a :: x :: B)
    (hb : block ∉ t.block_cache_ ++ [t.this])
    (hbin : in_ h fuel block = some bin) (hne : bin ≠ start)
    (htin : in_ h fuel t.this = some tin) (h0 : 0 < start) (hlt : start < tin)
    (hx : in_ h fuel x = some start)
    (hfirst : ∀ y ∈ (P ++ [a]).tail, in_ h fuel y ≠ some start)
    (hf : t.block_cache_.length < fuel) :
    ∃ h2 ev, PlaceBlock h t block start fuel = some h2 ∧
      Refresh h2 t fuel = some ({ t with block_cache_ := P ++ a :: block :: x :: B }, ev) ∧
      IsChain h2 t.this (P ++ a :: block :: x :: B) ∧
      in_ h2 fuel block = some start ∧
      next h2 a = some block ∧ previous h2 block = some a ∧
      next h2 block = some x ∧ previous h2 x = some block ∧
      (∀ y, length h2 y = length h y) := by
  rw [hcache] at hc hb hf
  obtain ⟨h2, e, hch, hlen, -, -⟩ :=
    @IsChain.insertBetween h t.this P (x :: B) a block hc hb
  have e2 : InsertBlockBetweenBlocks h block a (some x) = some h2 := by simpa using e
  have hloop := @placeLoop_first_match h t.this block fuel start a x B P []
    (by simpa using hc) (by simpa using hf) hfirst hx
  have hplace : PlaceBlock h t block start fuel = some h2 := by
    unfold PlaceBlock AddBlockToGraph
    dsimp only
    rw [hbin]
    dsimp only
    have h0' : ¬ start = 0 := ne_of_gt h0
    have hge : ¬ start ≥ tin := not_le.mpr hlt
    simp only [hne, h0', if_false, htin, hge]
    rw [hcache, hloop, e2]
  obtain ⟨ev, hr⟩ := @IsChain.refresh h2 t (P ++ a :: block :: x :: B) fuel hch
    (by simp at hf ⊢; omega)
  have hch1 : IsChain h2 t.this ((P ++ [a]) ++ block :: x :: B) := by simpa using hch
  have hch2 : IsChain h2 t.this ((P ++ [a, block]) ++ x :: B) := by simpa using hch
  have hcx : IsChain h t.this ((P ++ [a]) ++ x :: B) := by simpa using hc
  refine ⟨h2, ev, hplace, hr, hch, ?_, hch.next_at, ?_, hch1.next_at, ?_, hlen⟩
  · rw [hch1.in_at (by simp at hf ⊢; omega), map_length_congr (fun y _ => hlen y)]
    have hxin := @IsChain.in_at h t.this (P ++ [a]) B x fuel hcx (by simp at hf ⊢; omega)
    rw [hxin] at hx
    exact hx
  · simpa using hch1.previous_at
  · simpa using hch2.previous_at


theorem exists_first_match (p : Nat → Prop) :
    ∀ (T : List Nat), (∃ y ∈ T, p y) →
      ∃ T1 x B, T = T1 ++ x :: B ∧ p x ∧ ∀ z ∈ T1, ¬ p z := by
  intro T
  induction T with
  | nil => intro ⟨y, hy, _⟩; simp at hy
  | cons c T ih =>
    intro hex
    by_cases hpc : p c
    · exact ⟨[], c, T, rfl, hpc, by simp⟩
    · obtain ⟨y, hy, hpy⟩ := hex
      have hyT : y ∈ T := by
        rcases List.mem_cons.mp hy with rfl | hyT
        · exact absurd hpy hpc
        · exact hyT
      obtain ⟨T1, x, B, e, hpx, hfirst⟩ := ih ⟨y, hyT, hpy⟩
      refine ⟨c :: T1, x, B, by simp [e], hpx, ?_⟩
      intro z hz
      rcases List.mem_cons.mp hz with rfl | hz
      · exact hpc
      · exact hfirst z hz

/-- C14: on a track whose cache lists its chain, for a block that is not in
the chain with `block.in != start`, and `0 < start < track end`, when some
cached block has in point `start`: the cache is `P ++ a :: x :: B` with `x`
the first cached block at an index `≥ 1` with `x.in == start` (no block of
`P ++ [a]` after the first has in point `start`), `PlaceBlock(block, start)`
returns and links the block between `a` and `x`; after `Refresh()` the cache
is `P ++ a :: block :: x :: B`, `block.in == start` and `x` is the block right
after `block`. -/
theorem C14_place_block_at_an_existing_in_point
    (h : Heap) (t : TrackOutput) (block fuel : Nat) (start bin tin : ℚ)
    (hc : IsChain h t.this t.block_cache_)
    (hb : block ∉ t.block_cache_ ++ [t.this])
    (hbin : in_ h fuel block = some bin) (hne : bin ≠ start)
    (htin : in_ h fuel t.this = some tin) (h0 : 0 < start) (hlt : start < tin)
    (hsome : ∃ y ∈ t.block_cache_, in_ h fuel y = some start)
    (hf : t.block_cache_.length < fuel) :
    ∃ P a x B, t.block_cache_ = P ++ a :: x :: B ∧ in_ h fuel x = some start ∧
      (∀ y ∈ (P ++ [a]).tail, in_ h fuel y ≠ some start) ∧
      ∃ h2 ev, PlaceBlock h t block start fuel = some h2 ∧
        Refresh h2 t fuel = some ({ t with block_cache_ := P ++ a :: block :: x :: B }, ev) ∧
        IsChain h2 t.this (P ++ a :: block :: x :: B) ∧
        in_ h2 fuel block = some start ∧
        next h2 a = some block ∧ previous h2 block = some a ∧
        next h2 block = some x ∧ previous h2 x = some block ∧
        (∀ y, length h2 y = length h y) := by
  obtain ⟨y, hy, hystart⟩ := hsome
  cases hcache : t.block_cache_ with
  | nil => rw [hcache] at hy; simp at hy
  | cons c0 T =>
    have hc0 : in_ h fuel c0 = some 0 := by
      have hc2 : IsChain h t.this ([] ++ c0 :: T) := by rw [hcache] at hc; simpa using hc
      have := @IsChain.in_at h t.this [] T c0 fuel hc2 (by simp; omega)
      simpa using this
    have hyT : ∃ y ∈ T, in_ h fuel y = some start := by
      rw [hcache] at hy
      rcases List.mem_cons.mp hy with rfl | hyT
      · rw [hc0] at hystart
        exact absurd (Option.some.inj hystart).symm (ne_of_gt h0)
      · exact ⟨y, hyT, hystart⟩
    obtain ⟨T1, x, B, e, hx, hfirst⟩ :=
      exists_first_match (fun z => in_ h fuel z = some start) T hyT
    obtain ⟨P, a, hPa⟩ : ∃ P a, c0 :: T1 = P ++ [a] := by
      rcases List.eq_nil_or_concat (c0 :: T1) with h1 | ⟨P, a, h1⟩
      · simp at h1
      · exact ⟨P, a, by simpa using h1⟩
    have hsplit : t.block_cache_ = P ++ a :: x :: B := by
      rw [hcache, e]
      have : c0 :: (T1 ++ x :: B) = (c0 :: T1) ++ x :: B := by simp
      rw [this, hPa]
      simp
    have htail : ∀ z ∈ (P ++ [a]).tail, in_ h fuel z ≠ some start := by
      intro z hz
      rw [← hPa] at hz
      exact hfirst z (by simpa using hz)
    refine ⟨P, a, x, B, hsplit.symm ▸ hcache ▸ rfl, hx, htail, ?_⟩
    exact PlaceBlock_links_before_first_match h t block fuel start bin tin P B a x hc hsplit
      hb hbin hne htin h0 hlt hx htail hf

/-- Witness of C14: placing the clip `I` at time 5 on `[A:0-5, B:5-10]` links
it between `A` and `B`. -/
theorem C14_place_block_at_an_existing_in_point_witness :
    (IsChain heapABI trackAB.this trackAB.block_cache_ ∧ in_ heapABI 5 3 = some 0 ∧
      (0 : ℚ) ≠ 5 ∧ in_ heapABI 5 trackAB.this = some 10 ∧ (0 : ℚ) < 5 ∧ (5 : ℚ) < 10 ∧
      ∃ y ∈ trackAB.block_cache_, in_ heapABI 5 y = some 5) ∧
    ∃ P a x B, trackAB.block_cache_ = P ++ a :: x :: B ∧ in_ heapABI 5 x = some 5 ∧
      ∃ h2 ev, PlaceBlock heapABI trackAB 3 5 5 = some h2 ∧
        Refresh h2 trackAB 5 =
          some ({ trackAB with block_cache_ := P ++ a :: 3 :: x :: B }, ev) ∧
        in_ h2 5 3 = some 5 ∧ next h2 3 = some x := by
  have h1 : in_ heapABI 5 3 = some 0 := by decide!
  have h2 : in_ heapABI 5 trackAB.this = some 10 := by decide!
  have h3 : ∃ y ∈ trackAB.block_cache_, in_ heapABI 5 y = some 5 :=
    ⟨2, by decide, by decide!⟩
  refine ⟨⟨isChain_heapABI, h1, by norm_num, h2, by norm_num, by norm_num, h3⟩, ?_⟩
  obtain ⟨P, a, x, B, e, hx, -, g, ev, ep, hr, -, hin, -, -, hn, -⟩ :=
    C14_place_block_at_an_existing_in_point heapABI trackAB 3 5 5 0 10
      isChain_heapABI (by decide) h1 (by norm_num) h2 (by norm_num) (by norm_num) h3
      (by decide)
  exact ⟨P, a, x, B, e, hx, g, ev, ep, hr, hin, hn⟩

/-- The loop of `PlaceBlock` changes nothing when no block after the first
cached one has in point `start`. -/
theorem placeLoop_no_match {h : Heap} {b fuel : Nat} {start : ℚ} :
    ∀ (L : List Nat), (∀ y ∈ L.tail, ∃ i, in_ h fuel y = some i ∧ i ≠ start) →
      placeLoop h b start fuel L = some h := by
  intro L
  induction L with
  | nil => intro _; rfl
  | cons p L ih =>
    intro hne
    cases L with
    | nil => rfl
    | cons q L2 =>
      obtain ⟨i, hi, hine⟩ := hne q (by simp)
      unfold placeLoop
      rw [hi]
      dsimp only
      simp only [hine, if_false]
      exact ih (fun y hy => hne y (by simp at hy ⊢; tauto))

/-- Counterexample to C15 as stated: the only block of the track has length
`-5`, so the track ends at `-5`; for the unlinked clip at pointer 2 (in point
0) and `start = -3 < 0`, with no cached block at an index `≥ 1`, the test
`start >= in()` of `PlaceBlock` holds and the block is appended: the `previous`
link of the track and the `next` link of the cached block change. -/
theorem C15_place_before_zero_on_a_negative_track_appends :
    in_ heapNeg 5 2 = some 0 ∧ (0 : ℚ) ≠ -3 ∧ (-3 : ℚ) < 0 ∧ trackNeg.block_cache_.tail = [] ∧
    in_ heapNeg 5 trackNeg.this = some (-5) ∧
    previous heapNeg trackNeg.this = some 1 ∧ next heapNeg 1 = some 0 ∧
    (PlaceBlock heapNeg trackNeg 2 (-3) 5).map (fun h2 => previous h2 trackNeg.this) =
      some (some 2) ∧
    (PlaceBlock heapNeg trackNeg 2 (-3) 5).map (fun h2 => next h2 1) = some (some 2) := by
  refine ⟨by decide!, by norm_num, by norm_num, rfl, by decide!, rfl, rfl, by decide!,
    by decide!⟩

/-- C15 (amended): for every track, block and start with `block.in != start`,
`start != 0` and `start < track end` (so `0 < start < track end`, or
`start < 0` on a track that does not end before `start`) such that no cached
block at an index `≥ 1` has in point `start`, `PlaceBlock(block, start)`
returns and is a no-op: the heap, hence every link and every length, is
unchanged, and the block is not linked. -/
theorem C15_place_block_without_a_matching_in_point_is_a_noop
    (h : Heap) (t : TrackOutput) (block fuel : Nat) (start bin tin : ℚ)
    (hbin : in_ h fuel block = some bin) (hne : bin ≠ start)
    (htin : in_ h fuel t.this = some tin) (h0 : start ≠ 0) (hlt : start < tin)
    (hnone : ∀ y ∈ t.block_cache_.tail, ∃ i, in_ h fuel y = some i ∧ i ≠ start) :
    PlaceBlock h t block start fuel = some h := by
  unfold PlaceBlock AddBlockToGraph
  dsimp only
  rw [hbin]
  dsimp only
  have hge : ¬ start ≥ tin := not_le.mpr hlt
  simp only [hne, h0, if_false, htin, hge]
  exact placeLoop_no_match _ hnone

/-- Witness of C15 (amended): placing the clip `I` at time 7, inside `B`, on
`[A:0-5, B:5-10]`. -/
theorem C15_place_block_without_a_matching_in_point_is_a_noop_witness :
    (in_ heapABI 5 3 = some 0 ∧ (0 : ℚ) ≠ 7 ∧ in_ heapABI 5 trackAB.this = some 10 ∧
      (7 : ℚ) ≠ 0 ∧ (7 : ℚ) < 10 ∧
      ∀ y ∈ trackAB.block_cache_.tail, ∃ i, in_ heapABI 5 y = some i ∧ i ≠ 7) ∧
    PlaceBlock heapABI trackAB 3 7 5 = some heapABI := by
  have h1 : in_ heapABI 5 3 = some 0 := by decide!
  have h2 : in_ heapABI 5 trackAB.this = some 10 := by decide!
  have h3 : ∀ y ∈ trackAB.block_cache_.tail, ∃ i, in_ heapABI 5 y = some i ∧ i ≠ 7 := by
    intro y hy
    have : y = 2 := by simpa [trackAB, track0] using hy
    subst this
    exact ⟨5, by decide!, by norm_num⟩
  exact ⟨⟨h1, by norm_num, h2, by norm_num, by norm_num, h3⟩,
    C15_place_block_without_a_matching_in_point_is_a_noop heapABI trackAB 3 5 7 0 10
      h1 (by norm_num) h2 (by norm_num) (by norm_num) h3⟩

/-! ## Process again: the null attached block, the two walks, idempotence -/

/-- C16, the code at a failing input: on the empty track (`attached_block()`
is null, the in point of the track is 0) the time `-1` is before the in point,
so `Process(-1)` does not take the terminal case; it then reads
`current_block_->in()` on the null attached block: whatever the fuel, the
model returns the error value. -/
theorem C16_process_before_zero_on_empty_track_dereferences_null :
    attached_block heapEmpty track0 = none ∧ in_ heapEmpty 1 track0.this = some 0 ∧
    ¬ ((-1 : ℚ) ≥ 0) ∧
    walkEarlier heapEmpty 1 (-1) 1 (attached_block heapEmpty track0) = none ∧
    ∀ fuel, Process heapEmpty track0 fuel (-1) = none := by
  have hp : previous heapEmpty track0.this = none := rfl
  refine ⟨rfl, in_of_no_previous hp (by decide), by norm_num, rfl, ?_⟩
  intro fuel
  cases fuel with
  | zero => rfl
  | succ f =>
    have hin : in_ heapEmpty (f + 1) track0.this = some 0 := in_of_no_previous hp (by omega)
    have hatt : attached_block heapEmpty track0 = none := rfl
    unfold Process
    rw [hin]
    dsimp only
    have : ¬ ((-1 : ℚ) ≥ 0) := by norm_num
    simp only [this, if_false, hatt]
    rfl

/-- On a finite chain, for `0 ≤ time < track.in`, the walk to earlier blocks
from the attached block ends on a block whose span holds `time`, and the walk
to later blocks stays there. -/
theorem Process_walks {h : Heap} {t : TrackOutput} {l : List Nat} {fuel : Nat} {time tin : ℚ}
    (hw : PrevWalk h (attached_block h t) l) (hf : l.length < fuel)
    (htin : in_ h fuel t.this = some tin) (h0 : 0 ≤ time) (hlt : time < tin) :
    ∃ a c1, attached_block h t = some a ∧ c1 ∈ l ∧
      walkEarlier h fuel time fuel (attached_block h t) = some c1 ∧
      walkLater h fuel time fuel (some c1) = some c1 ∧
      (∃ i o, in_ h fuel c1 = some i ∧ out h fuel c1 = some o ∧ i ≤ time ∧ time < o) ∧
      Process h t fuel time =
        some { t with track_output_ := some t.this,
                      current_block_ := some c1,
                      texture_output := TextureValue.ofBlock c1 time } := by
  have hsum : tin = (l.map (length h)).sum := by
    have := @in_eq_sum h t.this l fuel hw hf
    rw [htin] at this
    exact Option.some.inj this
  have hne : l ≠ [] := by
    intro h0'; subst h0'; simp at hsum; subst hsum; exact absurd h0 (not_le.mpr hlt)
  have hhead : ∀ b, attached_block h t = some b → ∃ o, out h fuel b = some o ∧ time < o := by
    intro b hb
    obtain ⟨l2, rfl, hw3⟩ := PrevWalk.some_inv (hb ▸ hw)
    have hl2 : l2.length < fuel := by simp at hf; omega
    exact ⟨_, out_eq_sum hw3 hl2, hsum ▸ hlt⟩
  obtain ⟨b, hb, hwalk, i, o, hi, ho, hle, hto⟩ :=
    walkEarlier_spec h0 hw fuel (le_of_lt hf) hf hne hhead
  obtain ⟨a, ha⟩ : ∃ a, attached_block h t = some a := by
    cases hatt : attached_block h t with
    | none => rw [hatt] at hw; cases hw; exact absurd rfl hne
    | some a => exact ⟨a, rfl⟩
  obtain ⟨f, rfl⟩ : ∃ f, fuel = f + 1 := ⟨fuel - 1, by omega⟩
  have hwl := @walkLater_stay h (f + 1) f time o b ho hto
  refine ⟨a, b, ha, hb, hwalk, hwl, ⟨i, o, hi, ho, hle, hto⟩, ?_⟩
  simp only [Process, htin, ge_iff_le, not_le.mpr hlt, if_false, hwalk, hwl]

/-- C17: on a finite chain (contiguous by construction), for
`0 ≤ time < track.in`, `Process` returns and its two walks are mutually
exclusive: the loop to later blocks executes no iteration, since its condition
`time >= current.out` is false at the block `c1` where the loop to earlier
blocks ends, so at most one of the two loops executes an iteration; when the
loop to earlier blocks executes none, `c1` is the attached block; the resolved
block is `c1` and `c1.in ≤ time < c1.out`. -/
theorem C17_process_walks_are_mutually_exclusive
    (h : Heap) (t : TrackOutput) (l : List Nat) (fuel : Nat) (time tin : ℚ)
    (hw : PrevWalk h (attached_block h t) l) (hf : l.length < fuel)
    (htin : in_ h fuel t.this = some tin) (h0 : 0 ≤ time) (hlt : time < tin) :
    ∃ a c1, attached_block h t = some a ∧
      walkEarlier h fuel time fuel (some a) = some c1 ∧
      walkLater h fuel time fuel (some c1) = some c1 ∧
      ¬ (∃ o, out h fuel c1 = some o ∧ time ≥ o) ∧
      ¬ ((∃ i, in_ h fuel a = some i ∧ time < i) ∧ (∃ o, out h fuel c1 = some o ∧ time ≥ o)) ∧
      (¬ (∃ i, in_ h fuel a = some i ∧ time < i) → c1 = a) ∧
      (∃ i o, in_ h fuel c1 = some i ∧ out h fuel c1 = some o ∧ i ≤ time ∧ time < o) ∧
      (Process h t fuel time).map (fun r => r.current_block_) = some (some c1) := by
  obtain ⟨a, c1, ha, -, hwe, hwl, ⟨i, o, hi, ho, hle, hto⟩, hproc⟩ :=
    Process_walks hw hf htin h0 hlt
  rw [ha] at hwe
  have hfw : ¬ (∃ o, out h fuel c1 = some o ∧ time ≥ o) := by
    rintro ⟨o2, ho2, hge⟩
    rw [ho] at ho2
    cases ho2
    exact absurd hto (not_lt.mpr hge)
  refine ⟨a, c1, ha, hwe, hwl, hfw, fun hh => hfw hh.2, ?_, ⟨i, o, hi, ho, hle, hto⟩, ?_⟩
  · intro hbw
    obtain ⟨f, rfl⟩ : ∃ f, fuel = f + 1 := ⟨fuel - 1, by omega⟩
    unfold walkEarlier at hwe
    cases hina : in_ h (f + 1) a with
    | none => rw [hina] at hwe; simp at hwe
    | some ia =>
      rw [hina] at hwe
      have : ¬ time < ia := fun hl => hbw ⟨ia, hina, hl⟩
      simp only [this, if_false, Option.some.injEq] at hwe
      exact hwe.symm
  · rw [hproc]; rfl

/-- Witness of C17: on `[A:0-5, B:5-10]` at time 3. -/
theorem C17_process_walks_are_mutually_exclusive_witness :
    (in_ heapAB 3 track0.this = some 10 ∧ (0 : ℚ) ≤ 3 ∧ (3 : ℚ) < 10) ∧
    ∃ a c1, attached_block heapAB track0 = some a ∧
      walkEarlier heapAB 3 3 3 (some a) = some c1 ∧
      walkLater heapAB 3 3 3 (some c1) = some c1 ∧
      (Process heapAB track0 3 3).map (fun r => r.current_block_) = some (some c1) := by
  have h1 : in_ heapAB 3 track0.this = some 10 := by decide!
  refine ⟨⟨h1, by norm_num, by norm_num⟩, ?_⟩
  obtain ⟨a, c1, ha, hwe, hwl, -, -, -, -, hp⟩ :=
    C17_process_walks_are_mutually_exclusive heapAB track0 [2, 1] 3 3 10
      (PrevWalk.cons (PrevWalk.cons PrevWalk.nil)) (by decide) h1 (by norm_num) (by norm_num)
  exact ⟨a, c1, ha, hwe, hwl, hp⟩

theorem filter_not_mem_self (l : List Nat) :
    l.filter (fun b => !l.reverse.contains b) = [] := by
  rw [List.filter_eq_nil_iff]
  intro a ha
  simp [ha]

theorem removedEvents_self (c : List Nat) : removedEvents c c = [] := by
  unfold removedEvents
  rw [List.map_eq_nil_iff, List.filter_eq_nil_iff]
  intro a ha
  simp [ha]

/-- A second `Process` at the same time on the same heap repeats the result of
the first. -/
theorem Process_idempotent {h : Heap} {t p1 : TrackOutput} {fuel : Nat} {time : ℚ}
    (e : Process h t fuel time = some p1) : Process h p1 fuel time = some p1 := by
  unfold Process at e
  cases hin : in_ h fuel t.this with
  | none => rw [hin] at e; simp at e
  | some tin =>
    rw [hin] at e
    dsimp only at e
    by_cases hge : time ≥ tin
    · simp only [hge, if_true, Option.some.injEq] at e
      subst e
      unfold Process
      dsimp only
      rw [hin]
      simp [hge]
    · simp only [hge, if_false] at e
      cases hwe : walkEarlier h fuel time fuel (attached_block h t) with
      | none => rw [hwe] at e; simp at e
      | some c1 =>
        rw [hwe] at e
        dsimp only at e
        cases hwl : walkLater h fuel time fuel (some c1) with
        | none => rw [hwl] at e; simp at e
        | some c2 =>
          rw [hwl] at e
          simp only [Option.some.injEq] at e
          subst e
          have hatt : attached_block h
              { t with track_output_ := some t.this, current_block_ := some c2,
                       texture_output := TextureValue.ofBlock c2 time } =
              attached_block h t := rfl
          unfold Process
          dsimp only
          rw [hin]
          simp only [hge, if_false, hatt, hwe, hwl]

/-- C18: on an unchanged finite chain a second `Refresh()` emits no event and
leaves the cache of the first `Refresh()`; and for every time `≥ 0` a second
`Process` at the same time resolves the same `current_block_` as the first
(the whole track object is the same); a second `Process` repeats the first
whenever the first returns. -/
theorem C18_refresh_and_process_are_idempotent
    (h : Heap) (t : TrackOutput) (l : List Nat) (fuel : Nat) (time : ℚ)
    (hw : PrevWalk h (attached_block h t) l) (hf : l.length < fuel) (h0 : 0 ≤ time) :
    (∃ t1 ev1, Refresh h t fuel = some (t1, ev1) ∧ t1.block_cache_ = l.reverse ∧
        Refresh h t1 fuel = some (t1, [])) ∧
      (∃ p1, Process h t fuel time = some p1 ∧ Process h p1 fuel time = some p1 ∧
        (Process h p1 fuel time).map (fun r => r.current_block_) =
          (Process h t fuel time).map (fun r => r.current_block_)) ∧
      (∀ time2 p, Process h t fuel time2 = some p → Process h p fuel time2 = some p) := by
  refine ⟨?_, ?_, fun _ _ e => Process_idempotent e⟩
  · refine ⟨_, _, Refresh_eq hw fuel (le_of_lt hf), rfl, ?_⟩
    have hw2 : PrevWalk h (attached_block h { t with block_cache_ := l.reverse }) l := hw
    rw [Refresh_eq hw2 fuel (le_of_lt hf)]
    simp [filter_not_mem_self, removedEvents_self]
  · have hin := @in_eq_sum h t.this l fuel hw hf
    by_cases hge : time ≥ (l.map (length h)).sum
    · have e : Process h t fuel time =
          some { t with track_output_ := some t.this,
                        texture_output := TextureValue.zero,
                        current_block_ := some t.this } := by
        simp [Process, hin, hge]
      have e2 := Process_idempotent e
      exact ⟨_, e, e2, by rw [e2, e]⟩
    · obtain ⟨a, c1, -, -, -, -, -, e⟩ := Process_walks hw hf hin h0 (not_le.mp hge)
      have e2 := Process_idempotent e
      exact ⟨_, e, e2, by rw [e2, e]⟩

/-- Witness of C18: on `[A:0-5, B:5-10]` at time 7. -/
theorem C18_refresh_and_process_are_idempotent_witness :
    ((0 : ℚ) ≤ 7) ∧
    (∃ t1 ev1, Refresh heapAB track0 3 = some (t1, ev1) ∧ t1.block_cache_ = [1, 2] ∧
        Refresh heapAB t1 3 = some (t1, [])) ∧
      (∃ p1, Process heapAB track0 3 7 = some p1 ∧ Process heapAB p1 3 7 = some p1 ∧
        (Process heapAB p1 3 7).map (fun r => r.current_block_) =
          (Process heapAB track0 3 7).map (fun r => r.current_block_)) ∧
      (∀ time2 p, Process heapAB track0 3 time2 = some p → Process heapAB p 3 time2 = some p) :=
  ⟨by norm_num,
   C18_refresh_and_process_are_idempotent heapAB track0 [2, 1] 3 7
    (PrevWalk.cons (PrevWalk.cons PrevWalk.nil)) (by decide) (by norm_num)⟩

/-! ## InsertBlockBetweenBlocks as a frame -/

/-- C19: for blocks `before` and `after` that are linked
(`before.next == after`, `after.previous == before`) and a block with no
previous and no next block, `InsertBlockBetweenBlocks(block, before, after)`
returns with `before.next == block`, `block.previous == before`,
`block.next == after`, `after.previous == block`; the `previous` link of every
block other than `block` and `after`, the `next` link of every block other
than `block` and `before`, and every length are unchanged; and a heap whose
`next` / `previous` links are mutually consistent stays so. -/
theorem C19_insert_between_blocks_relinks_only_the_three_blocks
    (h : Heap) (block before after : Nat)
    (hna : next h before = some after) (hpa : previous h after = some before)
    (hbp : previous h block = none) (hbn : next h block = none) :
    ∃ h2, InsertBlockBetweenBlocks h block before (some after) = some h2 ∧
      next h2 before = some block ∧ previous h2 block = some before ∧
      next h2 block = some after ∧ previous h2 after = some block ∧
      (∀ y, y ≠ block → y ≠ after → previous h2 y = previous h y) ∧
      (∀ y, y ≠ block → y ≠ before → next h2 y = next h y) ∧
      (∀ y, length h2 y = length h y) ∧
      (LinksConsistent h → LinksConsistent h2) := by
  have hb1 : before ≠ block := by
    intro e; rw [e, hbn] at hna; cases hna
  have hb2 : block ≠ after := by
    intro e; rw [← e, hbp] at hpa; cases hpa
  refine ⟨_, rfl, ?_, ?_, ?_, ?_, ?_, ?_, ?_, ?_⟩
  · simp [AddBlockToGraph, hb1]
  · simp [AddBlockToGraph, hb2]
  · simp [AddBlockToGraph]
  · simp [AddBlockToGraph]
  · intro y h1 h2; simp [AddBlockToGraph, h1, h2]
  · intro y h1 h2; simp [AddBlockToGraph, h1, h2]
  · intro y; simp [AddBlockToGraph]
  · intro hcons a b
    have hnob : ∀ y, next h y ≠ some block := by
      intro y hy
      rw [(hcons y block).mp hy] at hbp
      cases hbp
    have hpob : ∀ y, previous h y ≠ some block := by
      intro y hy
      rw [(hcons block y).mpr hy] at hbn
      cases hbn
    simp only [AddBlockToGraph, next_ConnectBlocks, next_DisconnectBlocks,
      previous_ConnectBlocks, previous_DisconnectBlocks]
    by_cases ha1 : a = block
    · subst ha1
      by_cases hb3 : b = after
      · subst hb3; simp [hb2, hb1]
      · by_cases hb5 : b = a
        · subst hb5; simp [hb3, Ne.symm hb3, hb1, Ne.symm hb1]
        · simp [hb3, hb5, Ne.symm hb3, hpob b]
    · by_cases ha2 : a = before
      · subst ha2
        by_cases hb3 : b = block
        · subst hb3; simp [ha1, hb2, Ne.symm hb2]
        · by_cases hb4 : b = after
          · subst hb4; simp [ha1, hb3, Ne.symm ha1, hb2, Ne.symm hb2, hb1, Ne.symm hb1]
          · have hx : previous h b ≠ some a := by
              intro hp
              have := (hcons a b).mpr hp
              rw [hna] at this
              exact hb4 (Option.some.inj this).symm
            simp [ha1, hb3, hb4, Ne.symm hb3, hx]
      · by_cases hb3 : b = block
        · subst hb3
          simp [ha1, ha2, hb2, Ne.symm ha2, hnob a]
        · by_cases hb4 : b = after
          · subst hb4
            have hx : next h a ≠ some b := by
              intro hn
              have := (hcons a b).mp hn
              rw [hpa] at this
              exact ha2 (Option.some.inj this).symm
            simp [ha1, ha2, hb3, Ne.symm ha1, hx]
          · simp [ha1, ha2, hb3, hb4, hcons a b]

/-- Witness of C19: inserting the clip `I` between `A` and `B`. -/
theorem C19_insert_between_blocks_relinks_only_the_three_blocks_witness :
    (next heapABI 1 = some 2 ∧ previous heapABI 2 = some 1 ∧ previous heapABI 3 = none ∧
      next heapABI 3 = none) ∧
    ∃ h2, InsertBlockBetweenBlocks heapABI 3 1 (some 2) = some h2 ∧
      next h2 1 = some 3 ∧ previous h2 3 = some 1 ∧
      next h2 3 = some 2 ∧ previous h2 2 = some 3 := by
  refine ⟨⟨rfl, rfl, rfl, rfl⟩, ?_⟩
  obtain ⟨h2, e, h1, h3, h4, h5, -⟩ :=
    C19_insert_between_blocks_relinks_only_the_three_blocks heapABI 3 1 2 rfl rfl rfl rfl
  exact ⟨h2, e, h1, h3, h4, h5⟩

/-! ## The length of the tail of a splice -/

/-- `SpliceBlock` on an outer block that is not a track and has a next block,
with an inner block other than the outer one: the call returns, the tail copy
is the new pointer, and the three lengths are as assigned by the code. -/
theorem SpliceBlock_lengths {h : Heap} {inner outer n fuel : Nat} {time p q : ℚ}
    (hp : in_ h fuel outer = some p) (hq : out h fuel outer = some q)
    (h1 : p ≤ time) (h2 : time < q)
    (hty : (h.blocks outer).type ≠ BlockType.kEnd)
    (hn : next h outer = some n) (hio : inner ≠ outer)
    (hif : inner < h.fresh) (hof : outer < h.fresh) :
    ∃ h5, SpliceBlock h inner outer time fuel = some (h.fresh, h5) ∧
      length h5 outer = time - p ∧ length h5 inner = length h inner ∧
      length h5 h.fresh = length h outer - (time - p) - length h inner := by
  have hif2 : inner ≠ h.fresh := ne_of_lt hif
  have hof2 : outer ≠ h.fresh := ne_of_lt hof
  have hcond : time ≥ p ∧ time < q := ⟨h1, h2⟩
  obtain ⟨H2, e1, hfr, hnx, hlo2, hli2, hty2⟩ : ∃ H2,
      InsertBlockAfter (set_length h outer (time - p)) inner outer = some H2 ∧
      H2.fresh = h.fresh ∧ next H2 inner = some n ∧ length H2 outer = time - p ∧
      length H2 inner = length h inner ∧ (H2.blocks outer).type = (h.blocks outer).type := by
    refine ⟨ConnectBlocks (ConnectBlocks (DisconnectBlocks (set_length h outer (time - p))
      outer n) outer inner) inner n, ?_, ?_, ?_, ?_, ?_, ?_⟩
    · unfold InsertBlockAfter
      rw [next_set_length, hn]
      rfl
    · simp
    · simp
    · simp [length_set_length, hty]
    · simp [length_set_length, hio]
    · simp
  have hnx3 : ∀ len, next (set_length (copy H2 outer).2 h.fresh len) inner = some n := by
    intro len
    simp [copy, hfr, hif2, hnx]
  obtain ⟨h5, e5, hlen5⟩ : ∃ h5,
      InsertBlockAfter (set_length (copy H2 outer).2 h.fresh
        (length h outer - length (copy H2 outer).2 outer - length (copy H2 outer).2 inner))
        h.fresh inner = some h5 ∧
      ∀ y, length h5 y = length (set_length (copy H2 outer).2 h.fresh
        (length h outer - length (copy H2 outer).2 outer - length (copy H2 outer).2 inner)) y := by
    refine ⟨ConnectBlocks (ConnectBlocks (DisconnectBlocks (set_length (copy H2 outer).2 h.fresh
        (length h outer - length (copy H2 outer).2 outer - length (copy H2 outer).2 inner))
        inner n) inner h.fresh) h.fresh n, ?_, ?_⟩
    · unfold InsertBlockAfter
      rw [hnx3]
      rfl
    · intro y; simp
  have ecp : (copy H2 outer).1 = h.fresh := by simp [copy, hfr]
  refine ⟨h5, ?_, ?_, ?_, ?_⟩
  · unfold SpliceBlock
    simp only [hp, hq, hcond, and_self, if_true, e1]
    rw [ecp, e5]
    rfl
  · rw [hlen5]
    simp [copy, length_set_length, hfr, hof2, hlo2]
  · rw [hlen5]
    simp [copy, length_set_length, hfr, hif2, hli2]
  · rw [hlen5]
    simp [copy, length_set_length, hfr, hif2, hof2, hlo2, hli2, hty2, hty]

/-- C20: for an outer block occupying `[p, q)` (not itself a track, with a
next block), an inner block other than the outer one (both allocated) and
`p ≤ time < q`, `SpliceBlock` returns and gives the tail copy the length
`(q - p) - (time - p) - len(inner) = q - time - len(inner)`; this length is
non-negative exactly when `len(inner) ≤ q - time`, so it is negative for an
inner block longer than the rest of the outer block; the three lengths always
sum to `q - p`. -/
theorem C20_splice_tail_length_may_be_negative
    (h : Heap) (inner outer n fuel : Nat) (time p q : ℚ)
    (hp : in_ h fuel outer = some p) (hq : out h fuel outer = some q)
    (h1 : p ≤ time) (h2 : time < q)
    (hty : (h.blocks outer).type ≠ BlockType.kEnd)
    (hn : next h outer = some n) (hio : inner ≠ outer)
    (hif : inner < h.fresh) (hof : outer < h.fresh) :
    ∃ cp h5, SpliceBlock h inner outer time fuel = some (cp, h5) ∧
      length h5 cp = (q - p) - (time - p) - length h inner ∧
      length h5 cp = q - time - length h inner ∧
      (0 ≤ length h5 cp ↔ length h inner ≤ q - time) ∧
      (q - time < length h inner → length h5 cp < 0) ∧
      length h5 outer = time - p ∧ length h5 inner = length h inner ∧
      length h5 outer + length h5 inner + length h5 cp = q - p := by
  obtain ⟨h5, e, hlo, hli, hlc⟩ := SpliceBlock_lengths hp hq h1 h2 hty hn hio hif hof
  have hq2 := out_eq_of_in hp hq
  have hlc2 : length h5 h.fresh = q - time - length h inner := by rw [hlc, hq2]; ring
  refine ⟨h.fresh, h5, e, by rw [hlc2]; ring, hlc2, ?_, ?_, hlo, hli, ?_⟩
  · rw [hlc2]; constructor <;> intro hh <;> linarith
  · intro hh; rw [hlc2]; linarith
  · rw [hlo, hli, hlc2]; ring

/-- Witness of C20: splicing a clip of length 2 into `A` of `[A:0-5, B:5-10]`
at time 4 gives the tail the length `5 - 4 - 2 = -1`. -/
theorem C20_splice_tail_length_may_be_negative_witness :
    (in_ heapABI 6 1 = some 0 ∧ out heapABI 6 1 = some 5 ∧ (0 : ℚ) ≤ 4 ∧ (4 : ℚ) < 5 ∧
      next heapABI 1 = some 2) ∧
    ∃ cp h5, SpliceBlock heapABI 3 1 4 6 = some (cp, h5) ∧ length h5 cp = -1 ∧
      length h5 1 + length h5 3 + length h5 cp = 5 := by
  have hp : in_ heapABI 6 1 = some 0 := by decide!
  have hq : out heapABI 6 1 = some 5 := by decide!
  refine ⟨⟨hp, hq, by norm_num, by norm_num, rfl⟩, ?_⟩
  obtain ⟨cp, h5, e, -, hlc, -, -, -, -, hsum⟩ :=
    C20_splice_tail_length_may_be_negative heapABI 3 1 2 6 4 0 5 hp hq (by norm_num)
      (by norm_num) (by decide) rfl (by decide) (by decide) (by decide)
  have hl : length heapABI 3 = 2 := by decide!
  rw [hl] at hlc
  exact ⟨cp, h5, e, by rw [hlc]; norm_num, by rw [hsum]; norm_num⟩

/-! ## Sequences of editor calls, whatever a link change does to the cache -/

theorem relinked_false (t : TrackOutput) (fuel : Nat) (r : Option Heap) :
    relinked false t fuel r = r.map (fun h2 => (h2, t)) := by
  cases r <;> rfl

/-- Why a block to insert must not be in the chain already: from the empty
track the calls `PrependBlock(b)`, `InsertBlockAfter(b, b)` return and link `b`
to itself (`ConnectBlocks(before, block)` with `before == block`, then
`ConnectBlocks(block, track)`); the walk of `Refresh()` from the attached block
`b` then never reaches the null pointer, whatever the old cache and the fuel,
so no cache is produced. -/
theorem Refresh_never_returns_after_self_insertion :
    attached_block heapEmpty track0 = none ∧ track0.block_cache_ = [] ∧
    ∃ h2, InsertBlockAfter (PrependBlock heapEmpty track0 1) 1 1 = some h2 ∧
      attached_block h2 track0 = some 1 ∧ previous h2 1 = some 1 ∧
      ∀ (cache : List Nat) (fuel : Nat),
        Refresh h2 { track0 with block_cache_ := cache } fuel = none := by
  have hn : next (PrependBlock heapEmpty track0 1) 1 = some 0 := by
    simp [PrependBlock, ConnectBlockInternal, AddBlockToGraph, track0]
  refine ⟨rfl, rfl, _, by unfold InsertBlockAfter; rw [hn]; rfl, ?_, ?_, ?_⟩
  · simp [attached_block, track0, AddBlockToGraph]
  · simp [AddBlockToGraph]
  · intro cache fuel
    unfold Refresh attached_block
    have h0 : previous (ConnectBlocks (ConnectBlocks (DisconnectBlocks
        (AddBlockToGraph (PrependBlock heapEmpty track0 1) 1) 1 0) 1 1) 1 0)
        ({ track0 with block_cache_ := cache } : TrackOutput).this = some 1 := by
      simp [track0, AddBlockToGraph]
    have hself : previous (ConnectBlocks (ConnectBlocks (DisconnectBlocks
        (AddBlockToGraph (PrependBlock heapEmpty track0 1) 1) 1 0) 1 1) 1 0) 1 = some 1 := by
      simp [AddBlockToGraph]
    rw [h0, refreshLoop_self_linked hself]

end Olive
